import Mathlib

/-!
Verification of the Entity Resolver core of the bionic dataflow engine
(`src/bionic/resolver.py`), as a shallow embedding in Lean 4.

The resolver drives a work-list evaluation over a DAG of task states,
memoizing results in memory and (for persistable providers) in a
persistent cache that is itself bootstrapped by resolving an internal
entity.  The embedding below follows `resolver.py` statement by
statement; the value types (`Provenance`, `Query`, `Result`,
`ResultGroup`, `Task`) live in the repository module `datatypes.py`
which is not part of the sources at hand, so they are modelled from the
specification document, which defines them field by field.

Python dictionaries are modelled as association lists with
insertion-order semantics (`dlookup` / `dinsert` / `dictOf`); Python
exceptions are modelled with explicit error outcomes that also carry the
mutable state at the point of the raise; unbounded loops and recursion
are modelled with fuel, where exhausting every fuel corresponds to
non-termination.
-/

/-- Dictionary lookup on an association list (first binding wins, which
agrees with `dinsert` keeping a single binding per key). -/
def dlookup {α β : Type} [DecidableEq α] : List (α × β) → α → Option β
  | [], _ => none
  | (a, b) :: l, k => if k = a then some b else dlookup l k

/-- Dictionary insert with Python `dict` semantics: overwriting an
existing key keeps its position, a fresh key is appended at the end. -/
def dinsert {α β : Type} [DecidableEq α] : List (α × β) → α → β → List (α × β)
  | [], k, v => [(k, v)]
  | (a, b) :: l, k, v => if k = a then (k, v) :: l else (a, b) :: dinsert l k v

/-- Build a dictionary from a list of bindings, later bindings
overwriting earlier ones, exactly like `dict(pairs)` in Python. -/
def dictOf {α β : Type} [DecidableEq α] (l : List (α × β)) : List (α × β) :=
  l.foldl (fun m p => dinsert m p.1 p.2) []

namespace Bionic

/-- Values flowing through the engine.  The resolver treats them as
plain payloads, so natural numbers suffice for the embedding. -/
abbrev Value := Nat

/-- Entity names are identifiers; names starting with `core__` are
internal. -/
abbrev EntityName := String

/-- Modelled from the spec: a case key is an ordered mapping from
parameter name to value, identifying one instance of an entity. -/
abbrev CaseKey := List (String × Value)

/-- Modelled from the spec: a task key is the pair of an entity name and
a case key, uniquely identifying one producible artifact. -/
structure TaskKey where
  entity_name : EntityName
  case_key : CaseKey
deriving DecidableEq

/-- Modelled from the spec: the key space of an entity is the collection
of case keys it is defined over. -/
abbrev KeySpace := List CaseKey

/-- Modelled from the spec: provenance records how a value came to be: a
code identifier, the case key, and a mapping from each dependency name
to that dependency's provenance (`Provenance.from_computation` in the
missing `datatypes.py`). -/
inductive Provenance where
  | fromComputation (code_id : Nat) (case_key : CaseKey)
      (dep_provenances_by_name : List (EntityName × Provenance))

mutual

def provDecEq : (a b : Provenance) → Decidable (a = b)
  | .fromComputation c1 k1 d1, .fromComputation c2 k2 d2 =>
    match provDepsDecEq d1 d2 with
    | isTrue hd =>
      if hc : c1 = c2 then
        if hk : k1 = k2 then isTrue (by rw [hc, hk, hd])
        else isFalse (fun h => by injection h with h1 h2 h3; exact hk h2)
      else isFalse (fun h => by injection h with h1 h2 h3; exact hc h1)
    | isFalse hd => isFalse (fun h => by injection h with h1 h2 h3; exact hd h3)
termination_by structural a b => a

def provDepsDecEq : (a b : List (EntityName × Provenance)) → Decidable (a = b)
  | [], [] => isTrue rfl
  | [], _ :: _ => isFalse (fun h => by cases h)
  | _ :: _, [] => isFalse (fun h => by cases h)
  | (n1, p1) :: r1, (n2, p2) :: r2 =>
    match provDecEq p1 p2, provDepsDecEq r1 r2 with
    | isTrue hp, isTrue hr =>
      if hn : n1 = n2 then isTrue (by rw [hn, hp, hr])
      else isFalse (fun h => by
        injection h with h1 h2
        injection h1 with h3 h4
        exact hn h3)
    | isFalse hp, _ => isFalse (fun h => by
        injection h with h1 h2
        injection h1 with h3 h4
        exact hp h4)
    | _, isFalse hr => isFalse (fun h => by
        injection h with h1 h2
        exact hr h2)
termination_by structural a b => a

end

instance : DecidableEq Provenance := provDecEq

/-- Protocols are external validators; the embedding identifies a
protocol by an id and keeps the validation behavior in the flow state. -/
abbrev Protocol := Nat

/-- Modelled from the spec: a query is the addressable identity of a
result request. -/
structure Query where
  name : EntityName
  protocol : Protocol
  case_key : CaseKey
  provenance : Provenance
deriving DecidableEq

/-- Modelled from the spec: a result is a query paired with its value. -/
structure Result where
  query : Query
  value : Value
deriving DecidableEq

/-- Modelled from the spec: a result group is an ordered list of results
together with the originating key space. -/
structure ResultGroup where
  results : List Result
  key_space : KeySpace
deriving DecidableEq

/-- Modelled from the spec: a task produces values for one or more task
keys from the values of its dependencies; `compute` is a pure function. -/
structure Task where
  keys : List TaskKey
  dep_keys : List TaskKey
  compute : List Value → List Value
  is_simple_lookup : Bool

instance : Inhabited Task := ⟨⟨[], [], fun _ => [], false⟩⟩

/-- Modelled from the spec: `Task.key_for_entity_name` (missing
`datatypes.py`) returns the task's key carrying the given entity name. -/
def Task.key_for_entity_name (t : Task) (n : EntityName) : Option TaskKey :=
  t.keys.find? (fun k => k.entity_name == n)

/-- Modelled from the spec: the persistent cache contract.  The cache is
out-of-scope for the core, so only its contract is modelled: a store
keyed by query, plus the serialization round-trip transformation `canon`
applied on save (so a reload may return a value that is semantically
equal but physically different from the saved one). -/
structure CacheState where
  entries : List (Query × Value)
  canon : Value → Value

/-- Modelled from the spec: `load(query)` is a pure lookup returning a
Result or absent. -/
def cacheLoad (c : CacheState) (q : Query) : Option Result :=
  (dlookup c.entries q).map (fun v => ⟨q, v⟩)

/-- Modelled from the spec: `save(result)` persists the (serialized)
value so that a subsequent `load` of the same query succeeds. -/
def cacheSave (c : CacheState) (r : Result) : CacheState :=
  ⟨dinsert c.entries r.query (c.canon r.value), c.canon⟩

/-- Modelled from the spec: the provider interface (external contract). -/
structure Provider where
  names : List EntityName
  dep_names : List EntityName
  get_key_space : List (EntityName × KeySpace) → KeySpace
  get_tasks : List (EntityName × KeySpace) → List (EntityName × List TaskKey) → List Task
  get_code_id : CaseKey → Nat
  protocol_for_name : EntityName → Protocol
  should_persist : Bool

/-- Modelled from the spec: the flow registry exposing
`providers_by_name` and `get_provider`.  Providers are stored once and
referenced by index, so that the source's identity check on the set of
providers of a joint task is decidable.  `validate` gives each protocol
its validation behavior; `cache_for_value` interprets the value of the
bootstrap entity `core__persistent_cache` as a cache object. -/
structure FlowState where
  providers_by_name : List (EntityName × Nat)
  providers : List Provider
  validate : Protocol → Value → Bool
  cache_for_value : Value → CacheState

def FlowState.get_provider_id (fs : FlowState) (n : EntityName) : Option Nat :=
  dlookup fs.providers_by_name n

def FlowState.get_provider (fs : FlowState) (n : EntityName) : Option Provider := do
  let i ← fs.get_provider_id n
  fs.providers.get? i

/-- Observable events of a resolver run: the in-memory-cache access log
line, every call of the persistent cache's `load` (with whether it hit),
every `save`, every protocol validation, and every invocation of a
task's `compute` (tagged with the task-state index and its keys). -/
inductive Event where
  | accessedMem (k : TaskKey)
  | loadCall (q : Query) (hit : Bool)
  | saveCall (q : Query) (v : Value)
  | validateCall (q : Query) (v : Value)
  | computed (i : Nat) (keys : List TaskKey)
deriving DecidableEq

/-- Error kinds raised by the resolver, mirroring the Python exceptions:
`UndefinedEntityError`, `KeyError`/`IndexError`/`AttributeError` on
internal lookups, the `assert` statements, the `ValueError`s of
`_bootstrap_singleton`, the unpacking errors of the provider/case-key
consistency checks, and protocol validation failures. -/
inductive EvalErr where
  | undefinedEntity (n : EntityName)
  | keyError
  | indexError
  | assertBlocked
  | assertBootstrapPersist (names : List EntityName)
  | assertLenValues
  | assertLenResults
  | protocolError (q : Query)
  | providerMismatch
  | caseKeyMismatch
  | assertBlockedNonempty
  | assertNotComplete
  | bootstrapZero (n : EntityName)
  | bootstrapMany (n : EntityName) (vs : List Value)
deriving DecidableEq

/-- Outcome of graph building: fuel exhaustion models non-terminating
recursion, `err` models a Python exception. -/
inductive BRes (α : Type) where
  | timeout
  | err (e : EvalErr)
  | ok (a : α)
deriving DecidableEq

/-- The per-entity data produced by `_populate_entity_info`:
`_key_spaces_by_entity_name` and `_task_lists_by_entity_name`. -/
structure BuildAcc where
  key_spaces : List (EntityName × KeySpace)
  task_lists : List (EntityName × List Task)

/-- The `dep_key_spaces_by_name` dictionary of `_populate_entity_info`
(lines 166-169): fails if a dependency was not populated. -/
def collectDepKeySpaces (acc : BuildAcc) : List EntityName → Option (List (EntityName × KeySpace))
  | [] => some []
  | n :: ns => do
    let ks ← dlookup acc.key_spaces n
    let rest ← collectDepKeySpaces acc ns
    pure ((n, ks) :: rest)

/-- The `dep_task_key_lists_by_name` dictionary of
`_populate_entity_info` (lines 171-177). -/
def collectDepTaskKeys (acc : BuildAcc) : List EntityName → Option (List (EntityName × List TaskKey))
  | [] => some []
  | n :: ns => do
    let ts ← dlookup acc.task_lists n
    let keys ← ts.mapM (fun t => t.key_for_entity_name n)
    let rest ← collectDepTaskKeys acc ns
    pure ((n, keys) :: rest)

/-- `EntityResolver._populate_entity_info` (lines 156-184) together
with the loops that drive it (the recursion over the dependency names,
lines 163-164, and the loop over the registered entities in
`_get_ready_for_bootstrap_resolution`, lines 133-134), as one
fuel-indexed work list over entity names: populate the first name — if
it is not already memoized, recurse into its dependency list first,
then write its key space and task list — and continue with the
remaining names.  The memo entry is only written after the dependency
recursion returns, so a dependency cycle recurses forever; fuel,
consumed on every recursive call, models that divergence. -/
def populateGo (fs : FlowState) : Nat → List EntityName → BuildAcc → BRes BuildAcc
  | 0, _, _ => .timeout
  | _ + 1, [], acc => .ok acc
  | fuel + 1, name :: rest, acc =>
    if (dlookup acc.task_lists name).isSome then populateGo fs fuel rest acc
    else
      match fs.get_provider name with
      | none => .err (.undefinedEntity name)
      | some p =>
        match populateGo fs fuel p.dep_names acc with
        | .timeout => .timeout
        | .err e => .err e
        | .ok acc1 =>
          match collectDepKeySpaces acc1 p.dep_names, collectDepTaskKeys acc1 p.dep_names with
          | some dks, some dtk =>
            populateGo fs fuel rest
              ⟨dinsert acc1.key_spaces name (p.get_key_space dks),
               dinsert acc1.task_lists name (p.get_tasks dks dtk)⟩
          | _, _ => .err .keyError

/-- The static task graph built by
`_get_ready_for_bootstrap_resolution`: the arena of task states (one per
`TaskState(task)` construction, in creation order), the parent/child
adjacency (`TaskState.parents` / `TaskState.children` as state indices),
and the dictionaries `_task_states_by_key`, `_task_lists_by_entity_name`
and `_key_spaces_by_entity_name`. -/
structure Graph where
  tasks : List Task
  parentsL : List (List Nat)
  childrenL : List (List Nat)
  keyToState : List (TaskKey × Nat)
  task_lists : List (EntityName × List Task)
  key_spaces : List (EntityName × KeySpace)

/-- The task-state arena: `TaskState(task)` is constructed for every
task of every entity list in order (lines 138-142); a joint task that
appears in several entity lists is constructed several times, and only
the last construction stays reachable through `_task_states_by_key`. -/
def arenaOf (acc : BuildAcc) : List Task :=
  acc.task_lists.foldl (fun l p => l ++ p.2) []

/-- `_task_states_by_key` (lines 140-142): every key of every task maps
to that task's state, later constructions overwriting earlier ones. -/
def keyMapOf (arena : List Task) : List (TaskKey × Nat) :=
  arena.enum.foldl (fun m p => p.2.keys.foldl (fun m2 k => dinsert m2 k p.1) m) []

/-- Replace index `i` of a list of adjacency lists by pushing `j`. -/
def adjPush (l : List (List Nat)) (i j : Nat) : List (List Nat) :=
  l.set i (l.getD i [] ++ [j])

/-- Wire one task into the parent/child adjacency (lines 145-152):
`task_state = task_states_by_key[task.keys[0]]`, then for each dep key
append the dep state to `parents` and the state to the dep's
`children`. -/
def wireTask (km : List (TaskKey × Nat)) (pcs : List (List Nat) × List (List Nat)) (t : Task) :
    Except EvalErr (List (List Nat) × List (List Nat)) :=
  match t.keys.head? with
  | none => .error .indexError
  | some k0 =>
    match dlookup km k0 with
    | none => .error .keyError
    | some i =>
      t.dep_keys.foldlM (fun pcs1 dk =>
        match dlookup km dk with
        | none => .error .keyError
        | some j => .ok (adjPush pcs1.1 i j, adjPush pcs1.2 j i)) pcs

/-- The full wiring loop over every entity's task list, in order. -/
def buildWiring (km : List (TaskKey × Nat)) (n : Nat) (pairs : List Task) :
    Except EvalErr (List (List Nat) × List (List Nat)) :=
  pairs.foldlM (wireTask km) (List.replicate n [], List.replicate n [])

/-- `_get_ready_for_bootstrap_resolution` (lines 126-154): populate
every registered entity, create the task-state arena and the key map,
and wire the parent/child graph. -/
def buildGraph (fs : FlowState) (fuel : Nat) : BRes Graph :=
  match populateGo fs fuel (fs.providers_by_name.map Prod.fst) ⟨[], []⟩ with
  | .timeout => .timeout
  | .err e => .err e
  | .ok acc =>
    let arena := arenaOf acc
    let km := keyMapOf arena
    match buildWiring km arena.length arena with
    | .error e => .err e
    | .ok pcs => .ok ⟨arena, pcs.1, pcs.2, km, acc.task_lists, acc.key_spaces⟩

/-- Number of task states in the arena. -/
def nstates (g : Graph) : Nat := g.tasks.length

/-- The task of the state at index `i` (total; indices are kept in range
by the invariants). -/
def taskAt (g : Graph) (i : Nat) : Task := g.tasks.getD i default

/-- `state.task.keys` for the state at index `i`. -/
def keysOf (g : Graph) (i : Nat) : List TaskKey := (taskAt g i).keys

/-- `state.parents` as state indices. -/
def parentsAt (g : Graph) (i : Nat) : List Nat := g.parentsL.getD i []

/-- `state.children` as state indices. -/
def childrenAt (g : Graph) (i : Nat) : List Nat := g.childrenL.getD i []

/-- `TaskState.results_by_name`, per state index; `none` mirrors the
initial `None`. -/
abbrev ResultsMap := List (EntityName × Result)

/-- The table of every state's `results_by_name`. -/
abbrev ResultsTable := List (Option ResultsMap)

/-- `TaskState.is_complete` (line 382): `results_by_name is not None`. -/
def isCompleteAt (res : ResultsTable) (i : Nat) : Bool := (res.getD i none).isSome

/-- `TaskState.is_blocked` (line 385): some parent is not complete. -/
def isBlockedAt (g : Graph) (res : ResultsTable) (i : Nat) : Bool :=
  !((parentsAt g i).all (fun p => isCompleteAt res p))

/-- The `dep_results` gathering of `_compute_task_state` (lines
263-268): look up each dep key's state and its result for the dep's
entity name. -/
def gatherDeps (g : Graph) (res : ResultsTable) : List TaskKey → Option (List Result)
  | [] => some []
  | dk :: dks => do
    let j ← dlookup g.keyToState dk
    let m ← res.getD j none
    let r ← dlookup m dk.entity_name
    let rest ← gatherDeps g res dks
    pure (r :: rest)

/-- Models Python's `x, = set(lst)`: succeeds exactly when the list is
nonempty and all its elements are equal, returning that element. -/
def allEqHead {α : Type} [DecidableEq α] : List α → Option α
  | [] => none
  | a :: l => if l.all (fun b => b = a) then some a else none

/-- Everything `_compute_task_state` establishes before the caching and
compute phases (lines 260-299): the dep results, the unique provider and
case key of the task's keys, and the per-output queries sharing one
provenance. -/
structure TaskSetup where
  task : Task
  dep_results : List Result
  pid : Nat
  provider : Provider
  case_key : CaseKey
  tk_queries : List Query

/-- Lines 260-299 of `_compute_task_state`: the blocked assert, dep
gathering, the provider and case-key consistency checks, and the
construction of the provenance and the per-output queries. -/
def taskSetup (fs : FlowState) (g : Graph) (res : ResultsTable) (i : Nat) :
    Except EvalErr TaskSetup :=
  match g.tasks.get? i with
  | none => .error .indexError
  | some task =>
    if isBlockedAt g res i then .error .assertBlocked
    else
      match gatherDeps g res task.dep_keys with
      | none => .error .keyError
      | some dep_results =>
        match task.keys.find? (fun k => (fs.get_provider_id k.entity_name).isNone) with
        | some k => .error (.undefinedEntity k.entity_name)
        | none =>
          match allEqHead (task.keys.filterMap (fun k => fs.get_provider_id k.entity_name)) with
          | none => .error .providerMismatch
          | some pid =>
            match fs.providers.get? pid with
            | none => .error .keyError
            | some provider =>
              match allEqHead (task.keys.map (fun k => k.case_key)) with
              | none => .error .caseKeyMismatch
              | some ck =>
                let provenance := Provenance.fromComputation (provider.get_code_id ck) ck
                  (dictOf (dep_results.map (fun r => (r.query.name, r.query.provenance))))
                .ok ⟨task, dep_results, pid, provider, ck,
                  task.keys.map (fun k =>
                    ⟨k.entity_name, provider.protocol_for_name k.entity_name, ck, provenance⟩)⟩

/-- The cache lookup phase (lines 307-317): `load` each output query in
order; stop at the first miss (discarding partial hits), return the
loaded results only when every query hits. -/
def tryLoadAll (c : CacheState) : List Query → List Event × Option (List Result)
  | [] => ([], some [])
  | q :: qs =>
    match cacheLoad c q with
    | some r =>
      let rest := tryLoadAll c qs
      (.loadCall q true :: rest.1, rest.2.map (fun l => r :: l))
    | none => ([.loadCall q false], none)

/-- The per-output loop of the compute phase (lines 332-351): validate
the value against the query's protocol, and if persisting, save the
result and immediately reload it, the reloaded result becoming the one
that is kept. -/
def processOutputs (fs : FlowState) (persist : Bool) :
    Option CacheState → List (Value × Query) →
    Except (EvalErr × Option CacheState × List Event) (List Result × Option CacheState × List Event)
  | cache, [] => .ok ([], cache, [])
  | cache, (v, q) :: rest =>
    if fs.validate q.protocol v then
      if persist then
        match cache with
        | none => .error (.keyError, none, [.validateCall q v])
        | some c =>
          let c1 := cacheSave c ⟨q, v⟩
          match cacheLoad c1 q with
          | none => .error (.keyError, some c1, [.validateCall q v, .saveCall q (c.canon v)])
          | some r1 =>
            match processOutputs fs persist (some c1) rest with
            | .error (e, c2, evs) =>
              .error (e, c2, .validateCall q v :: .saveCall q (c.canon v) :: .loadCall q true :: evs)
            | .ok (rs, c2, evs) =>
              .ok (r1 :: rs, c2, .validateCall q v :: .saveCall q (c.canon v) :: .loadCall q true :: evs)
      else
        match processOutputs fs persist cache rest with
        | .error (e, c2, evs) => .error (e, c2, .validateCall q v :: evs)
        | .ok (rs, c2, evs) => .ok (⟨q, v⟩ :: rs, c2, .validateCall q v :: evs)
    else .error (.protocolError q, cache, [.validateCall q v])

/-- Lines 353-357: the final length assert against `task.keys` and the
installation of `results_by_name`. -/
def installResults (su : TaskSetup) (rs : List Result) (cache : Option CacheState)
    (evs : List Event) :
    Except (EvalErr × Option CacheState × List Event) (ResultsMap × Option CacheState × List Event) :=
  if rs.length = su.task.keys.length then
    .ok (dictOf ((su.task.keys.zip rs).map (fun p => (p.1.entity_name, p.2))), cache, evs)
  else .error (.assertLenResults, cache, evs)

/-- The compute phase (lines 321-351): invoke `task.compute` on the dep
values, assert the output count against the provider's declared names,
then validate/persist each output. -/
def computePhase (fs : FlowState) (persist : Bool) (i : Nat) (su : TaskSetup)
    (cache : Option CacheState) (evs0 : List Event) :
    Except (EvalErr × Option CacheState × List Event) (ResultsMap × Option CacheState × List Event) :=
  let tk_values := su.task.compute (su.dep_results.map (fun r => r.value))
  let evs1 := evs0 ++ [.computed i su.task.keys]
  if tk_values.length = su.provider.names.length then
    match processOutputs fs persist cache (tk_values.zip su.tk_queries) with
    | .error (e, c2, evs) => .error (e, c2, evs1 ++ evs)
    | .ok (rs, c2, evs) => installResults su rs c2 (evs1 ++ evs)
  else .error (.assertLenValues, cache, evs1)

/-- `EntityResolver._compute_task_state` (lines 259-357), as a pure
function from the state tables to either an error (with the cache state
and the events at the raise point) or the new `results_by_name` of state
`i`. -/
def computeTaskState (fs : FlowState) (fullReady : Bool) (g : Graph) (i : Nat)
    (res : ResultsTable) (cache : Option CacheState) :
    Except (EvalErr × Option CacheState × List Event) (ResultsMap × Option CacheState × List Event) :=
  match taskSetup fs g res i with
  | .error e => .error (e, cache, [])
  | .ok su =>
    if su.provider.should_persist then
      if fullReady then
        match cache with
        | none => .error (.keyError, cache, [])
        | some c =>
          match tryLoadAll c su.tk_queries with
          | (evs, some rs) => installResults su rs (some c) evs
          | (evs, none) => computePhase fs true i su (some c) evs
      else .error (.assertBootstrapPersist su.provider.names, cache, [])
    else computePhase fs false i su cache []

/-- The mutable state of the work-list loop of
`_compute_result_group_for_entity_name` (lines 209-245): the ready stack
(head is the top, mirroring Python's `list.pop()` from the end), the
blocked key-tuple set, the logged key set, the result tables of every
state, the persistent cache, and the event trace so far. -/
structure LoopState where
  ready : List Nat
  blocked : List (List TaskKey)
  logged : List TaskKey
  results : ResultsTable
  cache : Option CacheState
  trace : List Event

/-- Outcome of the work-list loop: `timeout` models non-termination,
`err` models a propagating exception together with the loop state at the
raise point. -/
inductive WOut where
  | timeout
  | err (e : EvalErr) (ls : LoopState)
  | ok (ls : LoopState)

/-- Lines 219-225: emit one access-log event per not-yet-logged key of a
complete state. -/
def accessLogs : List TaskKey → List TaskKey → List TaskKey × List Event
  | [], logged => (logged, [])
  | k :: ks, logged =>
    if k ∈ logged then accessLogs ks logged
    else
      let rest := accessLogs ks (k :: logged)
      (rest.1, .accessedMem k :: rest.2)

/-- Lines 234-238: after computing a state, move each of its children
that was blocked and is no longer blocked from the blocked set to the
ready stack. -/
def promote (g : Graph) (res : ResultsTable) :
    List Nat → List Nat → List (List TaskKey) → List Nat × List (List TaskKey)
  | [], ready, blocked => (ready, blocked)
  | c :: cs, ready, blocked =>
    if keysOf g c ∈ blocked ∧ isBlockedAt g res c = false then
      promote g res cs (c :: ready) (blocked.erase (keysOf g c))
    else promote g res cs ready blocked

/-- The work-list loop (lines 215-245): pop a state; if complete, log
accesses; if not blocked, evaluate it and promote unblocked children; if
blocked, push its incomplete parents and record it as blocked. -/
def worklist (fs : FlowState) (fullReady : Bool) (g : Graph) : Nat → LoopState → WOut
  | 0, _ => .timeout
  | fuel + 1, ls =>
    match ls.ready with
    | [] => .ok ls
    | i :: rest =>
      if isCompleteAt ls.results i then
        let la := accessLogs (keysOf g i) ls.logged
        worklist fs fullReady g fuel
          ⟨rest, ls.blocked, la.1, ls.results, ls.cache, ls.trace ++ la.2⟩
      else if isBlockedAt g ls.results i then
        let ready1 := (parentsAt g i).foldl
          (fun acc p => if isCompleteAt ls.results p then acc else p :: acc) rest
        worklist fs fullReady g fuel
          ⟨ready1, ls.blocked.insert (keysOf g i), ls.logged, ls.results, ls.cache, ls.trace⟩
      else
        match computeTaskState fs fullReady g i ls.results ls.cache with
        | .error ecs =>
          .err ecs.1 ⟨rest, ls.blocked, ls.logged, ls.results, ecs.2.1, ls.trace ++ ecs.2.2⟩
        | .ok mcs =>
          let results1 := ls.results.set i (some mcs.1)
          let logged1 := (keysOf g i).foldl (fun lg k => if k ∈ lg then lg else k :: lg) ls.logged
          let pr := promote g results1 (childrenAt g i) rest ls.blocked
          worklist fs fullReady g fuel
            ⟨pr.1, pr.2, logged1, results1, mcs.2.1, ls.trace ++ mcs.2.2⟩

/-- The resolver object: the flow registry, the two readiness flags, the
graph built at bootstrap, the in-memory result table of every task
state, and the persistent cache adopted at full readiness. -/
structure Resolver where
  flow : FlowState
  bootstrap_ready : Bool
  graph : Option Graph
  results : ResultsTable
  full_ready : Bool
  cache : Option CacheState

instance : Inhabited FlowState := ⟨⟨[], [], fun _ _ => true, fun _ => ⟨[], id⟩⟩⟩

instance : Inhabited Resolver := ⟨⟨default, false, none, [], false, none⟩⟩

/-- Outcome of a driver-level operation: `err` carries the resolver
state at the raise point (Python mutates `self` in place, so state
changes made before an exception survive it) together with the events
emitted so far. -/
inductive ROut (α : Type) where
  | timeout
  | err (e : EvalErr) (r : Resolver) (tr : List Event)
  | ok (a : α) (r : Resolver) (tr : List Event)

/-- Lines 205-208: the states of the tasks producing the entity, looked
up through `task.keys[0]`. -/
def requestedIdx (g : Graph) : List Task → Option (List Nat)
  | [] => some []
  | t :: ts => do
    let k ← t.keys.head?
    let i ← dlookup g.keyToState k
    let rest ← requestedIdx g ts
    pure (i :: rest)

/-- Lines 251-255: collect `results_by_name[entity_name]` of every
requested state. -/
def collectResults (res : ResultsTable) (name : EntityName) : List Nat → Option (List Result)
  | [] => some []
  | i :: is => do
    let m ← res.getD i none
    let r ← dlookup m name
    let rest ← collectResults res name is
    pure (r :: rest)

/-- `EntityResolver._compute_result_group_for_entity_name` (lines
200-257): build the requested list, run the work-list, assert that
nothing stayed blocked and every requested state is complete, and
package the ResultGroup.  The initial ready stack is the requested list
reversed because Python pops from the end of the list. -/
def computeResultGroup (r : Resolver) (name : EntityName) (fuel : Nat) : ROut ResultGroup :=
  match r.graph with
  | none => .err .keyError r []
  | some g =>
    match dlookup g.task_lists name with
    | none => .err (.undefinedEntity name) r []
    | some tasks =>
      match requestedIdx g tasks with
      | none => .err .indexError r []
      | some req =>
        match worklist r.flow r.full_ready g fuel ⟨req.reverse, [], [], r.results, r.cache, []⟩ with
        | .timeout => .timeout
        | .err e ls => .err e { r with results := ls.results, cache := ls.cache } ls.trace
        | .ok ls =>
          let r1 := { r with results := ls.results, cache := ls.cache }
          if ls.blocked = [] then
            if req.all (fun i => isCompleteAt ls.results i) then
              match collectResults ls.results name req with
              | none => .err .keyError r1 ls.trace
              | some results =>
                match dlookup g.key_spaces name with
                | none => .err .keyError r1 ls.trace
                | some ks => .ok ⟨results, ks⟩ r1 ls.trace
            else .err .assertNotComplete r1 ls.trace
          else .err .assertBlockedNonempty r1 ls.trace

/-- `entity_is_internal` (lines 110-111): the name starts with the
reserved prefix string (checked on the character lists). -/
def entity_is_internal (n : EntityName) : Bool :=
  List.isPrefixOf "core__".toList n.toList

/-- `_get_ready_for_bootstrap_resolution` (lines 126-154): build the
graph once and set the bootstrap flag; idempotent through the flag. -/
def getReadyBootstrap (r : Resolver) (fuel : Nat) : ROut Unit :=
  if r.bootstrap_ready then .ok () r []
  else
    match buildGraph r.flow fuel with
    | .timeout => .timeout
    | .err e => .err e r []
    | .ok g => .ok () { r with graph := some g,
                               results := List.replicate g.tasks.length none,
                               bootstrap_ready := true } []

/-- `_get_ready_for_full_resolution` plus `_bootstrap_singleton` (lines
115-124 and 186-198): after bootstrap readiness, resolve
`core__persistent_cache` through the bootstrap path; zero values or more
than one raise `ValueError`, otherwise the single value is adopted as
the persistent cache and the full-readiness flag is set. -/
def getReadyFull (r : Resolver) (fuel : Nat) : ROut Unit :=
  if r.full_ready then .ok () r []
  else
    match getReadyBootstrap r fuel with
    | .timeout => .timeout
    | .err e r1 tr => .err e r1 tr
    | .ok _ r1 tr1 =>
      match computeResultGroup r1 "core__persistent_cache" fuel with
      | .timeout => .timeout
      | .err e r2 tr2 => .err e r2 (tr1 ++ tr2)
      | .ok rg r2 tr2 =>
        if rg.results.length = 0 then
          .err (.bootstrapZero "core__persistent_cache") r2 (tr1 ++ tr2)
        else if rg.results.length > 1 then
          .err (.bootstrapMany "core__persistent_cache" (rg.results.map (fun x => x.value)))
            r2 (tr1 ++ tr2)
        else
          match rg.results.head? with
          | none => .err .indexError r2 (tr1 ++ tr2)
          | some r0 =>
            .ok () { r2 with cache := some (r2.flow.cache_for_value r0.value),
                             full_ready := true } (tr1 ++ tr2)

/-- `EntityResolver.get_ready` (lines 35-40). -/
def getReady (r : Resolver) (fuel : Nat) : ROut Unit := getReadyFull r fuel

/-- `EntityResolver.resolve` (lines 42-48): `get_ready` then compute the
result group for the entity. -/
def resolve (r : Resolver) (name : EntityName) (fuel : Nat) : ROut ResultGroup :=
  match getReadyFull r fuel with
  | .timeout => .timeout
  | .err e r1 tr => .err e r1 tr
  | .ok _ r1 tr1 =>
    match computeResultGroup r1 name fuel with
    | .timeout => .timeout
    | .err e r2 tr2 => .err e r2 (tr1 ++ tr2)
    | .ok rg r2 tr2 => .ok rg r2 (tr1 ++ tr2)

/-- A sequence of `resolve` calls against the same resolver object, with
the traces of all calls concatenated. -/
def resolveSeq (r : Resolver) (fuel : Nat) : List EntityName → ROut (List ResultGroup)
  | [] => .ok [] r []
  | n :: ns =>
    match resolve r n fuel with
    | .timeout => .timeout
    | .err e r1 tr => .err e r1 tr
    | .ok rg r1 tr1 =>
      match resolveSeq r1 fuel ns with
      | .timeout => .timeout
      | .err e r2 tr2 => .err e r2 (tr1 ++ tr2)
      | .ok rgs r2 tr2 => .ok (rg :: rgs) r2 (tr1 ++ tr2)

/-- Whether an event is a `compute` invocation. -/
def Event.isComputed : Event → Bool
  | .computed _ _ => true
  | _ => false

/-- How many times the state at index `i` had its `compute` invoked in a
trace. -/
def countComputedIdx (tr : List Event) (i : Nat) : Nat :=
  (tr.filter (fun e => match e with | .computed j _ => j = i | _ => false)).length

/-- How many times the persistent cache's `load` was called for query
`q` in a trace. -/
def countLoadCalls (tr : List Event) (q : Query) : Nat :=
  (tr.filter (fun e => match e with | .loadCall q2 _ => q2 = q | _ => false)).length

/-- Concrete flow used by witnesses: the single task of the bootstrap
entity `core__persistent_cache`. -/
def demoTaskCore : Task := ⟨[⟨"core__persistent_cache", []⟩], [], fun _ => [0], true⟩

/-- Provider of `core__persistent_cache`: one case, value `0`. -/
def pCore : Provider :=
  ⟨["core__persistent_cache"], [], fun _ => [[]], fun _ _ => [demoTaskCore],
   fun _ => 0, fun _ => 0, false⟩

/-- Constant entity `x` with value `5`. -/
def demoTaskX : Task := ⟨[⟨"x", []⟩], [], fun _ => [5], true⟩

/-- Provider of `x`. -/
def pX : Provider :=
  ⟨["x"], [], fun _ => [[]], fun _ _ => [demoTaskX], fun _ => 1, fun _ => 0, false⟩

/-- Entity `y` depending on `x`, computing `x * 3`. -/
def demoTaskY : Task := ⟨[⟨"y", []⟩], [⟨"x", []⟩], fun vs => [vs.headD 0 * 3], false⟩

/-- Provider of `y`. -/
def pY : Provider :=
  ⟨["y"], ["x"], fun _ => [[]], fun _ _ => [demoTaskY], fun _ => 2, fun _ => 0, false⟩

/-- Persistable entity `w` with value `7`. -/
def demoTaskW : Task := ⟨[⟨"w", []⟩], [], fun _ => [7], false⟩

/-- Provider of `w`, with `should_persist` set. -/
def pW : Provider :=
  ⟨["w"], [], fun _ => [[]], fun _ _ => [demoTaskW], fun _ => 3, fun _ => 0, true⟩

/-- Entity `badx` whose protocol (id 1) rejects every value. -/
def demoTaskBad : Task := ⟨[⟨"badx", []⟩], [], fun _ => [9], false⟩

/-- Provider of `badx`. -/
def pBad : Provider :=
  ⟨["badx"], [], fun _ => [[]], fun _ _ => [demoTaskBad], fun _ => 4, fun _ => 1, false⟩

/-- The witness flow: a bootstrap cache entity, two chained plain
entities, one persistable entity, and one entity with a rejecting
protocol.  Protocol 0 accepts everything, protocol 1 rejects
everything; the cache's serialization round trip maps `v` to `v + 1`. -/
def demoFlow : FlowState :=
  ⟨[("core__persistent_cache", 0), ("x", 1), ("y", 2), ("w", 3), ("badx", 4)],
   [pCore, pX, pY, pW, pBad],
   fun p _ => p == 0,
   fun _ => ⟨[], fun v => v + 1⟩⟩

/-- A fresh resolver over the witness flow. -/
def demoR : Resolver := ⟨demoFlow, false, none, [], false, none⟩

/-- Provider of entity `a`, declaring a dependency on `b`. -/
def cycProvA : Provider := ⟨["a"], ["b"], fun _ => [[]], fun _ _ => [], fun _ => 0, fun _ => 0, false⟩

/-- Provider of entity `b`, declaring a dependency on `a`. -/
def cycProvB : Provider := ⟨["b"], ["a"], fun _ => [[]], fun _ _ => [], fun _ => 0, fun _ => 0, false⟩

/-- A flow with a dependency cycle: entity `a` depends on `b` and `b`
depends on `a`. -/
def cycFlow : FlowState :=
  ⟨[("a", 0), ("b", 1)], [cycProvA, cycProvB], fun _ _ => true, fun _ => ⟨[], id⟩⟩

/-- A fresh resolver over the cyclic flow. -/
def cycR : Resolver := ⟨cycFlow, false, none, [], false, none⟩

/-- The result group of a successful outcome. -/
def ROut.groupOf : ROut ResultGroup → ResultGroup
  | .ok rg _ _ => rg
  | _ => ⟨[], []⟩

/-- The resolver state after an operation (errors carry it too). -/
def ROut.resolverOf {α : Type} : ROut α → Resolver
  | .err _ r _ => r
  | .ok _ r _ => r
  | .timeout => default

/-- The trace of an operation. -/
def ROut.traceOf {α : Type} : ROut α → List Event
  | .err _ _ tr => tr
  | .ok _ _ tr => tr
  | .timeout => []

/-- The payload of a successful outcome, with a default. -/
def ROut.valueOf {α : Type} (d : α) : ROut α → α
  | .ok a _ _ => a
  | _ => d

/-- Node attributes of the exported DAG (docstring of `export_dag`,
lines 56-62). -/
structure NodeAttrs where
  name : String
  entity_name : EntityName
  case_key : CaseKey
  task_ix : Nat
deriving DecidableEq

/-- The NetworkX `DiGraph` surface used by `export_dag`: node keys in
insertion order, their attributes, and the edge list. -/
structure ExportGraph where
  nodeKeys : List TaskKey
  nodeAttrs : List (TaskKey × NodeAttrs)
  edges : List (TaskKey × TaskKey)
deriving DecidableEq

/-- `graph.add_node` with attributes: inserts the node if absent and
stores the attributes. -/
def addNode (gr : ExportGraph) (k : TaskKey) (a : NodeAttrs) : ExportGraph :=
  ⟨if k ∈ gr.nodeKeys then gr.nodeKeys else gr.nodeKeys ++ [k],
   dinsert gr.nodeAttrs k a, gr.edges⟩

/-- NetworkX implicitly adds missing endpoint nodes (bare, without
attributes) when an edge is added. -/
def addBareNode (gr : ExportGraph) (k : TaskKey) : ExportGraph :=
  ⟨if k ∈ gr.nodeKeys then gr.nodeKeys else gr.nodeKeys ++ [k], gr.nodeAttrs, gr.edges⟩

/-- `graph.add_edge`: ensure both endpoints exist, then insert the edge
if absent. -/
def addEdge (gr : ExportGraph) (a b : TaskKey) : ExportGraph :=
  let gr1 := addBareNode (addBareNode gr a) b
  ⟨gr1.nodeKeys, gr1.nodeAttrs,
   if (a, b) ∈ gr1.edges then gr1.edges else gr1.edges ++ [(a, b)]⟩

/-- Modelled from the spec: comparison of case keys (the concrete
ordering lives in the missing `datatypes.py`); lexicographic on the
ordered parameter/value pairs.  Used only for the sorted enumeration
giving `task_ix`. -/
def caseKeyLeB : CaseKey → CaseKey → Bool
  | [], _ => true
  | _ :: _, [] => false
  | (n1, v1) :: r1, (n2, v2) :: r2 =>
    if n1 < n2 then true
    else if n2 < n1 then false
    else if v1 < v2 then true
    else if v2 < v1 then false
    else caseKeyLeB r1 r2

/-- The case key of `task.keys[0]`, the sort key of `export_dag`
(line 84). -/
def ckKeyOf (t : Task) : CaseKey := (t.keys.headD ⟨"", []⟩).case_key

/-- Stable insertion used by the sort below: a new task goes after every
task whose key compares less-or-equal, like Python's stable `sorted`. -/
def insertTaskSorted (t : Task) : List Task → List Task
  | [] => [t]
  | u :: us =>
    if caseKeyLeB (ckKeyOf u) (ckKeyOf t) then u :: insertTaskSorted t us
    else t :: u :: us

/-- `sorted(tasks, key=lambda task: task.keys[0].case_key)`. -/
def sortTasksByCaseKey (ts : List Task) : List Task :=
  ts.foldl (fun acc t => insertTaskSorted t acc) []

/-- The filter closure `should_include_entity_name` of `export_dag`
(lines 66-67).  As in the source, the body reads the `entity_name`
variable of the enclosing loop instead of its own argument, so the
argument is ignored: this is the closure bug the specification flags. -/
def should_include_entity_name (include_core : Bool) (entity_name : EntityName)
    (arg : EntityName) : Bool :=
  include_core || !(entity_is_internal entity_name)

/-- The body of the per-entity loop of `export_dag` (lines 73-106):
filter by the (buggy) closure, enumerate the tasks sorted by first case
key, add one attributed node per task key, and add edges to the task
keys of children that declare this task key as a dependency and pass the
(buggy) filter. -/
def exportEntity (g : Graph) (include_core : Bool) (gr : ExportGraph)
    (entity_name : EntityName) (tasks : List Task) : ExportGraph :=
  if !(should_include_entity_name include_core entity_name entity_name) then gr
  else
    (sortTasksByCaseKey tasks).enum.foldl (fun gr2 p =>
      match p.2.key_for_entity_name entity_name with
      | none => gr2
      | some task_key =>
        let node_name := if tasks.length == 1 then entity_name
          else entity_name ++ "[" ++ toString p.1 ++ "]"
        let gr3 := addNode gr2 task_key ⟨node_name, entity_name, task_key.case_key, p.1⟩
        match dlookup g.keyToState task_key with
        | none => gr3
        | some st =>
          (childrenAt g st).foldl (fun gr4 child =>
            (keysOf g child).foldl (fun gr5 child_task_key =>
              if !(should_include_entity_name include_core entity_name
                    child_task_key.entity_name) then gr5
              else if task_key ∈ (taskAt g child).dep_keys then
                addEdge gr5 task_key child_task_key
              else gr5) gr4) gr3) gr

/-- `export_dag` over an already-built graph. -/
def exportDagFrom (g : Graph) (include_core : Bool) : ExportGraph :=
  g.task_lists.foldl (fun gr p => exportEntity g include_core gr p.1 p.2) ⟨[], [], []⟩

/-- `EntityResolver.export_dag` (lines 50-108): `get_ready`, then build
the labeled graph. -/
def export_dag (r : Resolver) (include_core : Bool) (fuel : Nat) : ROut ExportGraph :=
  match getReadyFull r fuel with
  | .timeout => .timeout
  | .err e r1 tr => .err e r1 tr
  | .ok _ r1 tr =>
    match r1.graph with
    | none => .err .keyError r1 tr
    | some g => .ok (exportDagFrom g include_core) r1 tr

/-- Entity `core__y` depending on the plain entity `x`: an internal
entity that is a child of a non-internal one. -/
def c9TaskCY : Task := ⟨[⟨"core__y", []⟩], [⟨"x", []⟩], fun vs => [vs.headD 0], false⟩

/-- Provider of `core__y`. -/
def pCY : Provider :=
  ⟨["core__y"], ["x"], fun _ => [[]], fun _ _ => [c9TaskCY], fun _ => 2, fun _ => 0, false⟩

/-- Flow exhibiting the `export_dag` filter bug: the internal entity
`core__y` consumes the non-internal `x`. -/
def c9Flow : FlowState :=
  ⟨[("core__persistent_cache", 0), ("x", 1), ("core__y", 2)],
   [pCore, pX, pCY], fun p _ => p == 0, fun _ => ⟨[], id⟩⟩

/-- A fresh resolver over `c9Flow`. -/
def c9R : Resolver := ⟨c9Flow, false, none, [], false, none⟩

/-- The query under which `w`'s single output is stored: entity `w`,
protocol 0, empty case key, provenance from `w`'s code id with no
dependencies. -/
def demoQW : Query := ⟨"w", 0, [], .fromComputation 3 [] []⟩

/-- A persistent cache pre-populated for `w`'s query. -/
def preCacheW : CacheState := ⟨[(demoQW, 42)], fun v => v + 1⟩

/-- Per-state at-most-once property of a trace. -/
def computedOnce (tr : List Event) : Prop := ∀ i, countComputedIdx tr i ≤ 1

/-- Every state computed in the trace is complete in the table: the link
between past compute events and present completeness. -/
def tracksComputed (tr : List Event) (res : ResultsTable) : Prop :=
  ∀ i, 0 < countComputedIdx tr i → isCompleteAt res i = true

/-- A state index is live when some task key maps to it: these are the
states reachable through `_task_states_by_key` (for a joint task
constructed several times, only the last construction is live). -/
def liveb (g : Graph) (i : Nat) : Bool := (g.keyToState.map Prod.snd).contains i

/-- Well-formedness of a built graph: adjacency tables sized to the
arena, key-map indices in range, key tuples identifying live states
uniquely, and parent/child duality over live states. -/
def WFGraph (g : Graph) : Prop :=
  g.parentsL.length = nstates g ∧
  g.childrenL.length = nstates g ∧
  (∀ p ∈ g.keyToState, p.2 < nstates g) ∧
  (∀ i ∈ List.range (nstates g), ∀ j ∈ List.range (nstates g),
    liveb g i = true → liveb g j = true → keysOf g i = keysOf g j → i = j) ∧
  (∀ i ∈ List.range (nstates g), ∀ p ∈ parentsAt g i,
    liveb g p = true ∧ i ∈ childrenAt g p) ∧
  (∀ i ∈ List.range (nstates g), ∀ c ∈ childrenAt g i,
    liveb g c = true ∧ i ∈ parentsAt g c)

/-- A topological rank for the parent (dependency) edges: each parent
ranks strictly below its dependents.  Such a rank exists exactly when
the task DAG is acyclic. -/
def RankOk (g : Graph) (rank : Nat → Nat) : Prop :=
  ∀ i ∈ List.range (nstates g), ∀ p ∈ parentsAt g i, rank p < rank i

/-- The loop invariant of the work-list, relative to the set `R` of
requested states: table sized to the arena; ready states live; blocked
tuples are key tuples of live states, without duplicates; every blocked
state has an incomplete parent; every incomplete parent of a blocked
state is in the ready stack or blocked itself; and every requested state
is complete, ready, or blocked. -/
def LoopInv (g : Graph) (R : List Nat) (ls : LoopState) : Prop :=
  ls.results.length = nstates g ∧
  (∀ i ∈ ls.ready, liveb g i = true) ∧
  (∀ t ∈ ls.blocked, ∃ i ∈ List.range (nstates g), liveb g i = true ∧ keysOf g i = t) ∧
  ls.blocked.Nodup ∧
  (∀ i ∈ List.range (nstates g), liveb g i = true → keysOf g i ∈ ls.blocked →
    ∃ p ∈ parentsAt g i, isCompleteAt ls.results p = false) ∧
  (∀ i ∈ List.range (nstates g), liveb g i = true → keysOf g i ∈ ls.blocked →
    ∀ p ∈ parentsAt g i, isCompleteAt ls.results p = false →
      p ∈ ls.ready ∨ keysOf g p ∈ ls.blocked) ∧
  (∀ i ∈ R, isCompleteAt ls.results i = true ∨ i ∈ ls.ready ∨ keysOf g i ∈ ls.blocked)

/-- All state indices stored in the graph are below `n`: the key map
values, and every entry of every adjacency list.  Graphs built by
`buildGraph` satisfy this with `n` the arena size. -/
def GraphInRange (g : Graph) (n : Nat) : Prop :=
  (∀ p ∈ g.keyToState, p.2 < n) ∧
  (∀ l ∈ g.parentsL, ∀ p ∈ l, p < n) ∧
  (∀ l ∈ g.childrenL, ∀ c ∈ l, c < n)

/-- A resolver whose graph (if built) has in-range indices and a result
table sized to the arena: every resolver reachable from a fresh one
through the public operations satisfies this. -/
def ResolverOk (r : Resolver) : Prop :=
  match r.graph with
  | none => True
  | some g => GraphInRange g (nstates g) ∧ r.results.length = nstates g

/-- The largest `parents` list length over the arena. -/
def maxParentsLen (g : Graph) : Nat := g.parentsL.foldl (fun a l => max a l.length) 0

/-- Base of the exponential potential: strictly more than the number of
parents any state can push. -/
def rbase (g : Graph) : Nat := maxParentsLen g + 2

/-- The largest rank over the arena. -/
def maxRank (g : Graph) (rank : Nat → Nat) : Nat :=
  (List.range (nstates g)).foldl (fun a i => max a (rank i)) 0

/-- Potential of the ready stack: the sum of `rbase ^ rank` over its
entries.  Blocking replaces a state by strictly lower-ranked parents, so
this potential strictly decreases on the blocked branch. -/
def potReady (g : Graph) (rank : Nat → Nat) (ready : List Nat) : Nat :=
  (ready.map (fun i => rbase g ^ rank i)).sum

/-- Weight of one incomplete state: strictly more than any possible
ready-potential gain, so completing a state decreases the measure even
though it may promote children. -/
def bigC (g : Graph) (rank : Nat → Nat) : Nat :=
  nstates g * rbase g ^ maxRank g rank + 1

/-- Number of incomplete states. -/
def noneCount (res : ResultsTable) : Nat := (res.filter (fun o => o.isNone)).length

/-- The termination measure of the work-list loop. -/
def lsMeasure (g : Graph) (rank : Nat → Nat) (ls : LoopState) : Nat :=
  bigC g rank * noneCount ls.results + potReady g rank ls.ready

/-- One invariant bundle for the two adjacency tables. -/
def AdjInv (n : Nat) (pcs : List (List Nat) × List (List Nat)) : Prop :=
  pcs.1.length = n ∧ pcs.2.length = n ∧
  (∀ l ∈ pcs.1, ∀ x ∈ l, x < n) ∧ (∀ l ∈ pcs.2, ∀ x ∈ l, x < n)

/-- Resolver state after a first `resolve("badx")` call that fails with
a protocol-validation error: the state stays incomplete but the graph and
cache survive, so a retry recomputes. -/
def c1r1 : Resolver := (resolve demoR "badx" 20).resolverOf

/-- Trace of the failing call followed by the trace of the retry on the
same resolver object: one resolver lifetime with two compute events of
the same state. -/
def c1cexTrace : List Event :=
  (resolve demoR "badx" 20).traceOf ++ (resolve c1r1 "badx" 20).traceOf

/-- A concrete two-state acyclic graph (`x` and `y = 3*x`) used to
witness the work-list termination theorem. -/
def c3G : Graph :=
  ⟨[demoTaskX, demoTaskY], [[], [0]], [[1], []],
   [(⟨"x", []⟩, 0), (⟨"y", []⟩, 1)],
   [("x", [demoTaskX]), ("y", [demoTaskY])], [("x", [[]]), ("y", [[]])]⟩

/-- Resolver state right after a successful bootstrap of the demo flow. -/
def c5rb : Resolver := (getReadyBootstrap demoR 20).resolverOf

/-- Outcome of resolving the bootstrap cache entity on the bootstrapped
demo resolver. -/
def c5out : ROut ResultGroup := computeResultGroup c5rb "core__persistent_cache" 20

/-- The single bootstrap result of the demo flow. -/
def c5r0 : Result :=
  (c5out.groupOf).results.getD 0 ⟨⟨"", 0, [], .fromComputation 0 [] []⟩, 0⟩

/-- One-state graph holding only the persistable task `w`, used to
witness the cache-usage claims. -/
def c6G : Graph :=
  ⟨[demoTaskW], [[]], [[]], [(⟨"w", []⟩, 0)], [("w", [demoTaskW])], [("w", [[]])]⟩

/-- The task setup of `w` in that graph. -/
def c6su : TaskSetup :=
  match taskSetup demoFlow c6G [none] 0 with
  | .ok su => su
  | .error _ => ⟨demoTaskW, [], 0, pW, [], []⟩

/-- An empty persistent cache with the demo round trip `v + 1`. -/
def c7cache : CacheState := ⟨[], fun v => v + 1⟩

/-- The computed-value/query pairs of `w`. -/
def c7pairs : List (Value × Query) :=
  (c6su.task.compute (c6su.dep_results.map (fun r => r.value))).zip c6su.tk_queries

/-- The load events of the failed cache probe of `w`. -/
def c7evs2 : List Event := (tryLoadAll c7cache c6su.tk_queries).1

/-- Task whose `compute` returns two values although its provider
declares one name: trips the length assert. -/
def demoTaskL : Task := ⟨[⟨"l", []⟩], [], fun _ => [1, 2], false⟩

/-- Provider of `l`. -/
def pL : Provider :=
  ⟨["l"], [], fun _ => [[]], fun _ _ => [demoTaskL], fun _ => 5, fun _ => 0, false⟩

/-- Flow with only the length-mismatched entity. -/
def c10Flow : FlowState := ⟨[("l", 0)], [pL], fun _ _ => true, fun _ => ⟨[], id⟩⟩

/-- One-state graph of the length-mismatched task. -/
def c10G : Graph :=
  ⟨[demoTaskL], [[]], [[]], [(⟨"l", []⟩, 0)], [("l", [demoTaskL])], [("l", [[]])]⟩

/-- The task setup of `l`. -/
def c10su : TaskSetup :=
  match taskSetup c10Flow c10G [none] 0 with
  | .ok su => su
  | .error _ => ⟨demoTaskL, [], 0, pL, [], []⟩

/-- One-state graph of the protocol-rejected task `badx`. -/
def c8G : Graph :=
  ⟨[demoTaskBad], [[]], [[]], [(⟨"badx", []⟩, 0)],
   [("badx", [demoTaskBad])], [("badx", [[]])]⟩

/-- The task setup of `badx`. -/
def c8su : TaskSetup :=
  match taskSetup demoFlow c8G [none] 0 with
  | .ok su => su
  | .error _ => ⟨demoTaskBad, [], 0, pBad, [], []⟩

theorem dlookup_dinsert_self {α β : Type} [DecidableEq α]
    (l : List (α × β)) (k : α) (v : β) : dlookup (dinsert l k v) k = some v := by
  induction l with
  | nil => simp [dinsert, dlookup]
  | cons hd tl ih =>
    by_cases h : k = hd.1
    · simp [dinsert, dlookup, h]
    · simp [dinsert, dlookup, h, ih]

theorem dlookup_dinsert_ne {α β : Type} [DecidableEq α]
    (l : List (α × β)) (k k' : α) (v : β) (h : k' ≠ k) :
    dlookup (dinsert l k v) k' = dlookup l k' := by
  induction l with
  | nil => simp [dinsert, dlookup, h]
  | cons hd tl ih =>
    by_cases hk : k = hd.1
    · subst hk
      simp [dinsert, dlookup, h]
    · by_cases hk' : k' = hd.1
      · simp [dinsert, dlookup, hk, hk']
      · simp [dinsert, dlookup, hk, hk', ih]

theorem cacheLoad_cacheSave_self (c : CacheState) (r : Result) :
    cacheLoad (cacheSave c r) r.query = some ⟨r.query, c.canon r.value⟩ := by
  simp [cacheLoad, cacheSave, dlookup_dinsert_self]

/-- On the cyclic registry, populating either entity exhausts every
fuel: the memo entry is only written after the dependency recursion, so
`a` requests `b`, which requests `a` again, forever. -/
theorem populate_cyc_timeout : ∀ (fuel : Nat) (rest : List EntityName) (acc : BuildAcc),
    dlookup acc.task_lists "a" = none → dlookup acc.task_lists "b" = none →
    populateGo cycFlow fuel ("a" :: rest) acc = .timeout ∧
      populateGo cycFlow fuel ("b" :: rest) acc = .timeout := by
  have hga : cycFlow.get_provider "a" = some cycProvA := rfl
  have hgb : cycFlow.get_provider "b" = some cycProvB := rfl
  intro fuel
  induction fuel with
  | zero => intro rest acc _ _; exact ⟨rfl, rfl⟩
  | succ n ih =>
    intro rest acc ha hb
    have hb2 := (ih [] acc ha hb).2
    have ha2 := (ih [] acc ha hb).1
    constructor
    · rw [populateGo, ha]
      simp only [Option.isSome_none, Bool.false_eq_true, if_false, hga]
      rw [show cycProvA.dep_names = ["b"] from rfl, hb2]
    · rw [populateGo, hb]
      simp only [Option.isSome_none, Bool.false_eq_true, if_false, hgb]
      rw [show cycProvB.dep_names = ["a"] from rfl, ha2]

/-- Graph build on the cyclic registry exhausts any fuel. -/
theorem buildGraph_cyc_timeout (fuel : Nat) : buildGraph cycFlow fuel = .timeout := by
  have h := (populate_cyc_timeout fuel ["b"] ⟨[], []⟩ rfl rfl).1
  rw [buildGraph, show cycFlow.providers_by_name.map Prod.fst = ["a", "b"] from rfl, h]

/-- C4: on a registry where an entity transitively depends on itself
(here `a` depends on `b` depends on `a`), graph build does NOT fail fast
with a cycle-kinded error: `_populate_entity_info` adds its memo entry
only after recursing into the dependencies, so the recursion never
terminates (no fuel suffices, and no error outcome is ever produced);
`get_ready` and `resolve` therefore diverge instead of raising. -/
theorem c4_cycle_no_error : ∀ fuel : Nat,
    getReady cycR fuel = .timeout ∧ resolve cycR "a" fuel = .timeout := by
  intro fuel
  have hb : getReadyBootstrap cycR fuel = .timeout := by
    rw [getReadyBootstrap]
    simp only [show cycR.bootstrap_ready = false from rfl, Bool.false_eq_true, if_false,
      show cycR.flow = cycFlow from rfl, buildGraph_cyc_timeout]
  have hf : getReadyFull cycR fuel = .timeout := by
    rw [getReadyFull]
    simp only [show cycR.full_ready = false from rfl, Bool.false_eq_true, if_false, hb]
  exact ⟨hf, by rw [resolve, hf]⟩

theorem worklist_fuel_zero (fs : FlowState) (fr : Bool) (g : Graph) (ls : LoopState) :
    worklist fs fr g 0 ls = .timeout := rfl

theorem worklist_ready_nil (fs : FlowState) (fr : Bool) (g : Graph) (fuel : Nat)
    (bl : List (List TaskKey)) (lg : List TaskKey) (res : ResultsTable)
    (c : Option CacheState) (tr : List Event) :
    worklist fs fr g (fuel + 1) ⟨[], bl, lg, res, c, tr⟩ = .ok ⟨[], bl, lg, res, c, tr⟩ := rfl

theorem worklist_step_complete (fs : FlowState) (fr : Bool) (g : Graph) (fuel i : Nat)
    (rest : List Nat) (bl : List (List TaskKey)) (lg : List TaskKey) (res : ResultsTable)
    (c : Option CacheState) (tr : List Event) (hc : isCompleteAt res i = true) :
    worklist fs fr g (fuel + 1) ⟨i :: rest, bl, lg, res, c, tr⟩ =
      worklist fs fr g fuel ⟨rest, bl, (accessLogs (keysOf g i) lg).1, res, c,
        tr ++ (accessLogs (keysOf g i) lg).2⟩ := by
  simp [worklist, hc]

theorem worklist_step_blocked (fs : FlowState) (fr : Bool) (g : Graph) (fuel i : Nat)
    (rest : List Nat) (bl : List (List TaskKey)) (lg : List TaskKey) (res : ResultsTable)
    (c : Option CacheState) (tr : List Event) (hc : isCompleteAt res i = false)
    (hbl : isBlockedAt g res i = true) :
    worklist fs fr g (fuel + 1) ⟨i :: rest, bl, lg, res, c, tr⟩ =
      worklist fs fr g fuel
        ⟨(parentsAt g i).foldl (fun acc p => if isCompleteAt res p then acc else p :: acc) rest,
         bl.insert (keysOf g i), lg, res, c, tr⟩ := by
  simp [worklist, hc, hbl]

theorem worklist_step_compute_err (fs : FlowState) (fr : Bool) (g : Graph) (fuel i : Nat)
    (rest : List Nat) (bl : List (List TaskKey)) (lg : List TaskKey) (res : ResultsTable)
    (c c1 : Option CacheState) (tr evs : List Event) (e : EvalErr)
    (hc : isCompleteAt res i = false) (hbl : isBlockedAt g res i = false)
    (hcomp : computeTaskState fs fr g i res c = .error (e, c1, evs)) :
    worklist fs fr g (fuel + 1) ⟨i :: rest, bl, lg, res, c, tr⟩ =
      .err e ⟨rest, bl, lg, res, c1, tr ++ evs⟩ := by
  simp [worklist, hc, hbl, hcomp]

theorem worklist_step_compute_ok (fs : FlowState) (fr : Bool) (g : Graph) (fuel i : Nat)
    (rest : List Nat) (bl : List (List TaskKey)) (lg : List TaskKey) (res : ResultsTable)
    (c c1 : Option CacheState) (tr evs : List Event) (m : ResultsMap)
    (hc : isCompleteAt res i = false) (hbl : isBlockedAt g res i = false)
    (hcomp : computeTaskState fs fr g i res c = .ok (m, c1, evs)) :
    worklist fs fr g (fuel + 1) ⟨i :: rest, bl, lg, res, c, tr⟩ =
      worklist fs fr g fuel
        ⟨(promote g (res.set i (some m)) (childrenAt g i) rest bl).1,
         (promote g (res.set i (some m)) (childrenAt g i) rest bl).2,
         (keysOf g i).foldl (fun lg2 k => if k ∈ lg2 then lg2 else k :: lg2) lg,
         res.set i (some m), c1, tr ++ evs⟩ := by
  simp [worklist, hc, hbl, hcomp]

theorem accessLogs_not_computed (ks lg : List TaskKey) :
    ∀ e ∈ (accessLogs ks lg).2, e.isComputed = false := by
  induction ks generalizing lg with
  | nil => simp [accessLogs]
  | cons k ks ih =>
    intro e he
    by_cases h : k ∈ lg
    · exact ih lg e (by simpa [accessLogs, h] using he)
    · simp only [accessLogs, h, if_false] at he
      rcases (List.mem_cons.mp he) with h1 | h1
      · subst h1; rfl
      · exact ih (k :: lg) e h1

/-- Running the work-list over a ready stack of already-complete states
only emits access logs: the results, cache and blocked set are
untouched, the trace gains no compute event, and `ready.length + 1` fuel
suffices. -/
theorem worklist_all_complete (fs : FlowState) (fr : Bool) (g : Graph) :
    ∀ (ready : List Nat) (bl : List (List TaskKey)) (lg : List TaskKey)
      (res : ResultsTable) (c : Option CacheState) (tr : List Event),
    (∀ i ∈ ready, isCompleteAt res i = true) →
    ∃ lg2 evs, worklist fs fr g (ready.length + 1) ⟨ready, bl, lg, res, c, tr⟩ =
      .ok ⟨[], bl, lg2, res, c, tr ++ evs⟩ ∧ (∀ e ∈ evs, e.isComputed = false) := by
  intro ready
  induction ready with
  | nil =>
    intro bl lg res c tr _
    exact ⟨lg, [], by simp [worklist_ready_nil], by simp⟩
  | cons i rest ih =>
    intro bl lg res c tr hall
    have hc : isCompleteAt res i = true := hall i (List.mem_cons_self i rest)
    obtain ⟨lg2, evs, hrun, hevs⟩ :=
      ih bl (accessLogs (keysOf g i) lg).1 res c (tr ++ (accessLogs (keysOf g i) lg).2)
        (fun j hj => hall j (List.mem_cons_of_mem i hj))
    refine ⟨lg2, (accessLogs (keysOf g i) lg).2 ++ evs, ?_, ?_⟩
    · rw [show (i :: rest).length + 1 = rest.length + 1 + 1 from rfl,
        worklist_step_complete fs fr g (rest.length + 1) i rest bl lg res c tr hc, hrun]
      simp [List.append_assoc]
    · intro e he
      rcases List.mem_append.mp he with h1 | h1
      · exact accessLogs_not_computed (keysOf g i) lg e h1
      · exact hevs e h1

/-- Inversion of a successful `computeResultGroup`: exposes the graph,
the requested states, the final loop state, and the facts checked by the
asserts. -/
theorem computeResultGroup_ok_inv {r : Resolver} {name : EntityName} {fuel : Nat}
    {rg : ResultGroup} {r2 : Resolver} {tr : List Event}
    (h : computeResultGroup r name fuel = .ok rg r2 tr) :
    ∃ g tasks req ls,
      r.graph = some g ∧ dlookup g.task_lists name = some tasks ∧
      requestedIdx g tasks = some req ∧
      worklist r.flow r.full_ready g fuel ⟨req.reverse, [], [], r.results, r.cache, []⟩ = .ok ls ∧
      ls.blocked = [] ∧ req.all (fun i => isCompleteAt ls.results i) = true ∧
      collectResults ls.results name req = some rg.results ∧
      dlookup g.key_spaces name = some rg.key_space ∧
      r2 = { r with results := ls.results, cache := ls.cache } ∧ tr = ls.trace := by
  rw [computeResultGroup] at h
  split at h
  · cases h
  next g hg =>
    split at h
    · cases h
    next tasks htasks =>
      split at h
      · cases h
      next req hreq =>
        split at h
        · cases h
        · cases h
        next ls hls =>
          split at h
          next hbl =>
            split at h
            next hall =>
              split at h
              · cases h
              next results hcoll =>
                split at h
                · cases h
                next ks hks =>
                  cases h
                  exact ⟨g, tasks, req, ls, hg, htasks, hreq, hls, hbl, hall,
                    hcoll, hks, rfl, rfl⟩
            next hall => cases h
          next hbl => cases h

/-- A full-ready resolver's `get_ready` is an immediate no-op. -/
theorem getReadyFull_of_ready {r : Resolver} {fuel : Nat} (h : r.full_ready = true) :
    getReadyFull r fuel = .ok () r [] := by
  rw [getReadyFull]; simp [h]

/-- After a successful `get_ready`, the resolver is full-ready. -/
theorem getReadyFull_ok_ready {r : Resolver} {fuel : Nat} {u : Unit} {r1 : Resolver}
    {tr : List Event} (h : getReadyFull r fuel = .ok u r1 tr) : r1.full_ready = true := by
  rw [getReadyFull] at h
  split at h
  next hf => cases h; exact hf
  next hf =>
    split at h
    · cases h
    · cases h
    next rb trb hboot =>
      split at h
      · cases h
      · cases h
      next rg rc trc hcrg =>
        split at h
        next => cases h
        next =>
          split at h
          next => cases h
          next =>
            split at h
            · cases h
            next r0 hr0 => cases h; rfl

/-- Inversion of a successful `resolve` into its `get_ready` and
`computeResultGroup` parts. -/
theorem resolve_ok_inv {r : Resolver} {name : EntityName} {fuel : Nat}
    {rg : ResultGroup} {r2 : Resolver} {tr : List Event}
    (h : resolve r name fuel = .ok rg r2 tr) :
    ∃ r1 tr1 tr2, getReadyFull r fuel = .ok () r1 tr1 ∧
      computeResultGroup r1 name fuel = .ok rg r2 tr2 ∧ tr = tr1 ++ tr2 := by
  rw [resolve] at h
  split at h
  · cases h
  · cases h
  next u r1 tr1 hready =>
    split at h
    · cases h
    · cases h
    next rg2 r2b tr2 hcrg =>
      cases h
      exact ⟨r1, tr1, tr2, hready, hcrg, rfl⟩

/-- Inversion of a successful `taskSetup`: recovers the task, the fact
that the blocked assert passed, the dep results, the provider, and the
shape of the per-output queries. -/
theorem taskSetup_ok_inv {fs : FlowState} {g : Graph} {res : ResultsTable} {i : Nat}
    {su : TaskSetup} (h : taskSetup fs g res i = .ok su) :
    g.tasks.get? i = some su.task ∧ isBlockedAt g res i = false ∧
    gatherDeps g res su.task.dep_keys = some su.dep_results ∧
    fs.providers.get? su.pid = some su.provider ∧
    (∃ prov : Provenance, su.tk_queries = su.task.keys.map (fun k =>
      ⟨k.entity_name, su.provider.protocol_for_name k.entity_name, su.case_key, prov⟩)) := by
  rw [taskSetup] at h
  split at h
  · cases h
  next task htask =>
    split at h
    next hbl => cases h
    next hbl =>
      split at h
      · cases h
      next deps hdeps =>
        split at h
        next k hk => cases h
        next hk =>
          split at h
          · cases h
          next pid hpid =>
            split at h
            · cases h
            next provider hprov =>
              split at h
              · cases h
              next ck hck =>
                cases h
                exact ⟨htask, by simpa using hbl, hdeps, hprov, ⟨_, rfl⟩⟩

/-- The number of per-output queries equals the number of task keys. -/
theorem taskSetup_ok_queries_len {fs : FlowState} {g : Graph} {res : ResultsTable} {i : Nat}
    {su : TaskSetup} (h : taskSetup fs g res i = .ok su) :
    su.tk_queries.length = su.task.keys.length := by
  obtain ⟨-, -, -, -, prov, hq⟩ := taskSetup_ok_inv h
  rw [hq, List.length_map]

/-- The queries' names are the task keys' entity names, in order. -/
theorem taskSetup_ok_queries_names {fs : FlowState} {g : Graph} {res : ResultsTable} {i : Nat}
    {su : TaskSetup} (h : taskSetup fs g res i = .ok su) :
    su.tk_queries.map (fun q => q.name) = su.task.keys.map (fun k => k.entity_name) := by
  obtain ⟨-, -, -, -, prov, hq⟩ := taskSetup_ok_inv h
  rw [hq, List.map_map]
  rfl

/-- Branch lemma: with setup done and a non-persisting provider,
`_compute_task_state` goes straight to the compute phase. -/
theorem computeTaskState_plain {fs : FlowState} {fullReady : Bool} {g : Graph} {i : Nat}
    {res : ResultsTable} {cache : Option CacheState} {su : TaskSetup}
    (hsetup : taskSetup fs g res i = .ok su)
    (hpersist : su.provider.should_persist = false) :
    computeTaskState fs fullReady g i res cache = computePhase fs false i su cache [] := by
  unfold computeTaskState
  rw [hsetup]
  simp [hpersist]

/-- Branch lemma: persisting provider before full readiness raises the
bootstrap-persistence assert. -/
theorem computeTaskState_bootstrap_persist {fs : FlowState} {g : Graph} {i : Nat}
    {res : ResultsTable} {cache : Option CacheState} {su : TaskSetup}
    (hsetup : taskSetup fs g res i = .ok su)
    (hpersist : su.provider.should_persist = true) :
    computeTaskState fs false g i res cache =
      .error (.assertBootstrapPersist su.provider.names, cache, []) := by
  unfold computeTaskState
  rw [hsetup]
  simp [hpersist]

/-- Branch lemma: persisting provider, full-ready, every query hits the
cache: install the loaded results. -/
theorem computeTaskState_cache_hit {fs : FlowState} {g : Graph} {i : Nat}
    {res : ResultsTable} {c : CacheState} {su : TaskSetup} {evs : List Event}
    {rs : List Result}
    (hsetup : taskSetup fs g res i = .ok su)
    (hpersist : su.provider.should_persist = true)
    (hload : tryLoadAll c su.tk_queries = (evs, some rs)) :
    computeTaskState fs true g i res (some c) = installResults su rs (some c) evs := by
  unfold computeTaskState
  rw [hsetup]
  simp [hpersist, hload]

/-- Branch lemma: persisting provider, full-ready, some query missed:
discard partial hits and run the compute phase. -/
theorem computeTaskState_cache_miss {fs : FlowState} {g : Graph} {i : Nat}
    {res : ResultsTable} {c : CacheState} {su : TaskSetup} {evs : List Event}
    (hsetup : taskSetup fs g res i = .ok su)
    (hpersist : su.provider.should_persist = true)
    (hload : tryLoadAll c su.tk_queries = (evs, none)) :
    computeTaskState fs true g i res (some c) = computePhase fs true i su (some c) evs := by
  unfold computeTaskState
  rw [hsetup]
  simp [hpersist, hload]

/-- When the computed value list has the wrong length against the
provider's declared names, the compute phase stops at the length assert,
with the cache untouched and only the compute event emitted. -/
theorem computePhase_len_mismatch {fs : FlowState} {persist : Bool} {i : Nat}
    {su : TaskSetup} {cache : Option CacheState} {evs0 : List Event}
    (hlen : (su.task.compute (su.dep_results.map (fun r => r.value))).length ≠
      su.provider.names.length) :
    computePhase fs persist i su cache evs0 =
      .error (.assertLenValues, cache, evs0 ++ [.computed i su.task.keys]) := by
  unfold computePhase
  simp [hlen]

/-- With a good length, the compute phase is the output-processing loop
followed by the install step. -/
theorem computePhase_len_ok {fs : FlowState} {persist : Bool} {i : Nat}
    {su : TaskSetup} {cache : Option CacheState} {evs0 : List Event}
    (hlen : (su.task.compute (su.dep_results.map (fun r => r.value))).length =
      su.provider.names.length) :
    computePhase fs persist i su cache evs0 =
      match processOutputs fs persist cache
          ((su.task.compute (su.dep_results.map (fun r => r.value))).zip su.tk_queries) with
      | .error (e, c2, evs) => .error (e, c2, (evs0 ++ [.computed i su.task.keys]) ++ evs)
      | .ok (rs, c2, evs) => installResults su rs c2 ((evs0 ++ [.computed i su.task.keys]) ++ evs) := by
  unfold computePhase
  simp [hlen]

/-- When every query hits, `tryLoadAll` emits exactly one hit event per
query and returns one cached result per query. -/
theorem tryLoadAll_all_hits (c : CacheState) :
    ∀ qs : List Query, (∀ q ∈ qs, (cacheLoad c q).isSome = true) →
    ∃ rs, tryLoadAll c qs = (qs.map (fun q => Event.loadCall q true), some rs) ∧
      rs.length = qs.length ∧ ∀ r ∈ rs, cacheLoad c r.query = some r ∧ r.query ∈ qs := by
  intro qs
  induction qs with
  | nil => intro _; exact ⟨[], rfl, rfl, by simp⟩
  | cons q qs ih =>
    intro hall
    obtain ⟨r, hr⟩ := Option.isSome_iff_exists.mp (hall q (List.mem_cons_self q qs))
    obtain ⟨rs, hrun, hlen, hmem⟩ := ih (fun q2 hq2 => hall q2 (List.mem_cons_of_mem q hq2))
    refine ⟨r :: rs, ?_, by simp [hlen], ?_⟩
    · simp [tryLoadAll, hr, hrun]
    · intro r2 hr2
      rcases List.mem_cons.mp hr2 with h1 | h1
      · subst h1
        have hq : r2.query = q := by
          have : (dlookup c.entries q).map (fun v => (⟨q, v⟩ : Result)) = some r2 := hr
          cases hd : dlookup c.entries q with
          | none => rw [hd] at this; cases this
          | some v => rw [hd] at this; cases this; rfl
        rw [hq]
        exact ⟨hr, List.mem_cons_self q qs⟩
      · obtain ⟨h2, h3⟩ := hmem r2 h1
        exact ⟨h2, List.mem_cons_of_mem q h3⟩

/-- When some query misses, `tryLoadAll` reports no results. -/
theorem tryLoadAll_miss (c : CacheState) :
    ∀ qs : List Query, (∃ q ∈ qs, cacheLoad c q = none) →
    ∃ evs, tryLoadAll c qs = (evs, none) := by
  intro qs
  induction qs with
  | nil => rintro ⟨q, hq, -⟩; cases hq
  | cons q qs ih =>
    rintro ⟨q2, hq2, hmiss⟩
    rcases List.mem_cons.mp hq2 with h1 | h1
    · subst h1
      exact ⟨[.loadCall q2 false], by simp [tryLoadAll, hmiss]⟩
    · cases hload : cacheLoad c q with
      | none => exact ⟨[.loadCall q false], by simp [tryLoadAll, hload]⟩
      | some r =>
        obtain ⟨evs, hrun⟩ := ih ⟨q2, h1, hmiss⟩
        exact ⟨.loadCall q true :: evs, by simp [tryLoadAll, hload, hrun]⟩

/-- The output loop without persistence and with every value accepted:
each value is kept as computed, the cache is untouched, and only
validation events are emitted. -/
theorem processOutputs_ok_plain {fs : FlowState} {cache : Option CacheState} :
    ∀ pairs : List (Value × Query),
    (∀ p ∈ pairs, fs.validate p.2.protocol p.1 = true) →
    processOutputs fs false cache pairs =
      .ok (pairs.map (fun p => ⟨p.2, p.1⟩), cache,
           pairs.map (fun p => .validateCall p.2 p.1)) := by
  intro pairs
  induction pairs with
  | nil => intro _; rfl
  | cons p rest ih =>
    intro hall
    have hv := hall p (List.mem_cons_self p rest)
    have hrec := ih (fun p2 hp2 => hall p2 (List.mem_cons_of_mem p hp2))
    obtain ⟨v, q⟩ := p
    simp only [processOutputs, hv, if_true, hrec]
    simp

/-- The output loop with persistence and with every value accepted: each
output is validated, saved, reloaded; the kept result carries the
round-tripped (canon) value, and the events show the
validate-save-reload order per output. -/
theorem processOutputs_ok_persist {fs : FlowState} :
    ∀ (c : CacheState) (pairs : List (Value × Query)),
    (∀ p ∈ pairs, fs.validate p.2.protocol p.1 = true) →
    processOutputs fs true (some c) pairs =
      .ok (pairs.map (fun p => ⟨p.2, c.canon p.1⟩),
           some (pairs.foldl (fun cc p => cacheSave cc ⟨p.2, p.1⟩) c),
           pairs.flatMap (fun p =>
             [.validateCall p.2 p.1, .saveCall p.2 (c.canon p.1), .loadCall p.2 true])) := by
  intro c pairs
  induction pairs generalizing c with
  | nil => intro _; rfl
  | cons p rest ih =>
    intro hall
    have hv := hall p (List.mem_cons_self p rest)
    obtain ⟨v, q⟩ := p
    have hcanon : (cacheSave c ⟨q, v⟩).canon = c.canon := rfl
    have hrec := ih (cacheSave c ⟨q, v⟩) (fun p2 hp2 => hall p2 (List.mem_cons_of_mem _ hp2))
    simp only [processOutputs, hv, if_true,
      cacheLoad_cacheSave_self c ⟨q, v⟩, hrec, hcanon]
    simp [List.foldl_cons]

/-- The output loop when some value is rejected: a protocol error is
raised for a rejected pair and no result list is produced. -/
theorem processOutputs_fail {fs : FlowState} {persist : Bool} :
    ∀ (cache : Option CacheState) (pairs : List (Value × Query)),
    (persist = true → cache.isSome = true) →
    (∃ p ∈ pairs, fs.validate p.2.protocol p.1 = false) →
    ∃ v q c2 evs, (v, q) ∈ pairs ∧ fs.validate q.protocol v = false ∧
      processOutputs fs persist cache pairs = .error (.protocolError q, c2, evs) := by
  intro cache pairs
  induction pairs generalizing cache with
  | nil => rintro _ ⟨p, hp, -⟩; cases hp
  | cons p rest ih =>
    rintro hcache ⟨pf, hpf, hfail⟩
    obtain ⟨v, q⟩ := p
    by_cases hv : fs.validate q.protocol v = true
    · have hrest : ∃ p2 ∈ rest, fs.validate p2.2.protocol p2.1 = false := by
        rcases List.mem_cons.mp hpf with h1 | h1
        · exfalso; rw [h1] at hfail; simp [hfail] at hv
        · exact ⟨pf, h1, hfail⟩
      by_cases hper : persist = true
      · subst hper
        obtain ⟨c, hc⟩ := Option.isSome_iff_exists.mp (hcache rfl)
        subst hc
        obtain ⟨v2, q2, c2, evs, hmem, hval, hrun⟩ :=
          ih (some (cacheSave c ⟨q, v⟩)) (fun _ => rfl) hrest
        refine ⟨v2, q2, c2,
          .validateCall q v :: .saveCall q (c.canon v) :: .loadCall q true :: evs,
          List.mem_cons_of_mem _ hmem, hval, ?_⟩
        simp only [processOutputs, hv, if_true, cacheLoad_cacheSave_self c ⟨q, v⟩, hrun]
      · have hper2 : persist = false := by simpa using hper
        subst hper2
        obtain ⟨v2, q2, c2, evs, hmem, hval, hrun⟩ := ih cache (by simp) hrest
        refine ⟨v2, q2, c2, .validateCall q v :: evs, List.mem_cons_of_mem _ hmem, hval, ?_⟩
        simp only [processOutputs, hv, if_true, hrun]
        simp
    · have hvf : fs.validate q.protocol v = false := by simpa using hv
      refine ⟨v, q, cache, [.validateCall q v], List.mem_cons_self _ _, hvf, ?_⟩
      simp [processOutputs, hvf]

/-- C10: when the compute phase is reached (either the provider does not
persist, or it persists and some output query missed the cache) and
`task.compute` returns a list whose length differs from the number of
entity names the provider declares, `_compute_task_state` raises the
length assert before installing anything: the loop errs, the result
table in the carried state is the unchanged `res`, and the state is
still incomplete.  The length check is against `provider.attrs.names`,
not against `task.keys` (the witness exercises a task whose computed
list matches its own key count but not the provider's names). -/
theorem c10_len_assert {fs : FlowState} {fullReady : Bool} {g : Graph} {fuel i : Nat}
    {rest : List Nat} {bl : List (List TaskKey)} {lg : List TaskKey} {res : ResultsTable}
    {cache : Option CacheState} {tr : List Event} {su : TaskSetup}
    (hsetup : taskSetup fs g res i = .ok su)
    (hc : isCompleteAt res i = false)
    (hreach : su.provider.should_persist = false ∨
      (su.provider.should_persist = true ∧ fullReady = true ∧
        ∃ c evs2, cache = some c ∧ tryLoadAll c su.tk_queries = (evs2, none)))
    (hlen : (su.task.compute (su.dep_results.map (fun r => r.value))).length ≠
      su.provider.names.length) :
    ∃ evs, worklist fs fullReady g (fuel + 1) ⟨i :: rest, bl, lg, res, cache, tr⟩ =
        .err .assertLenValues ⟨rest, bl, lg, res, cache, tr ++ evs⟩ ∧
      isCompleteAt res i = false := by
  have hbl := (taskSetup_ok_inv hsetup).2.1
  rcases hreach with hper | ⟨hper, hfull, c, evs2, hcache, hload⟩
  · have hcomp : computeTaskState fs fullReady g i res cache =
        .error (.assertLenValues, cache, [] ++ [.computed i su.task.keys]) := by
      rw [computeTaskState_plain hsetup hper, computePhase_len_mismatch hlen]
    exact ⟨[] ++ [.computed i su.task.keys],
      worklist_step_compute_err fs fullReady g fuel i rest bl lg res cache cache tr _
        .assertLenValues hc hbl hcomp, hc⟩
  · subst hfull
    subst hcache
    have hcomp : computeTaskState fs true g i res (some c) =
        .error (.assertLenValues, some c, evs2 ++ [.computed i su.task.keys]) := by
      rw [computeTaskState_cache_miss hsetup hper hload, computePhase_len_mismatch hlen]
    exact ⟨evs2 ++ [.computed i su.task.keys],
      worklist_step_compute_err fs true g fuel i rest bl lg res (some c) (some c) tr _
        .assertLenValues hc hbl hcomp, hc⟩

/-- C8: when a computed output value is rejected by its query's
protocol, task evaluation raises a protocol error that the work-list
propagates (the loop returns `err` with a `protocolError` for one of the
task's queries), and the state is NOT marked complete: the carried
result table is the unchanged `res`, in which the state is still
incomplete. -/
theorem c8_protocol_rejection {fs : FlowState} {fullReady : Bool} {g : Graph} {fuel i : Nat}
    {rest : List Nat} {bl : List (List TaskKey)} {lg : List TaskKey} {res : ResultsTable}
    {cache : Option CacheState} {tr : List Event} {su : TaskSetup}
    (hsetup : taskSetup fs g res i = .ok su)
    (hc : isCompleteAt res i = false)
    (hreach : su.provider.should_persist = false ∨
      (su.provider.should_persist = true ∧ fullReady = true ∧
        ∃ c evs2, cache = some c ∧ tryLoadAll c su.tk_queries = (evs2, none)))
    (hlen : (su.task.compute (su.dep_results.map (fun r => r.value))).length =
      su.provider.names.length)
    (hfail : ∃ p ∈ (su.task.compute (su.dep_results.map (fun r => r.value))).zip su.tk_queries,
      fs.validate p.2.protocol p.1 = false) :
    ∃ v q c2 evs,
      worklist fs fullReady g (fuel + 1) ⟨i :: rest, bl, lg, res, cache, tr⟩ =
        .err (.protocolError q) ⟨rest, bl, lg, res, c2, tr ++ evs⟩ ∧
      q ∈ su.tk_queries ∧ fs.validate q.protocol v = false ∧
      isCompleteAt res i = false := by
  have hbl := (taskSetup_ok_inv hsetup).2.1
  rcases hreach with hper | ⟨hper, hfull, c, evs2, hcache, hload⟩
  · obtain ⟨v, q, c2, evs, hmem, hval, hrun⟩ :=
      @processOutputs_fail fs false cache
        ((su.task.compute (su.dep_results.map (fun r => r.value))).zip su.tk_queries)
        (fun hcon => by cases hcon) hfail
    have hcomp : computeTaskState fs fullReady g i res cache =
        .error (.protocolError q, c2, ([] ++ [.computed i su.task.keys]) ++ evs) := by
      rw [computeTaskState_plain hsetup hper, computePhase_len_ok hlen, hrun]
    exact ⟨v, q, c2, ([] ++ [.computed i su.task.keys]) ++ evs,
      worklist_step_compute_err fs fullReady g fuel i rest bl lg res cache c2 tr _ _
        hc hbl hcomp,
      (List.of_mem_zip hmem).2, hval, hc⟩
  · subst hfull
    subst hcache
    obtain ⟨v, q, c2, evs, hmem, hval, hrun⟩ :=
      @processOutputs_fail fs true (some c)
        ((su.task.compute (su.dep_results.map (fun r => r.value))).zip su.tk_queries)
        (fun _ => rfl) hfail
    have hcomp : computeTaskState fs true g i res (some c) =
        .error (.protocolError q, c2, (evs2 ++ [.computed i su.task.keys]) ++ evs) := by
      rw [computeTaskState_cache_miss hsetup hper hload, computePhase_len_ok hlen, hrun]
    exact ⟨v, q, c2, (evs2 ++ [.computed i su.task.keys]) ++ evs,
      worklist_step_compute_err fs true g fuel i rest bl lg res (some c) c2 tr _ _
        hc hbl hcomp,
      (List.of_mem_zip hmem).2, hval, hc⟩

theorem countComputedIdx_map_loadCall (qs : List Query) (b : Bool) (i : Nat) :
    countComputedIdx (qs.map (fun q => Event.loadCall q b)) i = 0 := by
  induction qs with
  | nil => rfl
  | cons q qs ih => simpa [countComputedIdx, List.filter_cons] using ih

theorem countComputedIdx_append (tr1 tr2 : List Event) (i : Nat) :
    countComputedIdx (tr1 ++ tr2) i = countComputedIdx tr1 i + countComputedIdx tr2 i := by
  simp [countComputedIdx, List.filter_append]

theorem countComputedIdx_tryLoadAll (c : CacheState) (i : Nat) :
    ∀ qs : List Query, countComputedIdx (tryLoadAll c qs).1 i = 0 := by
  intro qs
  induction qs with
  | nil => rfl
  | cons q qs ih =>
    cases hload : cacheLoad c q with
    | none => simp [tryLoadAll, hload, countComputedIdx, List.filter_cons]
    | some r => simpa [tryLoadAll, hload, countComputedIdx, List.filter_cons] using ih

theorem countComputedIdx_flatMap_vsl (c : CacheState) (i : Nat) :
    ∀ pairs : List (Value × Query),
    countComputedIdx (pairs.flatMap (fun p =>
      [.validateCall p.2 p.1, .saveCall p.2 (c.canon p.1), .loadCall p.2 true])) i = 0 := by
  intro pairs
  induction pairs with
  | nil => rfl
  | cons p rest ih =>
    simpa [List.flatMap_cons, countComputedIdx, List.filter_cons, List.filter_append,
      countComputedIdx_append] using ih

theorem countLoadCalls_map_loadCall (qs : List Query) (b : Bool) (q : Query) :
    countLoadCalls (qs.map (fun q2 => Event.loadCall q2 b)) q = qs.count q := by
  induction qs with
  | nil => rfl
  | cons q2 qs ih =>
    simp only [List.map_cons, countLoadCalls, List.filter_cons] at *
    by_cases h : q2 = q
    · subst h
      simp [ih, List.count_cons]
    · simp [h, ih, List.count_cons, Ne.symm h]

/-- The per-output queries of a task whose output entity names are
distinct are themselves distinct. -/
theorem taskSetup_queries_nodup {fs : FlowState} {g : Graph} {res : ResultsTable} {i : Nat}
    {su : TaskSetup} (hsetup : taskSetup fs g res i = .ok su)
    (hnames : (su.task.keys.map (fun k => k.entity_name)).Nodup) :
    su.tk_queries.Nodup := by
  have h := taskSetup_ok_queries_names hsetup
  have h2 : (su.tk_queries.map (fun q => q.name)).Nodup := by rw [h]; exact hnames
  exact h2.of_map

/-- Shared characterization: a persisting, full-ready task with a cache
miss computes all outputs; each accepted output is saved and the
reloaded (round-tripped) result is installed. -/
theorem computeTaskState_miss_computes {fs : FlowState} {g : Graph} {i : Nat}
    {res : ResultsTable} {c : CacheState} {su : TaskSetup} {evs2 : List Event}
    (hsetup : taskSetup fs g res i = .ok su)
    (hpersist : su.provider.should_persist = true)
    (hmiss : tryLoadAll c su.tk_queries = (evs2, none))
    (hlen : (su.task.compute (su.dep_results.map (fun r => r.value))).length =
      su.provider.names.length)
    (hnk : su.provider.names.length = su.task.keys.length)
    (hvalid : ∀ p ∈ (su.task.compute (su.dep_results.map (fun r => r.value))).zip su.tk_queries,
      fs.validate p.2.protocol p.1 = true) :
    computeTaskState fs true g i res (some c) =
      .ok (dictOf ((su.task.keys.zip
              (((su.task.compute (su.dep_results.map (fun r => r.value))).zip su.tk_queries).map
                (fun p => ⟨p.2, c.canon p.1⟩))).map (fun p => (p.1.entity_name, p.2))),
           some (((su.task.compute (su.dep_results.map (fun r => r.value))).zip
              su.tk_queries).foldl (fun cc p => cacheSave cc ⟨p.2, p.1⟩) c),
           (evs2 ++ [.computed i su.task.keys]) ++
             ((su.task.compute (su.dep_results.map (fun r => r.value))).zip
                su.tk_queries).flatMap (fun p =>
               [.validateCall p.2 p.1, .saveCall p.2 (c.canon p.1), .loadCall p.2 true])) := by
  have hql := taskSetup_ok_queries_len hsetup
  have hrl : (((su.task.compute (su.dep_results.map (fun r => r.value))).zip su.tk_queries).map
      (fun p => (⟨p.2, c.canon p.1⟩ : Result))).length = su.task.keys.length := by
    rw [List.length_map, List.length_zip, hql, hlen, hnk, Nat.min_self]
  rw [computeTaskState_cache_miss hsetup hpersist hmiss, computePhase_len_ok hlen,
    processOutputs_ok_persist c _ hvalid]
  simp [installResults, hrl]

/-- C6: for a persisting task evaluated when full-ready: if the cache
holds a result for every output query, `compute` is not invoked — the
trace is exactly one hit `load` per output query (one load call per
query, since queries are distinct) and the installed results are the
cached ones; if any query misses, the partial hits are discarded and
`compute` is invoked to produce all outputs — the installed map is
rebuilt entirely from the computed (round-tripped) values. -/
theorem c6_persist_cache_usage {fs : FlowState} {g : Graph} {i : Nat}
    {res : ResultsTable} {c : CacheState} {su : TaskSetup}
    (hsetup : taskSetup fs g res i = .ok su)
    (hpersist : su.provider.should_persist = true)
    (hnames : (su.task.keys.map (fun k => k.entity_name)).Nodup) :
    ((∀ q ∈ su.tk_queries, (cacheLoad c q).isSome = true) →
      ∃ rs, computeTaskState fs true g i res (some c) =
          .ok (dictOf ((su.task.keys.zip rs).map (fun p => (p.1.entity_name, p.2))), some c,
               su.tk_queries.map (fun q => Event.loadCall q true)) ∧
        (∀ r ∈ rs, cacheLoad c r.query = some r) ∧
        countComputedIdx (su.tk_queries.map (fun q => Event.loadCall q true)) i = 0 ∧
        (∀ q ∈ su.tk_queries,
          countLoadCalls (su.tk_queries.map (fun q2 => Event.loadCall q2 true)) q = 1)) ∧
    ((∃ q ∈ su.tk_queries, cacheLoad c q = none) →
      ∀ evs2, tryLoadAll c su.tk_queries = (evs2, none) →
      (su.task.compute (su.dep_results.map (fun r => r.value))).length =
        su.provider.names.length →
      su.provider.names.length = su.task.keys.length →
      (∀ p ∈ (su.task.compute (su.dep_results.map (fun r => r.value))).zip su.tk_queries,
        fs.validate p.2.protocol p.1 = true) →
      ∃ c2 evs, computeTaskState fs true g i res (some c) =
          .ok (dictOf ((su.task.keys.zip
                (((su.task.compute (su.dep_results.map (fun r => r.value))).zip
                    su.tk_queries).map (fun p => ⟨p.2, c.canon p.1⟩))).map
                  (fun p => (p.1.entity_name, p.2))), c2, evs) ∧
        countComputedIdx evs i = 1) := by
  constructor
  · intro hall
    obtain ⟨rs, hload, hlen, hmem⟩ := tryLoadAll_all_hits c su.tk_queries hall
    have hrl : rs.length = su.task.keys.length := by
      rw [hlen, taskSetup_ok_queries_len hsetup]
    refine ⟨rs, ?_, fun r hr => (hmem r hr).1, countComputedIdx_map_loadCall _ _ _, ?_⟩
    · rw [computeTaskState_cache_hit hsetup hpersist hload]
      simp [installResults, hrl]
    · intro q hq
      rw [countLoadCalls_map_loadCall]
      exact List.count_eq_one_of_mem (taskSetup_queries_nodup hsetup hnames) hq
  · intro hmiss evs2 hload hlen hnk hvalid
    refine ⟨_, _, computeTaskState_miss_computes hsetup hpersist hload hlen hnk hvalid, ?_⟩
    have h1 : countComputedIdx evs2 i = 0 := by
      have := countComputedIdx_tryLoadAll c i su.tk_queries
      rw [hload] at this
      exact this
    have h2 : countComputedIdx [Event.computed i su.task.keys] i = 1 := by
      simp [countComputedIdx, List.filter_cons]
    rw [countComputedIdx_append, countComputedIdx_append, h1, h2,
      countComputedIdx_flatMap_vsl c i]

/-- C7: for a persisting task that is actually computed (some output
query missed the cache), each accepted output value is validated, then
saved, then reloaded — the trace shows exactly the
validate/save/reload triple per output, in output order — and the
installed Result carries the reloaded value `c.canon v` (the
serialization round trip of the computed `v`), not the originally
computed value.  On a full cache hit, by contrast, no validation call
occurs at all. -/
theorem c7_save_reload_canonical {fs : FlowState} {g : Graph} {i : Nat}
    {res : ResultsTable} {c : CacheState} {su : TaskSetup}
    (hsetup : taskSetup fs g res i = .ok su)
    (hpersist : su.provider.should_persist = true) :
    (∀ evs2, tryLoadAll c su.tk_queries = (evs2, none) →
      (su.task.compute (su.dep_results.map (fun r => r.value))).length =
        su.provider.names.length →
      su.provider.names.length = su.task.keys.length →
      (∀ p ∈ (su.task.compute (su.dep_results.map (fun r => r.value))).zip su.tk_queries,
        fs.validate p.2.protocol p.1 = true) →
      computeTaskState fs true g i res (some c) =
        .ok (dictOf ((su.task.keys.zip
                (((su.task.compute (su.dep_results.map (fun r => r.value))).zip
                    su.tk_queries).map (fun p => ⟨p.2, c.canon p.1⟩))).map
                  (fun p => (p.1.entity_name, p.2))),
             some (((su.task.compute (su.dep_results.map (fun r => r.value))).zip
                su.tk_queries).foldl (fun cc p => cacheSave cc ⟨p.2, p.1⟩) c),
             (evs2 ++ [.computed i su.task.keys]) ++
               ((su.task.compute (su.dep_results.map (fun r => r.value))).zip
                  su.tk_queries).flatMap (fun p =>
                 [.validateCall p.2 p.1, .saveCall p.2 (c.canon p.1),
                  .loadCall p.2 true]))) ∧
    ((∀ q ∈ su.tk_queries, (cacheLoad c q).isSome = true) →
      ∃ m, computeTaskState fs true g i res (some c) =
          .ok (m, some c, su.tk_queries.map (fun q => Event.loadCall q true)) ∧
        ∀ q v, Event.validateCall q v ∉
          su.tk_queries.map (fun q2 => Event.loadCall q2 true)) := by
  constructor
  · intro evs2 hmiss hlen hnk hvalid
    exact computeTaskState_miss_computes hsetup hpersist hmiss hlen hnk hvalid
  · intro hall
    obtain ⟨rs, hload, hlen, hmem⟩ := tryLoadAll_all_hits c su.tk_queries hall
    have hrl : rs.length = su.task.keys.length := by
      rw [hlen, taskSetup_ok_queries_len hsetup]
    refine ⟨dictOf ((su.task.keys.zip rs).map (fun p => (p.1.entity_name, p.2))), ?_, ?_⟩
    · rw [computeTaskState_cache_hit hsetup hpersist hload]
      simp [installResults, hrl]
    · intro q v hmem2
      rcases List.mem_map.mp hmem2 with ⟨q2, -, hq2⟩
      cases hq2

/-- C9 (exhibiting the filter bug): with `include_core = false` the
export is claimed to omit every internal node and every edge into or out
of an internal node.  The outer loop does skip internal entities, but
the filter closure `should_include_entity_name` reads the enclosing
loop's `entity_name` instead of its argument, so the edge filter for
children always passes for a non-internal parent — and `add_edge`
silently re-adds the internal endpoint as a bare node.  On `c9Flow`
(internal entity `core__y` consuming the plain entity `x`), the export
with `include_core = false` succeeds and contains exactly the edge from
`x` to `core__y` and the internal node `core__y`. -/
theorem c9_internal_edge_not_omitted :
    ((export_dag c9R false 30).valueOf ⟨[], [], []⟩).edges =
      [(⟨"x", []⟩, ⟨"core__y", []⟩)] ∧
    ((⟨"core__y", []⟩ : TaskKey) ∈ ((export_dag c9R false 30).valueOf ⟨[], [], []⟩).nodeKeys) ∧
    entity_is_internal "core__y" = true := by
  exact ⟨rfl, by decide, rfl⟩

/-- A successful bootstrap leaves the full-readiness flag and the flow
untouched. -/
theorem getReadyBootstrap_ok_flags {r : Resolver} {fuel : Nat} {u : Unit} {r1 : Resolver}
    {tr : List Event} (h : getReadyBootstrap r fuel = .ok u r1 tr) :
    r1.full_ready = r.full_ready ∧ r1.flow = r.flow := by
  rw [getReadyBootstrap] at h
  split at h
  · cases h; exact ⟨rfl, rfl⟩
  · split at h
    · cases h
    · cases h
    next g hg => cases h; exact ⟨rfl, rfl⟩

/-- A successful `computeResultGroup` only updates the result table and
the cache. -/
theorem computeResultGroup_ok_flags {r : Resolver} {name : EntityName} {fuel : Nat}
    {rg : ResultGroup} {r2 : Resolver} {tr : List Event}
    (h : computeResultGroup r name fuel = .ok rg r2 tr) :
    r2.full_ready = r.full_ready ∧ r2.flow = r.flow ∧ r2.graph = r.graph := by
  obtain ⟨g, tasks, req, ls, hg, -, -, -, -, -, -, -, hr2, -⟩ := computeResultGroup_ok_inv h
  rw [hr2]
  exact ⟨rfl, rfl, rfl⟩

/-- C5: during `get_ready`, the internal entity
`core__persistent_cache` must resolve to exactly one result: with zero
results `get_ready` raises the zero-values error and the resolver is not
full-ready; with two or more it raises the cardinality error and the
resolver is not full-ready; with exactly one the result's value is
adopted as the persistent cache and the resolver becomes full-ready. -/
theorem c5_bootstrap_cardinality {r r1 rB : Resolver} {fuel : Nat}
    {tr1 tr2 : List Event} {rg : ResultGroup}
    (h0 : r.full_ready = false)
    (hboot : getReadyBootstrap r fuel = .ok () r1 tr1)
    (hrg : computeResultGroup r1 "core__persistent_cache" fuel = .ok rg rB tr2) :
    (rg.results.length = 0 →
      getReadyFull r fuel = .err (.bootstrapZero "core__persistent_cache") rB (tr1 ++ tr2) ∧
      rB.full_ready = false) ∧
    (rg.results.length > 1 →
      getReadyFull r fuel =
        .err (.bootstrapMany "core__persistent_cache" (rg.results.map (fun x => x.value)))
          rB (tr1 ++ tr2) ∧ rB.full_ready = false) ∧
    (∀ r0, rg.results = [r0] →
      getReadyFull r fuel = .ok ()
        { rB with cache := some (rB.flow.cache_for_value r0.value), full_ready := true }
        (tr1 ++ tr2)) := by
  have hfb : rB.full_ready = false := by
    rw [(computeResultGroup_ok_flags hrg).1, (getReadyBootstrap_ok_flags hboot).1, h0]
  refine ⟨?_, ?_, ?_⟩
  · intro hlen
    refine ⟨?_, hfb⟩
    unfold getReadyFull
    simp only [h0, Bool.false_eq_true, if_false, hboot, hrg, hlen]
    simp
  · intro hlen
    have hne : ¬ rg.results.length = 0 := by omega
    refine ⟨?_, hfb⟩
    unfold getReadyFull
    simp only [h0, Bool.false_eq_true, if_false, hboot, hrg]
    simp [hne, hlen]
  · intro r0 hsingle
    unfold getReadyFull
    simp only [h0, Bool.false_eq_true, if_false, hboot, hrg, hsingle]
    simp

theorem processOutputs_count_computed {fs : FlowState} {persist : Bool} (j : Nat) :
    ∀ (cache : Option CacheState) (pairs : List (Value × Query)),
    (∀ rs c2 evs, processOutputs fs persist cache pairs = .ok (rs, c2, evs) →
      countComputedIdx evs j = 0) ∧
    (∀ e c2 evs, processOutputs fs persist cache pairs = .error (e, c2, evs) →
      countComputedIdx evs j = 0) := by
  intro cache pairs
  induction pairs generalizing cache with
  | nil =>
    constructor
    · intro rs c2 evs h
      cases h
      rfl
    · intro e c2 evs h
      cases h
  | cons p rest ih =>
    obtain ⟨v, q⟩ := p
    by_cases hv : fs.validate q.protocol v = true
    · by_cases hper : persist = true
      · subst hper
        cases cache with
        | none =>
          constructor
          · intro rs c2 evs h
            simp only [processOutputs, hv, if_true] at h
            cases h
          · intro e c2 evs h
            simp only [processOutputs, hv, if_true] at h
            cases h
            rfl
        | some c =>
          constructor
          · intro rs c2 evs h
            simp only [processOutputs, hv, if_true,
              cacheLoad_cacheSave_self c ⟨q, v⟩] at h
            cases hrec : processOutputs fs true (some (cacheSave c ⟨q, v⟩)) rest with
            | error tup =>
              obtain ⟨e2, c3, evs2⟩ := tup
              simp only [hrec] at h
              cases h
            | ok tup =>
              obtain ⟨rs2, c3, evs2⟩ := tup
              simp only [hrec] at h
              cases h
              simpa [countComputedIdx, List.filter_cons] using
                (ih (some (cacheSave c ⟨q, v⟩))).1 _ _ _ hrec
          · intro e c2 evs h
            simp only [processOutputs, hv, if_true,
              cacheLoad_cacheSave_self c ⟨q, v⟩] at h
            cases hrec : processOutputs fs true (some (cacheSave c ⟨q, v⟩)) rest with
            | error tup =>
              obtain ⟨e2, c3, evs2⟩ := tup
              simp only [hrec] at h
              cases h
              simpa [countComputedIdx, List.filter_cons] using
                (ih (some (cacheSave c ⟨q, v⟩))).2 _ _ _ hrec
            | ok tup =>
              obtain ⟨rs2, c3, evs2⟩ := tup
              simp only [hrec] at h
              cases h
      · have hper2 : persist = false := by simpa using hper
        subst hper2
        constructor
        · intro rs c2 evs h
          simp only [processOutputs, hv, if_true, Bool.false_eq_true, if_false] at h
          cases hrec : processOutputs fs false cache rest with
          | error tup =>
            obtain ⟨e2, c3, evs2⟩ := tup
            simp only [hrec] at h
            cases h
          | ok tup =>
            obtain ⟨rs2, c3, evs2⟩ := tup
            simp only [hrec] at h
            cases h
            simpa [countComputedIdx, List.filter_cons] using
              (ih cache).1 _ _ _ hrec
        · intro e c2 evs h
          simp only [processOutputs, hv, if_true, Bool.false_eq_true, if_false] at h
          cases hrec : processOutputs fs false cache rest with
          | error tup =>
            obtain ⟨e2, c3, evs2⟩ := tup
            simp only [hrec] at h
            cases h
            simpa [countComputedIdx, List.filter_cons] using
              (ih cache).2 _ _ _ hrec
          | ok tup =>
            obtain ⟨rs2, c3, evs2⟩ := tup
            simp only [hrec] at h
            cases h
    · have hvf : fs.validate q.protocol v = false := by simpa using hv
      constructor
      · intro rs c2 evs h
        simp only [processOutputs, hvf, Bool.false_eq_true, if_false] at h
        cases h
      · intro e c2 evs h
        simp only [processOutputs, hvf, Bool.false_eq_true, if_false] at h
        cases h
        rfl


theorem installResults_count_computed {su : TaskSetup} {rs : List Result}
    {cache : Option CacheState} {evs0 : List Event} (j : Nat) :
    (∀ m c2 evs, installResults su rs cache evs0 = .ok (m, c2, evs) → evs = evs0) ∧
    (∀ e c2 evs, installResults su rs cache evs0 = .error (e, c2, evs) → evs = evs0) := by
  constructor
  · intro m c2 evs h
    rw [installResults] at h
    split at h
    · cases h; rfl
    · cases h
  · intro e c2 evs h
    rw [installResults] at h
    split at h
    · cases h
    · cases h; rfl

theorem computePhase_count_computed {fs : FlowState} {persist : Bool} {i : Nat}
    {su : TaskSetup} {cache : Option CacheState} {evs0 : List Event} (j : Nat)
    (h0 : countComputedIdx evs0 j = 0) :
    (∀ m c2 evs, computePhase fs persist i su cache evs0 = .ok (m, c2, evs) →
      countComputedIdx evs j ≤ if j = i then 1 else 0) ∧
    (∀ e c2 evs, computePhase fs persist i su cache evs0 = .error (e, c2, evs) →
      countComputedIdx evs j ≤ if j = i then 1 else 0) := by
  have hone : countComputedIdx (evs0 ++ [Event.computed i su.task.keys]) j =
      if j = i then 1 else 0 := by
    rw [countComputedIdx_append, h0]
    by_cases hj : j = i
    · subst hj; simp [countComputedIdx, List.filter_cons]
    · have hij : ¬ i = j := fun h2 => hj h2.symm
      rw [if_neg hj]
      simp [countComputedIdx, List.filter_cons, hij]
  constructor
  · intro m c2 evs h
    rw [computePhase] at h
    split at h
    · cases hpo : processOutputs fs persist cache
          ((su.task.compute (su.dep_results.map (fun r => r.value))).zip su.tk_queries) with
      | error tup =>
        obtain ⟨e2, c3, evs2⟩ := tup
        simp only [hpo] at h
        cases h
      | ok tup =>
        obtain ⟨rs, c3, evs2⟩ := tup
        simp only [hpo] at h
        have hev := (installResults_count_computed j).1 m c2 evs h
        subst hev
        rw [countComputedIdx_append, hone,
          (processOutputs_count_computed j cache _).1 rs c3 evs2 hpo]
        simp
    · cases h
  · intro e c2 evs h
    rw [computePhase] at h
    split at h
    · cases hpo : processOutputs fs persist cache
          ((su.task.compute (su.dep_results.map (fun r => r.value))).zip su.tk_queries) with
      | error tup =>
        obtain ⟨e2, c3, evs2⟩ := tup
        simp only [hpo] at h
        cases h
        rw [countComputedIdx_append, hone,
          (processOutputs_count_computed j cache _).2 _ _ _ hpo]
        simp
      | ok tup =>
        obtain ⟨rs, c3, evs2⟩ := tup
        simp only [hpo] at h
        have hev := (installResults_count_computed j).2 e c2 evs h
        subst hev
        rw [countComputedIdx_append, hone,
          (processOutputs_count_computed j cache _).1 rs c3 evs2 hpo]
        simp
    · cases h
      rw [hone]

/-- Any single task evaluation emits at most one compute event, and
only for its own state index. -/
theorem computeTaskState_count_computed {fs : FlowState} {fr : Bool} {g : Graph} {i : Nat}
    {res : ResultsTable} {cache : Option CacheState} (j : Nat) :
    (∀ m c2 evs, computeTaskState fs fr g i res cache = .ok (m, c2, evs) →
      countComputedIdx evs j ≤ if j = i then 1 else 0) ∧
    (∀ e c2 evs, computeTaskState fs fr g i res cache = .error (e, c2, evs) →
      countComputedIdx evs j ≤ if j = i then 1 else 0) := by
  have hz : countComputedIdx ([] : List Event) j = 0 := rfl
  have hload0 : ∀ (c : CacheState) (qs : List Query) (evs2 : List Event)
      (o : Option (List Result)), tryLoadAll c qs = (evs2, o) →
      countComputedIdx evs2 j = 0 := by
    intro c qs evs2 o h
    have := countComputedIdx_tryLoadAll c j qs
    rw [h] at this
    exact this
  cases hsu : taskSetup fs g res i with
  | error e2 =>
    constructor
    · intro m c2 evs h
      unfold computeTaskState at h
      simp only [hsu] at h
      cases h
    · intro e c2 evs h
      unfold computeTaskState at h
      simp only [hsu] at h
      cases h
      rw [hz]
      exact Nat.zero_le _
  | ok su =>
    by_cases hper : su.provider.should_persist = true
    · cases fr with
      | false =>
        constructor
        · intro m c2 evs h
          unfold computeTaskState at h
          simp only [hsu, hper, if_true, Bool.false_eq_true, if_false] at h
          cases h
        · intro e c2 evs h
          unfold computeTaskState at h
          simp only [hsu, hper, if_true, Bool.false_eq_true, if_false] at h
          cases h
          rw [hz]
          exact Nat.zero_le _
      | true =>
        cases cache with
        | none =>
          constructor
          · intro m c2 evs h
            unfold computeTaskState at h
            simp only [hsu, hper, if_true] at h
            cases h
          · intro e c2 evs h
            unfold computeTaskState at h
            simp only [hsu, hper, if_true] at h
            cases h
            rw [hz]
            exact Nat.zero_le _
        | some c =>
          cases hload : tryLoadAll c su.tk_queries with
          | mk evs2 o =>
            cases o with
            | some rs =>
              constructor
              · intro m c2 evs h
                unfold computeTaskState at h
                simp only [hsu, hper, if_true, hload] at h
                have hev := (installResults_count_computed j).1 m c2 evs h
                subst hev
                rw [hload0 c su.tk_queries _ (some rs) hload]
                split <;> omega
              · intro e c2 evs h
                unfold computeTaskState at h
                simp only [hsu, hper, if_true, hload] at h
                have hev := (installResults_count_computed j).2 e c2 evs h
                subst hev
                rw [hload0 c su.tk_queries _ (some rs) hload]
                split <;> omega
            | none =>
              have hcp := @computePhase_count_computed fs true i su (some c) evs2 j
                (hload0 c su.tk_queries evs2 none hload)
              constructor
              · intro m c2 evs h
                unfold computeTaskState at h
                simp only [hsu, hper, if_true, hload] at h
                exact hcp.1 m c2 evs h
              · intro e c2 evs h
                unfold computeTaskState at h
                simp only [hsu, hper, if_true, hload] at h
                exact hcp.2 e c2 evs h
    · have hper2 : su.provider.should_persist = false := by simpa using hper
      have hcp := @computePhase_count_computed fs false i su cache [] j hz
      constructor
      · intro m c2 evs h
        unfold computeTaskState at h
        simp only [hsu, hper2, Bool.false_eq_true, if_false] at h
        exact hcp.1 m c2 evs h
      · intro e c2 evs h
        unfold computeTaskState at h
        simp only [hsu, hper2, Bool.false_eq_true, if_false] at h
        exact hcp.2 e c2 evs h


/-- C2: `resolve` is idempotent.  If a first `resolve(E)` succeeds with
group `rg` and resolver state `r1`, then a second `resolve(E)` on `r1`
succeeds with the very same ResultGroup (hence equal values), leaves the
resolver unchanged, and its trace contains no `compute` invocation: all
requested states are already complete and are served from the in-memory
result table. -/
theorem c2_resolve_idempotent {r : Resolver} {name : EntityName} {fuel : Nat}
    {rg : ResultGroup} {r1 : Resolver} {tr : List Event}
    (h : resolve r name fuel = .ok rg r1 tr) :
    ∃ fuel2 tr2, resolve r1 name fuel2 = .ok rg r1 tr2 ∧
      (∀ e ∈ tr2, e.isComputed = false) := by
  obtain ⟨rA, tr1, tr2, hready, hcrg, htr⟩ := resolve_ok_inv h
  obtain ⟨g, tasks, req, ls, hg, htasks, hreq, hls, hbl, hall, hcoll, hks, hr1, htrls⟩ :=
    computeResultGroup_ok_inv hcrg
  have hfullA : rA.full_ready = true := getReadyFull_ok_ready hready
  have hfull : r1.full_ready = true := by rw [hr1]; exact hfullA
  have hg1 : r1.graph = some g := by rw [hr1]; exact hg
  have hres1 : r1.results = ls.results := by rw [hr1]
  have hcache1 : r1.cache = ls.cache := by rw [hr1]
  have hallmem : ∀ i ∈ req.reverse, isCompleteAt ls.results i = true := by
    intro i hi
    exact List.all_eq_true.mp hall i (List.mem_reverse.mp hi)
  obtain ⟨lg2, evs, hrun, hevs⟩ :=
    worklist_all_complete r1.flow r1.full_ready g req.reverse [] [] ls.results ls.cache []
      hallmem
  refine ⟨req.reverse.length + 1, evs, ?_, hevs⟩
  have hr1eq : { r1 with results := ls.results, cache := ls.cache } = r1 := by
    rw [hr1]
  have hcrg2 : computeResultGroup r1 name (req.reverse.length + 1) = .ok rg r1 evs := by
    unfold computeResultGroup
    rw [hg1]
    simp only [htasks, hreq, hres1, hcache1]
    rw [hrun]
    simp only [hall, if_true, hcoll, hks, List.nil_append, hr1eq]
    rw [← hg1, hr1eq]
  simp only [resolve, getReadyFull_of_ready hfull, hcrg2, List.nil_append]

theorem countComputedIdx_zero_of_not_computed {evs : List Event}
    (h : ∀ e ∈ evs, e.isComputed = false) (j : Nat) : countComputedIdx evs j = 0 := by
  induction evs with
  | nil => rfl
  | cons e rest ih =>
    have he := h e (List.mem_cons_self e rest)
    cases e with
    | computed i2 ks => cases he
    | accessedMem k =>
      simpa [countComputedIdx, List.filter_cons] using
        ih (fun e2 he2 => h e2 (List.mem_cons_of_mem _ he2))
    | loadCall q b =>
      simpa [countComputedIdx, List.filter_cons] using
        ih (fun e2 he2 => h e2 (List.mem_cons_of_mem _ he2))
    | saveCall q v =>
      simpa [countComputedIdx, List.filter_cons] using
        ih (fun e2 he2 => h e2 (List.mem_cons_of_mem _ he2))
    | validateCall q v =>
      simpa [countComputedIdx, List.filter_cons] using
        ih (fun e2 he2 => h e2 (List.mem_cons_of_mem _ he2))

theorem isCompleteAt_set_self {res : ResultsTable} {i : Nat} {m : ResultsMap}
    (h : i < res.length) : isCompleteAt (res.set i (some m)) i = true := by
  induction res generalizing i with
  | nil => cases h
  | cons o rest ih =>
    cases i with
    | zero => rfl
    | succ i2 =>
      simpa [isCompleteAt, List.set, List.getD] using
        ih (Nat.lt_of_succ_lt_succ h)

theorem isCompleteAt_set_mono {res : ResultsTable} {i j : Nat} {m : ResultsMap}
    (h : isCompleteAt res j = true) : isCompleteAt (res.set i (some m)) j = true := by
  induction res generalizing i j with
  | nil => simpa [isCompleteAt, List.getD] using h
  | cons o rest ih =>
    cases i with
    | zero =>
      cases j with
      | zero => rfl
      | succ j2 => simpa [isCompleteAt, List.set, List.getD] using h
    | succ i2 =>
      cases j with
      | zero => simpa [isCompleteAt, List.set, List.getD] using h
      | succ j2 =>
        have := @ih i2 j2 (by simpa [isCompleteAt, List.getD] using h)
        simpa [isCompleteAt, List.set, List.getD] using this

theorem parentsAt_range {g : Graph} {n : Nat} (hg : GraphInRange g n) (i : Nat) :
    ∀ p ∈ parentsAt g i, p < n := by
  intro p hp
  rw [parentsAt, List.getD] at hp
  cases hidx : g.parentsL.get? i with
  | none => rw [hidx] at hp; cases hp
  | some l =>
    rw [hidx] at hp
    exact hg.2.1 l (List.get?_mem hidx) p hp

theorem childrenAt_range {g : Graph} {n : Nat} (hg : GraphInRange g n) (i : Nat) :
    ∀ c ∈ childrenAt g i, c < n := by
  intro c hc
  rw [childrenAt, List.getD] at hc
  cases hidx : g.childrenL.get? i with
  | none => rw [hidx] at hc; cases hc
  | some l =>
    rw [hidx] at hc
    exact hg.2.2 l (List.get?_mem hidx) c hc

/-- Members of the promoted ready stack come from the child list or
from the pre-existing stack. -/
theorem promote_ready_mem (g : Graph) (res : ResultsTable) :
    ∀ (cs ready : List Nat) (bl : List (List TaskKey)) (x : Nat),
    x ∈ (promote g res cs ready bl).1 → x ∈ cs ∨ x ∈ ready := by
  intro cs
  induction cs with
  | nil => intro ready bl x hx; exact Or.inr hx
  | cons c cs2 ih =>
    intro ready bl x hx
    rw [promote] at hx
    split at hx
    · rcases ih (c :: ready) (bl.erase (keysOf g c)) x hx with h1 | h1
      · exact Or.inl (List.mem_cons_of_mem c h1)
      · rcases List.mem_cons.mp h1 with h2 | h2
        · exact Or.inl (h2 ▸ List.mem_cons_self c cs2)
        · exact Or.inr h2
    · rcases ih ready bl x hx with h1 | h1
      · exact Or.inl (List.mem_cons_of_mem c h1)
      · exact Or.inr h1

/-- Members of the stack extended with incomplete parents come from the
parents or the pre-existing stack. -/
theorem pushIncomplete_mem (res : ResultsTable) :
    ∀ (l rest : List Nat) (x : Nat),
    x ∈ l.foldl (fun acc p => if isCompleteAt res p then acc else p :: acc) rest →
    x ∈ l ∨ x ∈ rest := by
  intro l
  induction l with
  | nil => intro rest x hx; exact Or.inr hx
  | cons p l2 ih =>
    intro rest x hx
    rw [List.foldl_cons] at hx
    by_cases hp : isCompleteAt res p = true
    · rw [if_pos hp] at hx
      rcases ih rest x hx with h1 | h1
      · exact Or.inl (List.mem_cons_of_mem p h1)
      · exact Or.inr h1
    · rw [if_neg hp] at hx
      rcases ih (p :: rest) x hx with h1 | h1
      · exact Or.inl (List.mem_cons_of_mem p h1)
      · rcases List.mem_cons.mp h1 with h2 | h2
        · exact Or.inl (h2 ▸ List.mem_cons_self p l2)
        · exact Or.inr h2

/-- Master at-most-once invariant of the work-list, relative to an
ambient trace `pre` of earlier activity on the same resolver: if every
state computed so far is complete and none was computed twice, then
after any number of loop steps no state has been computed twice; on
normal exit the computed-implies-complete link still holds (on error the
failing state was computed once but stays incomplete). -/
theorem worklist_count_invariant (fs : FlowState) (fr : Bool) (g : Graph)
    (hg : GraphInRange g (nstates g)) :
    ∀ (fuel : Nat) (ls : LoopState) (pre : List Event),
    ls.results.length = nstates g →
    (∀ j ∈ ls.ready, j < nstates g) →
    tracksComputed (pre ++ ls.trace) ls.results →
    computedOnce (pre ++ ls.trace) →
    (∀ ls2, worklist fs fr g fuel ls = .ok ls2 →
      tracksComputed (pre ++ ls2.trace) ls2.results ∧ computedOnce (pre ++ ls2.trace) ∧
      ls2.results.length = nstates g) ∧
    (∀ e ls2, worklist fs fr g fuel ls = .err e ls2 →
      computedOnce (pre ++ ls2.trace) ∧ ls2.results.length = nstates g) := by
  intro fuel
  induction fuel with
  | zero =>
    intro ls pre hlen hready htr honce
    refine ⟨fun ls2 h => ?_, fun e ls2 h => ?_⟩
    · rw [worklist_fuel_zero] at h
      cases h
    · rw [worklist_fuel_zero] at h
      cases h
  | succ n ih =>
    intro ls pre hlen hready htr honce
    obtain ⟨ready, bl, lg, res, cache, tr⟩ := ls
    dsimp only at hlen hready htr honce
    cases ready with
    | nil =>
      refine ⟨fun ls2 h => ?_, fun e ls2 h => ?_⟩
      · rw [worklist_ready_nil] at h
        cases h
        exact ⟨htr, honce, hlen⟩
      · rw [worklist_ready_nil] at h
        cases h
    | cons i rest =>
      have hi : i < nstates g := hready i (List.mem_cons_self i rest)
      have hrest : ∀ j ∈ rest, j < nstates g :=
        fun j hj => hready j (List.mem_cons_of_mem i hj)
      by_cases hc : isCompleteAt res i = true
      · have hstep := worklist_step_complete fs fr g n i rest bl lg res cache tr hc
        have hcnt : ∀ j,
            countComputedIdx (pre ++ (tr ++ (accessLogs (keysOf g i) lg).2)) j =
              countComputedIdx (pre ++ tr) j := by
          intro j
          rw [← List.append_assoc, countComputedIdx_append,
            countComputedIdx_zero_of_not_computed (accessLogs_not_computed _ _) j]
          omega
        have hrec := ih ⟨rest, bl, (accessLogs (keysOf g i) lg).1, res, cache,
            tr ++ (accessLogs (keysOf g i) lg).2⟩ pre hlen hrest
          (fun j hcj => htr j (by rwa [hcnt j] at hcj))
          (fun j => by rw [hcnt j]; exact honce j)
        refine ⟨fun ls2 h => ?_, fun e ls2 h => ?_⟩
        · rw [hstep] at h
          exact hrec.1 ls2 h
        · rw [hstep] at h
          exact hrec.2 e ls2 h
      · have hcf : isCompleteAt res i = false := by simpa using hc
        by_cases hb : isBlockedAt g res i = true
        · have hstep := worklist_step_blocked fs fr g n i rest bl lg res cache tr hcf hb
          have hrec := ih ⟨(parentsAt g i).foldl
              (fun acc p => if isCompleteAt res p then acc else p :: acc) rest,
              bl.insert (keysOf g i), lg, res, cache, tr⟩ pre hlen
            (fun j hj => by
              rcases pushIncomplete_mem res (parentsAt g i) rest j hj with h1 | h1
              · exact parentsAt_range hg i j h1
              · exact hrest j h1)
            htr honce
          refine ⟨fun ls2 h => ?_, fun e ls2 h => ?_⟩
          · rw [hstep] at h
            exact hrec.1 ls2 h
          · rw [hstep] at h
            exact hrec.2 e ls2 h
        · have hbf : isBlockedAt g res i = false := by simpa using hb
          have hcnt0 : countComputedIdx (pre ++ tr) i = 0 := by
            by_contra hne
            have := htr i (Nat.pos_of_ne_zero hne)
            rw [this] at hcf
            cases hcf
          cases hcomp : computeTaskState fs fr g i res cache with
          | error tup =>
            obtain ⟨e2, c1, evs⟩ := tup
            have hstep := worklist_step_compute_err fs fr g n i rest bl lg res cache c1
              tr evs e2 hcf hbf hcomp
            refine ⟨fun ls2 h => ?_, fun e ls2 h => ?_⟩
            · rw [hstep] at h
              cases h
            · rw [hstep] at h
              cases h
              refine ⟨fun j => ?_, hlen⟩
              have h1 : countComputedIdx (pre ++ (tr ++ evs)) j =
                  countComputedIdx (pre ++ tr) j + countComputedIdx evs j := by
                rw [← List.append_assoc, countComputedIdx_append]
              have hev := (computeTaskState_count_computed j).2 e2 c1 evs hcomp
              by_cases hj : j = i
              · subst hj
                rw [if_pos rfl] at hev
                rw [h1, hcnt0]
                omega
              · rw [if_neg hj] at hev
                have h2 := honce j
                rw [h1]
                omega
          | ok tup =>
            obtain ⟨m, c1, evs⟩ := tup
            have hstep := worklist_step_compute_ok fs fr g n i rest bl lg res cache c1
              tr evs m hcf hbf hcomp
            have hlen2 : (res.set i (some m)).length = nstates g := by
              rw [List.length_set]
              exact hlen
            have honce2 : computedOnce (pre ++ (tr ++ evs)) := by
              intro j
              have h1 : countComputedIdx (pre ++ (tr ++ evs)) j =
                  countComputedIdx (pre ++ tr) j + countComputedIdx evs j := by
                rw [← List.append_assoc, countComputedIdx_append]
              have hev := (computeTaskState_count_computed j).1 m c1 evs hcomp
              by_cases hj : j = i
              · subst hj
                rw [if_pos rfl] at hev
                rw [h1, hcnt0]
                omega
              · rw [if_neg hj] at hev
                have h2 := honce j
                rw [h1]
                omega
            have htr2 : tracksComputed (pre ++ (tr ++ evs)) (res.set i (some m)) := by
              intro j hj
              by_cases hji : j = i
              · subst hji
                exact isCompleteAt_set_self (by rw [hlen]; exact hi)
              · have hev := (computeTaskState_count_computed j).1 m c1 evs hcomp
                rw [if_neg hji] at hev
                have h1 : countComputedIdx (pre ++ (tr ++ evs)) j =
                    countComputedIdx (pre ++ tr) j + countComputedIdx evs j := by
                  rw [← List.append_assoc, countComputedIdx_append]
                rw [h1] at hj
                have h2 : 0 < countComputedIdx (pre ++ tr) j := by omega
                exact isCompleteAt_set_mono (htr j h2)
            have hready2 : ∀ j ∈ (promote g (res.set i (some m)) (childrenAt g i) rest bl).1,
                j < nstates g := by
              intro j hj
              rcases promote_ready_mem g (res.set i (some m)) (childrenAt g i) rest bl j hj
                with h1 | h1
              · exact childrenAt_range hg i j h1
              · exact hrest j h1
            have hrec := ih ⟨(promote g (res.set i (some m)) (childrenAt g i) rest bl).1,
                (promote g (res.set i (some m)) (childrenAt g i) rest bl).2,
                (keysOf g i).foldl (fun lg2 k => if k ∈ lg2 then lg2 else k :: lg2) lg,
                res.set i (some m), c1, tr ++ evs⟩ pre hlen2 hready2 htr2 honce2
            refine ⟨fun ls2 h => ?_, fun e ls2 h => ?_⟩
            · rw [hstep] at h
              exact hrec.1 ls2 h
            · rw [hstep] at h
              exact hrec.2 e ls2 h

theorem dlookup_mem {α β : Type} [DecidableEq α] {l : List (α × β)} {k : α} {v : β}
    (h : dlookup l k = some v) : (k, v) ∈ l := by
  induction l with
  | nil => cases h
  | cons p rest ih =>
    rw [dlookup] at h
    split at h
    next heq =>
      cases h
      subst heq
      exact List.mem_cons_self _ _
    next heq => exact List.mem_cons_of_mem p (ih h)

theorem dinsert_mem {α β : Type} [DecidableEq α] {l : List (α × β)} {k : α} {v : β} :
    ∀ p ∈ dinsert l k v, p = (k, v) ∨ p ∈ l := by
  induction l with
  | nil =>
    intro p hp
    rw [dinsert] at hp
    rcases List.mem_cons.mp hp with h1 | h1
    · exact Or.inl h1
    · cases h1
  | cons q rest ih =>
    intro p hp
    rw [dinsert] at hp
    split at hp
    · rcases List.mem_cons.mp hp with h1 | h1
      · exact Or.inl h1
      · exact Or.inr (List.mem_cons_of_mem q h1)
    · rcases List.mem_cons.mp hp with h1 | h1
      · exact Or.inr (h1 ▸ List.mem_cons_self q rest)
      · rcases ih p h1 with h2 | h2
        · exact Or.inl h2
        · exact Or.inr (List.mem_cons_of_mem q h2)

/-- The key map sends every key to an arena index. -/
theorem keyMapOf_range (arena : List Task) :
    ∀ p ∈ keyMapOf arena, p.2 < arena.length := by
  have hgen : ∀ (l : List (Nat × Task)) (m0 : List (TaskKey × Nat)),
      (∀ x ∈ l, x.1 < arena.length) → (∀ p ∈ m0, p.2 < arena.length) →
      ∀ p ∈ l.foldl (fun m pr => pr.2.keys.foldl (fun m2 k => dinsert m2 k pr.1) m) m0,
        p.2 < arena.length := by
    intro l
    induction l with
    | nil => intro m0 _ hm0 p hp; exact hm0 p hp
    | cons x rest ih =>
      intro m0 hl hm0 p hp
      rw [List.foldl_cons] at hp
      refine ih _ (fun y hy => hl y (List.mem_cons_of_mem x hy)) ?_ p hp
      have hx : x.1 < arena.length := hl x (List.mem_cons_self x rest)
      have hkeys : ∀ (ks : List TaskKey) (m1 : List (TaskKey × Nat)),
          (∀ q ∈ m1, q.2 < arena.length) →
          ∀ q ∈ ks.foldl (fun m2 k => dinsert m2 k x.1) m1, q.2 < arena.length := by
        intro ks
        induction ks with
        | nil => intro m1 hm1 q hq; exact hm1 q hq
        | cons k ks2 ih2 =>
          intro m1 hm1 q hq
          rw [List.foldl_cons] at hq
          refine ih2 _ ?_ q hq
          intro q2 hq2
          rcases dinsert_mem q2 hq2 with h1 | h1
          · rw [h1]
            exact hx
          · exact hm1 q2 h1
      exact hkeys x.2.keys m0 hm0
  intro p hp
  refine hgen arena.enum [] ?_ (by intro q hq; cases hq) p hp
  intro x hx
  have hx2 : arena.get? x.1 = some x.2 := List.mem_enum_iff_get?.mp hx
  exact (List.get?_eq_some.mp hx2).1

theorem adjPush_inv {n j : Nat} {L : List (List Nat)} (i : Nat)
    (hlen : L.length = n) (hent : ∀ l ∈ L, ∀ x ∈ l, x < n) (hj : j < n) :
    (adjPush L i j).length = n ∧ ∀ l ∈ adjPush L i j, ∀ x ∈ l, x < n := by
  constructor
  · rw [adjPush, List.length_set, hlen]
  · intro l hl x hx
    rcases List.mem_or_eq_of_mem_set hl with h1 | h1
    · exact hent l h1 x hx
    · subst h1
      rcases List.mem_append.mp hx with h2 | h2
      · rw [List.getD] at h2
        cases hidx : L.get? i with
        | none => rw [hidx] at h2; cases h2
        | some l2 =>
          rw [hidx] at h2
          exact hent l2 (List.get?_mem hidx) x h2
      · rw [List.mem_singleton.mp h2]
        exact hj

theorem wireFold_inv {km : List (TaskKey × Nat)} {n : Nat}
    (hkm : ∀ p ∈ km, p.2 < n) :
    ∀ (dks : List TaskKey) (pcs pcs2 : List (List Nat) × List (List Nat)) (i : Nat),
    i < n → AdjInv n pcs →
    dks.foldlM (fun pcs1 dk =>
      match dlookup km dk with
      | none => Except.error EvalErr.keyError
      | some j => Except.ok (adjPush pcs1.1 i j, adjPush pcs1.2 j i)) pcs = .ok pcs2 →
    AdjInv n pcs2 := by
  intro dks
  induction dks with
  | nil =>
    intro pcs pcs2 i hi hinv h
    cases h
    exact hinv
  | cons dk rest ih =>
    intro pcs pcs2 i hi hinv h
    rw [List.foldlM_cons] at h
    cases hdl : dlookup km dk with
    | none => rw [hdl] at h; cases h
    | some j =>
      rw [hdl] at h
      have hj : j < n := hkm (dk, j) (dlookup_mem hdl)
      have h1 := adjPush_inv i hinv.1 hinv.2.2.1 hj
      have h2 := adjPush_inv j hinv.2.1 hinv.2.2.2 hi
      exact ih _ pcs2 i hi ⟨h1.1, h2.1, h1.2, h2.2⟩ h

theorem wireTask_inv {km : List (TaskKey × Nat)} {n : Nat} {t : Task}
    {pcs pcs2 : List (List Nat) × List (List Nat)}
    (hkm : ∀ p ∈ km, p.2 < n) (hinv : AdjInv n pcs)
    (h : wireTask km pcs t = .ok pcs2) : AdjInv n pcs2 := by
  rw [wireTask] at h
  split at h
  · cases h
  next k0 hk0 =>
    split at h
    · cases h
    next i hi =>
      exact wireFold_inv hkm t.dep_keys pcs pcs2 i (hkm (k0, i) (dlookup_mem hi)) hinv h

theorem buildWiring_inv {km : List (TaskKey × Nat)} {n : Nat}
    (hkm : ∀ p ∈ km, p.2 < n) :
    ∀ (pairs : List Task) (pcs pcs2 : List (List Nat) × List (List Nat)),
    AdjInv n pcs →
    pairs.foldlM (wireTask km) pcs = .ok pcs2 → AdjInv n pcs2 := by
  intro pairs
  induction pairs with
  | nil =>
    intro pcs pcs2 hinv h
    cases h
    exact hinv
  | cons t rest ih =>
    intro pcs pcs2 hinv h
    rw [List.foldlM_cons] at h
    cases hw : wireTask km pcs t with
    | error e => rw [hw] at h; cases h
    | ok pcs1 =>
      rw [hw] at h
      exact ih pcs1 pcs2 (wireTask_inv hkm hinv hw) h

/-- Graphs produced by `buildGraph` keep every stored state index below
the arena size. -/
theorem buildGraph_inrange {fs : FlowState} {fuel : Nat} {g : Graph}
    (h : buildGraph fs fuel = .ok g) : GraphInRange g (nstates g) := by
  rw [buildGraph] at h
  split at h
  · cases h
  · cases h
  next acc hpop =>
    dsimp only at h
    split at h
    · cases h
    next pcs hwire =>
      cases h
      have hkm := keyMapOf_range (arenaOf acc)
      have hreplen : (List.replicate (arenaOf acc).length ([] : List Nat)).length =
          (arenaOf acc).length := List.length_replicate _ _
      have hrepent : ∀ l ∈ List.replicate (arenaOf acc).length ([] : List Nat),
          ∀ x ∈ l, x < (arenaOf acc).length := by
        intro l hl x hx
        rw [List.eq_of_mem_replicate hl] at hx
        cases hx
      have hinv := buildWiring_inv hkm (arenaOf acc) _ pcs
        ⟨hreplen, hreplen, hrepent, hrepent⟩ hwire
      exact ⟨hkm, hinv.2.2.1, hinv.2.2.2⟩

/-- Every requested state index is in range. -/
theorem requestedIdx_range {g : Graph} {n : Nat}
    (hkm : ∀ p ∈ g.keyToState, p.2 < n) :
    ∀ (tasks : List Task) (req : List Nat), requestedIdx g tasks = some req →
    ∀ j ∈ req, j < n := by
  intro tasks
  induction tasks with
  | nil =>
    intro req h j hj
    cases h
    cases hj
  | cons t rest ih =>
    intro req h j hj
    rw [requestedIdx] at h
    cases hk : t.keys.head? with
    | none =>
      simp only [hk, Option.bind_eq_bind, Option.none_bind] at h
      cases h
    | some k =>
      cases hdl : dlookup g.keyToState k with
      | none =>
        simp only [hk, hdl, Option.bind_eq_bind, Option.some_bind,
          Option.none_bind] at h
        cases h
      | some i =>
        cases hrest : requestedIdx g rest with
        | none =>
          simp only [hk, hdl, hrest, Option.bind_eq_bind, Option.some_bind,
            Option.none_bind] at h
          cases h
        | some req2 =>
          simp only [hk, hdl, hrest, Option.bind_eq_bind, Option.some_bind,
            Option.pure_def, Option.some.injEq] at h
          subst h
          rcases List.mem_cons.mp hj with h1 | h1
          · rw [h1]
            exact hkm (k, i) (dlookup_mem hdl)
          · exact ih req2 hrest j h1

theorem resolverOk_update {r : Resolver} {g : Graph} (hg : r.graph = some g)
    (hgr : GraphInRange g (nstates g)) (res2 : ResultsTable) (c2 : Option CacheState)
    (hlen2 : res2.length = nstates g) :
    ResolverOk { r with results := res2, cache := c2 } := by
  have h2 : ({ r with results := res2, cache := c2 } : Resolver).graph = some g := hg
  unfold ResolverOk
  rw [h2]
  exact ⟨hgr, hlen2⟩

theorem resolverOk_some {r : Resolver} {g : Graph} (hg : r.graph = some g)
    (hok : ResolverOk r) :
    GraphInRange g (nstates g) ∧ r.results.length = nstates g := by
  unfold ResolverOk at hok
  rw [hg] at hok
  exact hok

/-- Lift of the work-list count invariant through
`computeResultGroup`: a group computation started from a resolver whose
past trace respects at-most-once compute preserves that property, and on
success the result table still tracks the computes. -/
theorem computeResultGroup_count {r : Resolver} {name : EntityName} {fuel : Nat}
    (pre : List Event) (hok : ResolverOk r)
    (htr : tracksComputed pre r.results) (honce : computedOnce pre) :
    (∀ rg r2 tr, computeResultGroup r name fuel = .ok rg r2 tr →
      tracksComputed (pre ++ tr) r2.results ∧ computedOnce (pre ++ tr) ∧
      ResolverOk r2 ∧ r2.graph = r.graph ∧ r2.flow = r.flow ∧
      r2.bootstrap_ready = r.bootstrap_ready ∧ r2.full_ready = r.full_ready) ∧
    (∀ e r2 tr, computeResultGroup r name fuel = .err e r2 tr →
      computedOnce (pre ++ tr)) := by
  cases hgr : r.graph with
  | none =>
    refine ⟨fun rg r2 tr h => ?_, fun e r2 tr h => ?_⟩
    · unfold computeResultGroup at h
      simp only [hgr] at h
      cases h
    · unfold computeResultGroup at h
      simp only [hgr] at h
      cases h
      rw [List.append_nil]
      exact honce
  | some g =>
    cases hdl : dlookup g.task_lists name with
    | none =>
      refine ⟨fun rg r2 tr h => ?_, fun e r2 tr h => ?_⟩
      · unfold computeResultGroup at h
        simp only [hgr, hdl] at h
        cases h
      · unfold computeResultGroup at h
        simp only [hgr, hdl] at h
        cases h
        rw [List.append_nil]
        exact honce
    | some tasks =>
      cases hreq : requestedIdx g tasks with
      | none =>
        refine ⟨fun rg r2 tr h => ?_, fun e r2 tr h => ?_⟩
        · unfold computeResultGroup at h
          simp only [hgr, hdl, hreq] at h
          cases h
        · unfold computeResultGroup at h
          simp only [hgr, hdl, hreq] at h
          cases h
          rw [List.append_nil]
          exact honce
      | some req =>
        have hgin : GraphInRange g (nstates g) := (resolverOk_some hgr hok).1
        have hlen : r.results.length = nstates g := (resolverOk_some hgr hok).2
        have hready : ∀ j ∈ req.reverse, j < nstates g := by
          intro j hj
          exact requestedIdx_range hgin.1 tasks req hreq j (List.mem_reverse.mp hj)
        have hmaster := worklist_count_invariant r.flow r.full_ready g hgin fuel
          ⟨req.reverse, [], [], r.results, r.cache, []⟩ pre hlen hready
          (by simpa using htr) (by simpa using honce)
        cases hw : worklist r.flow r.full_ready g fuel
            ⟨req.reverse, [], [], r.results, r.cache, []⟩ with
        | timeout =>
          refine ⟨fun rg r2 tr h => ?_, fun e r2 tr h => ?_⟩ <;>
          · unfold computeResultGroup at h
            simp only [hgr, hdl, hreq, hw] at h
            cases h
        | err e0 ls =>
          have hmc := hmaster.2 e0 ls hw
          refine ⟨fun rg r2 tr h => ?_, fun e r2 tr h => ?_⟩
          · unfold computeResultGroup at h
            simp only [hgr, hdl, hreq, hw] at h
            cases h
          · unfold computeResultGroup at h
            simp only [hgr, hdl, hreq, hw] at h
            cases h
            exact hmc.1
        | ok ls =>
          have hmc := hmaster.1 ls hw
          have hok2 : ResolverOk { r with results := ls.results, cache := ls.cache } :=
            resolverOk_update hgr hgin ls.results ls.cache hmc.2.2
          refine ⟨fun rg r2 tr h => ?_, fun e r2 tr h => ?_⟩
          · unfold computeResultGroup at h
            simp only [hgr, hdl, hreq, hw] at h
            split at h
            · split at h
              · cases hcr : collectResults ls.results name req with
                | none =>
                  simp only [hcr] at h
                  cases h
                | some results =>
                  simp only [hcr] at h
                  cases hks : dlookup g.key_spaces name with
                  | none =>
                    simp only [hks] at h
                    cases h
                  | some ks =>
                    simp only [hks] at h
                    cases h
                    rw [hgr] at hok2
                    exact ⟨hmc.1, hmc.2.1, hok2, rfl, rfl, rfl, rfl⟩
              · cases h
            · cases h
          · unfold computeResultGroup at h
            simp only [hgr, hdl, hreq, hw] at h
            split at h
            · split at h
              · cases hcr : collectResults ls.results name req with
                | none =>
                  simp only [hcr] at h
                  cases h
                  exact hmc.2.1
                | some results =>
                  simp only [hcr] at h
                  cases hks : dlookup g.key_spaces name with
                  | none =>
                    simp only [hks] at h
                    cases h
                    exact hmc.2.1
                  | some ks =>
                    simp only [hks] at h
                    cases h
              · cases h
                exact hmc.2.1
            · cases h
              exact hmc.2.1

theorem isCompleteAt_replicate_none (n i : Nat) :
    isCompleteAt (List.replicate n (none : Option ResultsMap)) i = false := by
  unfold isCompleteAt
  by_cases hi : i < n
  · rw [List.getD_eq_getElem?_getD, List.getElem?_replicate, if_pos hi]
    rfl
  · rw [List.getD_eq_getElem?_getD, List.getElem?_replicate, if_neg hi]
    rfl

/-- Bootstrap readiness emits no events; it either leaves the resolver
unchanged or installs a fresh all-incomplete result table for the newly
built graph. -/
theorem getReadyBootstrap_count {r : Resolver} {fuel : Nat} (hok : ResolverOk r) :
    (∀ u r1 tr, getReadyBootstrap r fuel = .ok u r1 tr →
      tr = [] ∧ ResolverOk r1 ∧ r1.flow = r.flow ∧ r1.full_ready = r.full_ready ∧
      r1.cache = r.cache ∧
      (r1 = r ∨ ∀ i, isCompleteAt r1.results i = false)) ∧
    (∀ e r1 tr, getReadyBootstrap r fuel = .err e r1 tr → r1 = r ∧ tr = []) := by
  refine ⟨fun u r1 tr h => ?_, fun e r1 tr h => ?_⟩
  · rw [getReadyBootstrap] at h
    split at h
    · cases h
      exact ⟨rfl, hok, rfl, rfl, rfl, Or.inl rfl⟩
    · split at h
      · cases h
      · cases h
      next g hg =>
        cases h
        refine ⟨rfl, ?_, rfl, rfl, rfl, Or.inr fun i => isCompleteAt_replicate_none _ i⟩
        unfold ResolverOk
        exact ⟨buildGraph_inrange hg, List.length_replicate _ _⟩
  · rw [getReadyBootstrap] at h
    split at h
    · cases h
    · split at h
      · cases h
      next e2 hg =>
        cases h
        exact ⟨rfl, rfl⟩
      · cases h

/-- Lift of the count invariant through `get_ready`: the bootstrap
resolution of `core__persistent_cache` keeps every compute count at most
one, and on success the resolver is full-ready with a tracking result
table. -/
theorem getReadyFull_count {r : Resolver} {fuel : Nat}
    (pre : List Event) (hok : ResolverOk r)
    (htr : tracksComputed pre r.results) (honce : computedOnce pre)
    (hfresh : r.full_ready = false → pre = []) :
    (∀ u r1 tr, getReadyFull r fuel = .ok u r1 tr →
      tracksComputed (pre ++ tr) r1.results ∧ computedOnce (pre ++ tr) ∧
      ResolverOk r1 ∧ r1.flow = r.flow ∧ r1.full_ready = true) ∧
    (∀ e r1 tr, getReadyFull r fuel = .err e r1 tr → computedOnce (pre ++ tr)) := by
  by_cases hfr : r.full_ready = true
  · refine ⟨fun u r1 tr h => ?_, fun e r1 tr h => ?_⟩
    · rw [getReadyFull, if_pos hfr] at h
      cases h
      rw [List.append_nil]
      exact ⟨htr, honce, hok, rfl, hfr⟩
    · rw [getReadyFull, if_pos hfr] at h
      cases h
  · have hpre : pre = [] := hfresh (Bool.not_eq_true _ ▸ hfr)
    subst hpre
    cases hboot : getReadyBootstrap r fuel with
    | timeout =>
      refine ⟨fun u r1 tr h => ?_, fun e r1 tr h => ?_⟩ <;>
      · rw [getReadyFull, if_neg hfr] at h
        simp only [hboot] at h
        cases h
    | err e0 rb trb =>
      obtain ⟨hrb, htrb⟩ := (getReadyBootstrap_count hok).2 e0 rb trb hboot
      subst htrb
      refine ⟨fun u r1 tr h => ?_, fun e r1 tr h => ?_⟩
      · rw [getReadyFull, if_neg hfr] at h
        simp only [hboot] at h
        cases h
      · rw [getReadyFull, if_neg hfr] at h
        simp only [hboot] at h
        cases h
        intro i
        simp [countComputedIdx]
    | ok u0 rb trb =>
      obtain ⟨htrb, hokb, hflowb, hfrb, hcb, -⟩ :=
        (getReadyBootstrap_count hok).1 u0 rb trb hboot
      subst htrb
      have htrb2 : tracksComputed [] rb.results := by
        intro i hi
        simp [countComputedIdx] at hi
      have honce2 : computedOnce [] := by
        intro i
        simp [countComputedIdx]
      have hcrg := @computeResultGroup_count rb "core__persistent_cache" fuel
        [] hokb htrb2 honce2
      cases hcrg2 : computeResultGroup rb "core__persistent_cache" fuel with
      | timeout =>
        refine ⟨fun u r1 tr h => ?_, fun e r1 tr h => ?_⟩ <;>
        · rw [getReadyFull, if_neg hfr] at h
          simp only [hboot, hcrg2] at h
          cases h
      | err e0 rc trc =>
        have hcc := hcrg.2 e0 rc trc hcrg2
        refine ⟨fun u r1 tr h => ?_, fun e r1 tr h => ?_⟩
        · rw [getReadyFull, if_neg hfr] at h
          simp only [hboot, hcrg2] at h
          cases h
        · rw [getReadyFull, if_neg hfr] at h
          simp only [hboot, hcrg2] at h
          cases h
          simpa using hcc
      | ok rg rc trc =>
        obtain ⟨htrc, honcec, hokc, hgc, hflowc, hbc, hfc⟩ := hcrg.1 rg rc trc hcrg2
        refine ⟨fun u r1 tr h => ?_, fun e r1 tr h => ?_⟩
        · rw [getReadyFull, if_neg hfr] at h
          simp only [hboot, hcrg2] at h
          split at h
          · cases h
          · split at h
            · cases h
            · split at h
              · cases h
              next r0 hr0 =>
                cases h
                refine ⟨by simpa using htrc, by simpa using honcec, ?_, by rw [hflowc, hflowb], rfl⟩
                cases hgc2 : rc.graph with
                | none =>
                  unfold ResolverOk
                  dsimp only
                | some g2 =>
                  obtain ⟨h1, h2⟩ := resolverOk_some hgc2 hokc
                  unfold ResolverOk
                  exact ⟨h1, h2⟩
        · rw [getReadyFull, if_neg hfr] at h
          simp only [hboot, hcrg2] at h
          split at h
          · cases h
            simpa using honcec
          · split at h
            · cases h
              simpa using honcec
            · split at h
              · cases h
                simpa using honcec
              next r0 hr0 => cases h

/-- Lift of the count invariant through one `resolve` call. -/
theorem resolve_count {r : Resolver} {name : EntityName} {fuel : Nat}
    (pre : List Event) (hok : ResolverOk r)
    (htr : tracksComputed pre r.results) (honce : computedOnce pre)
    (hfresh : r.full_ready = false → pre = []) :
    (∀ rg r2 tr, resolve r name fuel = .ok rg r2 tr →
      tracksComputed (pre ++ tr) r2.results ∧ computedOnce (pre ++ tr) ∧
      ResolverOk r2 ∧ r2.full_ready = true) ∧
    (∀ e r2 tr, resolve r name fuel = .err e r2 tr → computedOnce (pre ++ tr)) := by
  have hfull := @getReadyFull_count r fuel pre hok htr honce hfresh
  cases hf : getReadyFull r fuel with
  | timeout =>
    refine ⟨fun rg r2 tr h => ?_, fun e r2 tr h => ?_⟩ <;>
    · rw [resolve] at h
      simp only [hf] at h
      cases h
  | err e0 r1 tr1 =>
    have hcc := hfull.2 e0 r1 tr1 hf
    refine ⟨fun rg r2 tr h => ?_, fun e r2 tr h => ?_⟩
    · rw [resolve] at h
      simp only [hf] at h
      cases h
    · rw [resolve] at h
      simp only [hf] at h
      cases h
      exact hcc
  | ok u r1 tr1 =>
    obtain ⟨htr1, honce1, hok1, hflow1, hfr1⟩ := hfull.1 u r1 tr1 hf
    have hcrg := @computeResultGroup_count r1 name fuel
      (pre ++ tr1) hok1 htr1 honce1
    cases hc : computeResultGroup r1 name fuel with
    | timeout =>
      refine ⟨fun rg r2 tr h => ?_, fun e r2 tr h => ?_⟩ <;>
      · rw [resolve] at h
        simp only [hf, hc] at h
        cases h
    | err e0 r2b tr2 =>
      have hcc := hcrg.2 e0 r2b tr2 hc
      refine ⟨fun rg r2 tr h => ?_, fun e r2 tr h => ?_⟩
      · rw [resolve] at h
        simp only [hf, hc] at h
        cases h
      · rw [resolve] at h
        simp only [hf, hc] at h
        cases h
        rw [← List.append_assoc]
        exact hcc
    | ok rg0 r2b tr2 =>
      obtain ⟨htr2, honce2, hok2, hg2, hflow2, hb2, hf2⟩ := hcrg.1 rg0 r2b tr2 hc
      refine ⟨fun rg r2 tr h => ?_, fun e r2 tr h => ?_⟩
      · rw [resolve] at h
        simp only [hf, hc] at h
        cases h
        rw [← List.append_assoc]
        exact ⟨htr2, honce2, hok2, hf2.trans hfr1⟩
      · rw [resolve] at h
        simp only [hf, hc] at h
        cases h

/-- Lift of the count invariant through a sequence of `resolve` calls
against the same resolver object. -/
theorem resolveSeq_count {fuel : Nat} :
    ∀ (names : List EntityName) (r : Resolver) (pre : List Event),
    ResolverOk r → tracksComputed pre r.results → computedOnce pre →
    (r.full_ready = false → pre = []) →
    (∀ rgs r2 tr, resolveSeq r fuel names = .ok rgs r2 tr →
      tracksComputed (pre ++ tr) r2.results ∧ computedOnce (pre ++ tr) ∧
      ResolverOk r2) ∧
    (∀ e r2 tr, resolveSeq r fuel names = .err e r2 tr →
      computedOnce (pre ++ tr)) := by
  intro names
  induction names with
  | nil =>
    intro r pre hok htr honce hfresh
    refine ⟨fun rgs r2 tr h => ?_, fun e r2 tr h => ?_⟩
    · rw [resolveSeq] at h
      cases h
      rw [List.append_nil]
      exact ⟨htr, honce, hok⟩
    · rw [resolveSeq] at h
      cases h
  | cons n ns ih =>
    intro r pre hok htr honce hfresh
    have hres := @resolve_count r n fuel pre hok htr honce hfresh
    cases hr : resolve r n fuel with
    | timeout =>
      refine ⟨fun rgs r2 tr h => ?_, fun e r2 tr h => ?_⟩ <;>
      · rw [resolveSeq] at h
        simp only [hr] at h
        cases h
    | err e0 r1 tr1 =>
      have hcc := hres.2 e0 r1 tr1 hr
      refine ⟨fun rgs r2 tr h => ?_, fun e r2 tr h => ?_⟩
      · rw [resolveSeq] at h
        simp only [hr] at h
        cases h
      · rw [resolveSeq] at h
        simp only [hr] at h
        cases h
        exact hcc
    | ok rg0 r1 tr1 =>
      obtain ⟨htr1, honce1, hok1, hfr1⟩ := hres.1 rg0 r1 tr1 hr
      have hih := ih r1 (pre ++ tr1) hok1 htr1 honce1
        (fun hx => absurd (hx.symm.trans hfr1) (by decide))
      cases hs : resolveSeq r1 fuel ns with
      | timeout =>
        refine ⟨fun rgs r2 tr h => ?_, fun e r2 tr h => ?_⟩ <;>
        · rw [resolveSeq] at h
          simp only [hr, hs] at h
          cases h
      | err e0 r2b tr2 =>
        have hcc := hih.2 e0 r2b tr2 hs
        refine ⟨fun rgs r2 tr h => ?_, fun e r2 tr h => ?_⟩
        · rw [resolveSeq] at h
          simp only [hr, hs] at h
          cases h
        · rw [resolveSeq] at h
          simp only [hr, hs] at h
          cases h
          rw [← List.append_assoc]
          exact hcc
      | ok rgs0 r2b tr2 =>
        obtain ⟨htr2, honce2, hok2⟩ := hih.1 rgs0 r2b tr2 hs
        refine ⟨fun rgs r2 tr h => ?_, fun e r2 tr h => ?_⟩
        · rw [resolveSeq] at h
          simp only [hr, hs] at h
          cases h
          rw [← List.append_assoc]
          exact ⟨htr2, honce2, hok2⟩
        · rw [resolveSeq] at h
          simp only [hr, hs] at h
          cases h

/-- C1 (amended): each TaskState's `compute` is invoked at most once per
`resolve` call — even a call that ends in an error — and at most once
across any sequence of `resolve` calls that all succeed.  The original
claim's "at most once per resolver lifetime, no matter how many resolve
calls are made" is refuted by `c1_counterexample`: a call that fails
after computing a state leaves that state incomplete, and a retry in the
same lifetime computes it again. -/
theorem c1_amended (r : Resolver) (fuel : Nat) (hok : ResolverOk r) :
    (∀ name rg r2 tr, resolve r name fuel = .ok rg r2 tr → computedOnce tr) ∧
    (∀ name e r2 tr, resolve r name fuel = .err e r2 tr → computedOnce tr) ∧
    (∀ names rgs r2 tr, resolveSeq r fuel names = .ok rgs r2 tr → computedOnce tr) := by
  have htr : tracksComputed [] r.results := by
    intro i hi
    simp [countComputedIdx] at hi
  have honce : computedOnce [] := by
    intro i
    simp [countComputedIdx]
  refine ⟨fun name rg r2 tr h => ?_, fun name e r2 tr h => ?_,
    fun names rgs r2 tr h => ?_⟩
  · have := ((@resolve_count r name fuel [] hok htr honce (fun _ => rfl)).1
      rg r2 tr h).2.1
    simpa using this
  · have := (@resolve_count r name fuel [] hok htr honce (fun _ => rfl)).2
      e r2 tr h
    simpa using this
  · have := ((resolveSeq_count names r [] hok htr honce (fun _ => rfl)).1
      rgs r2 tr h).2.1
    simpa using this

/-- Witness for the amended C1 at the concrete demo resolver. -/
theorem c1_amended_witness :
    ResolverOk demoR ∧
    (∀ name rg r2 tr, resolve demoR name 20 = .ok rg r2 tr → computedOnce tr) :=
  ⟨True.intro, (c1_amended demoR 20 True.intro).1⟩

/-- Counterexample to C1 as stated: over the lifetime of one resolver, a
`resolve("badx")` call fails with a protocol error after computing the
state of `badx` (index 4), and the retry on the same resolver computes
it again — two compute invocations of one TaskState in one lifetime. -/
theorem c1_counterexample :
    countComputedIdx c1cexTrace 4 = 2 ∧ ¬ computedOnce c1cexTrace := by
  refine ⟨rfl, fun h => ?_⟩
  have h4 := h 4
  rw [show countComputedIdx c1cexTrace 4 = 2 from rfl] at h4
  exact absurd h4 (by decide)

theorem isCompleteAt_set_ne {res : ResultsTable} {i p : Nat} {v : Option ResultsMap}
    (h : p ≠ i) : isCompleteAt (res.set i v) p = isCompleteAt res p := by
  unfold isCompleteAt
  rw [List.getD_eq_getElem?_getD, List.getD_eq_getElem?_getD,
    List.getElem?_set_ne (fun hx => h hx.symm)]

theorem liveb_lt {g : Graph} {i : Nat}
    (hkm : ∀ p ∈ g.keyToState, p.2 < nstates g) (h : liveb g i = true) :
    i < nstates g := by
  rw [liveb, List.contains_eq_any_beq, List.any_eq_true] at h
  obtain ⟨x, hx, hxe⟩ := h
  obtain ⟨p, hp, hpe⟩ := List.mem_map.mp hx
  have hxi : i = x := by simpa using hxe
  subst hxi
  subst hpe
  exact hkm p hp

theorem isBlockedAt_true_iff {g : Graph} {res : ResultsTable} {i : Nat} :
    isBlockedAt g res i = true ↔ ∃ p ∈ parentsAt g i, isCompleteAt res p = false := by
  rw [isBlockedAt, Bool.not_eq_true']
  constructor
  · intro h
    by_contra hx
    push_neg at hx
    have : (parentsAt g i).all (fun p => isCompleteAt res p) = true := by
      rw [List.all_eq_true]
      intro p hp
      cases hc : isCompleteAt res p with
      | true => rfl
      | false => exact absurd hc (hx p hp)
    rw [this] at h
    cases h
  · rintro ⟨p, hp, hpc⟩
    cases hall : (parentsAt g i).all (fun p => isCompleteAt res p) with
    | false => rfl
    | true =>
      rw [List.all_eq_true] at hall
      rw [hall p hp] at hpc
      cases hpc

theorem isBlockedAt_false_iff {g : Graph} {res : ResultsTable} {i : Nat} :
    isBlockedAt g res i = false ↔ ∀ p ∈ parentsAt g i, isCompleteAt res p = true := by
  rw [isBlockedAt, Bool.not_eq_false', List.all_eq_true]

theorem potReady_cons (g : Graph) (rank : Nat → Nat) (i : Nat) (l : List Nat) :
    potReady g rank (i :: l) = rbase g ^ rank i + potReady g rank l := by
  rw [potReady, List.map_cons, List.sum_cons, potReady]

theorem rbase_pos (g : Graph) : 0 < rbase g := Nat.succ_le_succ (Nat.zero_le _)

theorem pot_elem_pos (g : Graph) (rank : Nat → Nat) (i : Nat) :
    0 < rbase g ^ rank i := Nat.pos_pow_of_pos _ (rbase_pos g)

theorem foldl_max_len_le (L : List (List Nat)) :
    ∀ (a : Nat), a ≤ L.foldl (fun a l => max a l.length) a ∧
      ∀ l ∈ L, l.length ≤ L.foldl (fun a l => max a l.length) a := by
  induction L with
  | nil => intro a; exact ⟨Nat.le_refl a, by intro l hl; cases hl⟩
  | cons x L2 ih =>
    intro a
    obtain ⟨h1, h2⟩ := ih (max a x.length)
    refine ⟨Nat.le_trans (Nat.le_max_left _ _) h1, ?_⟩
    intro l hl
    rcases List.mem_cons.mp hl with h3 | h3
    · subst h3
      exact Nat.le_trans (Nat.le_max_right _ _) h1
    · exact h2 l h3

theorem parentsAt_len_le (g : Graph) (i : Nat) :
    (parentsAt g i).length ≤ maxParentsLen g := by
  rw [parentsAt, List.getD]
  cases hidx : g.parentsL.get? i with
  | none => exact Nat.zero_le _
  | some l =>
    exact (foldl_max_len_le g.parentsL 0).2 l (List.get?_mem hidx)

theorem foldl_max_rank_le (rank : Nat → Nat) (L : List Nat) :
    ∀ (a : Nat), a ≤ L.foldl (fun a i => max a (rank i)) a ∧
      ∀ i ∈ L, rank i ≤ L.foldl (fun a i => max a (rank i)) a := by
  induction L with
  | nil => intro a; exact ⟨Nat.le_refl a, by intro i hi; cases hi⟩
  | cons x L2 ih =>
    intro a
    obtain ⟨h1, h2⟩ := ih (max a (rank x))
    refine ⟨Nat.le_trans (Nat.le_max_left _ _) h1, ?_⟩
    intro i hi
    rcases List.mem_cons.mp hi with h3 | h3
    · subst h3
      exact Nat.le_trans (Nat.le_max_right _ _) h1
    · exact h2 i h3

theorem rank_le_maxRank (g : Graph) (rank : Nat → Nat) {i : Nat} (hi : i < nstates g) :
    rank i ≤ maxRank g rank := by
  rw [maxRank]
  exact (foldl_max_rank_le rank (List.range (nstates g)) 0).2 i (List.mem_range.mpr hi)

theorem pushIncomplete_mem_of_rest (res : ResultsTable) :
    ∀ (l rest : List Nat) (x : Nat), x ∈ rest →
    x ∈ l.foldl (fun acc p => if isCompleteAt res p then acc else p :: acc) rest := by
  intro l
  induction l with
  | nil =>
    intro rest x hx
    exact hx
  | cons p l2 ih =>
    intro rest x hx
    rw [List.foldl_cons]
    by_cases hp : isCompleteAt res p = true
    · rw [if_pos hp]
      exact ih rest x hx
    · rw [if_neg hp]
      exact ih (p :: rest) x (List.mem_cons_of_mem p hx)

theorem pushIncomplete_mem_of_incomplete (res : ResultsTable) :
    ∀ (l rest : List Nat) (x : Nat), x ∈ l → isCompleteAt res x = false →
    x ∈ l.foldl (fun acc p => if isCompleteAt res p then acc else p :: acc) rest := by
  intro l
  induction l with
  | nil =>
    intro rest x hx
    cases hx
  | cons p l2 ih =>
    intro rest x hx hxc
    rw [List.foldl_cons]
    rcases List.mem_cons.mp hx with h1 | h1
    · subst h1
      rw [hxc, if_neg (by simp)]
      exact pushIncomplete_mem_of_rest res l2 (x :: rest) x (List.mem_cons_self x rest)
    · by_cases hp : isCompleteAt res p = true
      · rw [if_pos hp]
        exact ih rest x h1 hxc
      · rw [if_neg hp]
        exact ih (p :: rest) x h1 hxc

theorem pushIncomplete_pot (g : Graph) (rank : Nat → Nat) (res : ResultsTable) (B : Nat) :
    ∀ (l rest : List Nat), (∀ p ∈ l, rbase g ^ rank p ≤ B) →
    potReady g rank (l.foldl (fun acc p => if isCompleteAt res p then acc else p :: acc) rest) ≤
      potReady g rank rest + l.length * B := by
  intro l
  induction l with
  | nil =>
    intro rest hb
    simp
  | cons p l2 ih =>
    intro rest hb
    rw [List.foldl_cons]
    by_cases hp : isCompleteAt res p = true
    · rw [if_pos hp]
      calc potReady g rank (l2.foldl _ rest) ≤ potReady g rank rest + l2.length * B :=
            ih rest (fun q hq => hb q (List.mem_cons_of_mem p hq))
        _ ≤ potReady g rank rest + (p :: l2).length * B := by
            rw [List.length_cons]
            exact Nat.add_le_add_left (Nat.mul_le_mul_right B (Nat.le_succ _)) _
    · rw [if_neg hp]
      calc potReady g rank (l2.foldl _ (p :: rest)) ≤
            potReady g rank (p :: rest) + l2.length * B :=
            ih (p :: rest) (fun q hq => hb q (List.mem_cons_of_mem p hq))
        _ = rbase g ^ rank p + potReady g rank rest + l2.length * B := by
            rw [potReady_cons]
        _ ≤ B + potReady g rank rest + l2.length * B :=
            Nat.add_le_add_right (Nat.add_le_add_right (hb p (List.mem_cons_self p l2)) _) _
        _ = potReady g rank rest + (l2.length * B + B) := by ring
        _ = potReady g rank rest + (p :: l2).length * B := by
            rw [List.length_cons, Nat.succ_mul]

theorem promote_ready_sub (g : Graph) (res : ResultsTable) :
    ∀ (cs ready : List Nat) (bl : List (List TaskKey)) (x : Nat),
    x ∈ ready → x ∈ (promote g res cs ready bl).1 := by
  intro cs
  induction cs with
  | nil =>
    intro ready bl x hx
    exact hx
  | cons c cs2 ih =>
    intro ready bl x hx
    rw [promote]
    split
    · exact ih (c :: ready) _ x (List.mem_cons_of_mem c hx)
    · exact ih ready bl x hx

theorem promote_blocked_sub (g : Graph) (res : ResultsTable) :
    ∀ (cs ready : List Nat) (bl : List (List TaskKey)) (t : List TaskKey),
    t ∈ (promote g res cs ready bl).2 → t ∈ bl := by
  intro cs
  induction cs with
  | nil =>
    intro ready bl t ht
    exact ht
  | cons c cs2 ih =>
    intro ready bl t ht
    rw [promote] at ht
    split at ht
    · exact List.erase_subset _ _ (ih (c :: ready) _ t ht)
    · exact ih ready bl t ht

theorem promote_blocked_nodup (g : Graph) (res : ResultsTable) :
    ∀ (cs ready : List Nat) (bl : List (List TaskKey)),
    bl.Nodup → (promote g res cs ready bl).2.Nodup := by
  intro cs
  induction cs with
  | nil =>
    intro ready bl hn
    exact hn
  | cons c cs2 ih =>
    intro ready bl hn
    rw [promote]
    split
    · exact ih (c :: ready) _ (hn.erase _)
    · exact ih ready bl hn

theorem promote_stays (g : Graph) (res : ResultsTable) :
    ∀ (cs ready : List Nat) (bl : List (List TaskKey)) (t : List TaskKey),
    bl.Nodup → t ∈ (promote g res cs ready bl).2 →
    t ∈ bl ∧ ∀ c ∈ cs, keysOf g c = t → isBlockedAt g res c = true := by
  intro cs
  induction cs with
  | nil =>
    intro ready bl t hn ht
    exact ⟨ht, by intro c hc; cases hc⟩
  | cons c cs2 ih =>
    intro ready bl t hn ht
    rw [promote] at ht
    split at ht
    next hguard =>
      obtain ⟨h1, h2⟩ := ih (c :: ready) _ t (hn.erase _) ht
      have hne : t ≠ keysOf g c := ((List.Nodup.mem_erase_iff hn).mp h1).1
      refine ⟨((List.Nodup.mem_erase_iff hn).mp h1).2, ?_⟩
      · intro c2 hc2 hk
        rcases List.mem_cons.mp hc2 with h3 | h3
        · subst h3
          exact absurd hk.symm hne
        · exact h2 c2 h3 hk
    next hguard =>
      obtain ⟨h1, h2⟩ := ih ready bl t hn ht
      refine ⟨h1, ?_⟩
      intro c2 hc2 hk
      rcases List.mem_cons.mp hc2 with h3 | h3
      · subst h3
        rw [Classical.not_and_iff_or_not_not] at hguard
        rcases hguard with h4 | h4
        · exact absurd (hk ▸ h1) h4
        · cases hb : isBlockedAt g res c2 with
          | true => rfl
          | false => exact absurd hb h4
      · exact h2 c2 h3 hk

theorem promote_erased (g : Graph) (res : ResultsTable) :
    ∀ (cs ready : List Nat) (bl : List (List TaskKey)) (t : List TaskKey),
    t ∈ bl →
    t ∈ (promote g res cs ready bl).2 ∨
      ∃ c, c ∈ (promote g res cs ready bl).1 ∧ keysOf g c = t ∧ c ∈ cs := by
  intro cs
  induction cs with
  | nil =>
    intro ready bl t ht
    exact Or.inl ht
  | cons c cs2 ih =>
    intro ready bl t ht
    rw [promote]
    split
    next hguard =>
      by_cases hte : t = keysOf g c
      · refine Or.inr ⟨c, ?_, hte.symm, List.mem_cons_self c cs2⟩
        exact promote_ready_sub g res cs2 (c :: ready) _ c (List.mem_cons_self c ready)
      · rcases ih (c :: ready) (bl.erase (keysOf g c)) t
          ((List.mem_erase_of_ne hte).mpr ht) with h1 | ⟨c2, h2, h3, h4⟩
        · exact Or.inl h1
        · exact Or.inr ⟨c2, h2, h3, List.mem_cons_of_mem c h4⟩
    next hguard =>
      rcases ih ready bl t ht with h1 | ⟨c2, h2, h3, h4⟩
      · exact Or.inl h1
      · exact Or.inr ⟨c2, h2, h3, List.mem_cons_of_mem c h4⟩

theorem promote_pot (g : Graph) (rank : Nat → Nat) (res : ResultsTable) (B : Nat) :
    ∀ (cs ready : List Nat) (bl : List (List TaskKey)),
    (∀ c ∈ cs, rbase g ^ rank c ≤ B) →
    potReady g rank (promote g res cs ready bl).1 +
      B * (promote g res cs ready bl).2.length ≤
    potReady g rank ready + B * bl.length := by
  intro cs
  induction cs with
  | nil =>
    intro ready bl hb
    exact Nat.le_refl _
  | cons c cs2 ih =>
    intro ready bl hb
    rw [promote]
    split
    next hguard =>
      have hlen : (bl.erase (keysOf g c)).length + 1 = bl.length := by
        have hpos : 0 < bl.length := List.length_pos_of_mem hguard.1
        rw [List.length_erase, if_pos hguard.1]
        omega
      calc potReady g rank (promote g res cs2 (c :: ready) (bl.erase (keysOf g c))).1 +
            B * (promote g res cs2 (c :: ready) (bl.erase (keysOf g c))).2.length ≤
            potReady g rank (c :: ready) + B * (bl.erase (keysOf g c)).length :=
            ih (c :: ready) _ (fun q hq => hb q (List.mem_cons_of_mem c hq))
        _ = rbase g ^ rank c + potReady g rank ready + B * (bl.erase (keysOf g c)).length := by
            rw [potReady_cons]
        _ ≤ B + potReady g rank ready + B * (bl.erase (keysOf g c)).length :=
            Nat.add_le_add_right
              (Nat.add_le_add_right (hb c (List.mem_cons_self c cs2)) _) _
        _ = potReady g rank ready + B * ((bl.erase (keysOf g c)).length + 1) := by ring
        _ = potReady g rank ready + B * bl.length := by rw [hlen]
    next hguard =>
      exact ih ready bl (fun q hq => hb q (List.mem_cons_of_mem c hq))

theorem noneCount_set {res : ResultsTable} {i : Nat} (m : ResultsMap)
    (hi : i < res.length) (hc : isCompleteAt res i = false) :
    noneCount (res.set i (some m)) + 1 = noneCount res := by
  induction res generalizing i with
  | nil => cases hi
  | cons o rest ih =>
    cases i with
    | zero =>
      have ho : o = none := by
        unfold isCompleteAt at hc
        cases o with
        | none => rfl
        | some v => simp [List.getD] at hc
      subst ho
      simp [noneCount, List.filter_cons, List.set]
    | succ i2 =>
      have hc2 : isCompleteAt rest i2 = false := by
        unfold isCompleteAt at hc ⊢
        simpa [List.getD] using hc
      have := ih (Nat.lt_of_succ_lt_succ hi) hc2
      cases o with
      | none => simpa [noneCount, List.filter_cons, List.set] using this
      | some v => simpa [noneCount, List.filter_cons, List.set] using this

theorem blocked_len_le (g : Graph) (n : Nat) (bl : List (List TaskKey))
    (hmem : ∀ t ∈ bl, ∃ i ∈ List.range n, keysOf g i = t) (hn : bl.Nodup) :
    bl.length ≤ n := by
  have h1 : bl.toFinset.card = bl.length := List.toFinset_card_of_nodup hn
  have h2 : bl.toFinset ⊆ ((List.range n).map (keysOf g)).toFinset := by
    intro t ht
    rw [List.mem_toFinset] at ht
    obtain ⟨i, hi, hk⟩ := hmem t ht
    rw [List.mem_toFinset]
    exact List.mem_map.mpr ⟨i, hi, hk⟩
  calc bl.length = bl.toFinset.card := h1.symm
    _ ≤ ((List.range n).map (keysOf g)).toFinset.card := Finset.card_le_card h2
    _ ≤ ((List.range n).map (keysOf g)).length := List.toFinset_card_le _
    _ = n := by rw [List.length_map, List.length_range]

/-- Popping a complete state preserves the loop invariant and strictly
decreases the measure. -/
theorem loopInv_step_complete {g : Graph} {R : List Nat} {i : Nat} {rest : List Nat}
    {bl : List (List TaskKey)} {lg : List TaskKey} {res : ResultsTable}
    {c : Option CacheState} {tr : List Event} (rank : Nat → Nat)
    (lg2 : List TaskKey) (tr2 : List Event)
    (hinv : LoopInv g R ⟨i :: rest, bl, lg, res, c, tr⟩)
    (hc : isCompleteAt res i = true) :
    LoopInv g R ⟨rest, bl, lg2, res, c, tr2⟩ ∧
    lsMeasure g rank ⟨rest, bl, lg2, res, c, tr2⟩ <
      lsMeasure g rank ⟨i :: rest, bl, lg, res, c, tr⟩ := by
  obtain ⟨h1, h2, h3, h4, h5, h6, h7⟩ := hinv
  dsimp only at h1 h2 h3 h4 h5 h6 h7
  constructor
  · refine ⟨h1, ?_, h3, h4, h5, ?_, ?_⟩
    · intro x hx
      exact h2 x (List.mem_cons_of_mem i hx)
    · intro j hj hjl hjb p hp hpc
      rcases h6 j hj hjl hjb p hp hpc with h8 | h8
      · rcases List.mem_cons.mp h8 with h9 | h9
        · subst h9
          rw [hc] at hpc
          cases hpc
        · exact Or.inl h9
      · exact Or.inr h8
    · intro j hj
      rcases h7 j hj with h8 | h8 | h8
      · exact Or.inl h8
      · rcases List.mem_cons.mp h8 with h9 | h9
        · subst h9
          exact Or.inl hc
        · exact Or.inr (Or.inl h9)
      · exact Or.inr (Or.inr h8)
  · unfold lsMeasure
    dsimp only
    rw [potReady_cons]
    have := pot_elem_pos g rank i
    omega

/-- Blocking a state preserves the loop invariant and strictly decreases
the measure: the state is swapped for strictly lower-ranked parents. -/
theorem loopInv_step_blocked {g : Graph} {R : List Nat} {i : Nat} {rest : List Nat}
    {bl : List (List TaskKey)} {lg : List TaskKey} {res : ResultsTable}
    {c : Option CacheState} {tr : List Event} (rank : Nat → Nat)
    (hwf : WFGraph g) (hrk : RankOk g rank)
    (hinv : LoopInv g R ⟨i :: rest, bl, lg, res, c, tr⟩)
    (hc : isCompleteAt res i = false) (hbl : isBlockedAt g res i = true) :
    LoopInv g R
      ⟨(parentsAt g i).foldl (fun acc p => if isCompleteAt res p then acc else p :: acc) rest,
       bl.insert (keysOf g i), lg, res, c, tr⟩ ∧
    lsMeasure g rank
      ⟨(parentsAt g i).foldl (fun acc p => if isCompleteAt res p then acc else p :: acc) rest,
       bl.insert (keysOf g i), lg, res, c, tr⟩ <
      lsMeasure g rank ⟨i :: rest, bl, lg, res, c, tr⟩ := by
  obtain ⟨h1, h2, h3, h4, h5, h6, h7⟩ := hinv
  dsimp only at h1 h2 h3 h4 h5 h6 h7
  have hlive : liveb g i = true := h2 i (List.mem_cons_self i rest)
  have hilt : i < nstates g := liveb_lt hwf.2.2.1 hlive
  have hirange : i ∈ List.range (nstates g) := List.mem_range.mpr hilt
  obtain ⟨p0, hp0, hp0c⟩ := isBlockedAt_true_iff.mp hbl
  have hrank1 : 1 ≤ rank i := by
    have := hrk i hirange p0 hp0
    omega
  constructor
  · refine ⟨h1, ?_, ?_, ?_, ?_, ?_, ?_⟩
    · intro x hx
      rcases pushIncomplete_mem res (parentsAt g i) rest x hx with h8 | h8
      · exact ((hwf.2.2.2.2.1 i hirange x h8).1)
      · exact h2 x (List.mem_cons_of_mem i h8)
    · intro t ht
      rcases List.mem_insert_iff.mp ht with h8 | h8
      · exact ⟨i, hirange, hlive, h8.symm⟩
      · exact h3 t h8
    · by_cases hmem : keysOf g i ∈ bl
      · rw [List.insert_of_mem hmem]
        exact h4
      · rw [List.insert_of_not_mem hmem]
        exact List.nodup_cons.mpr ⟨hmem, h4⟩
    · intro j hj hjl hjb
      rcases List.mem_insert_iff.mp hjb with h8 | h8
      · have hji : j = i :=
          hwf.2.2.2.1 j hj i hirange hjl hlive h8
        subst hji
        exact ⟨p0, hp0, hp0c⟩
      · exact h5 j hj hjl h8
    · intro j hj hjl hjb p hp hpc
      rcases List.mem_insert_iff.mp hjb with h8 | h8
      · have hji : j = i :=
          hwf.2.2.2.1 j hj i hirange hjl hlive h8
        subst hji
        exact Or.inl (pushIncomplete_mem_of_incomplete res _ rest p hp hpc)
      · rcases h6 j hj hjl h8 p hp hpc with h9 | h9
        · rcases List.mem_cons.mp h9 with h10 | h10
          · subst h10
            exact Or.inr (List.mem_insert_self _ _)
          · exact Or.inl (pushIncomplete_mem_of_rest res _ rest p h10)
        · exact Or.inr (List.mem_insert_of_mem h9)
    · intro j hj
      rcases h7 j hj with h8 | h8 | h8
      · exact Or.inl h8
      · rcases List.mem_cons.mp h8 with h9 | h9
        · subst h9
          exact Or.inr (Or.inr (List.mem_insert_self _ _))
        · exact Or.inr (Or.inl (pushIncomplete_mem_of_rest res _ rest j h9))
      · exact Or.inr (Or.inr (List.mem_insert_of_mem h8))
  · unfold lsMeasure
    dsimp only
    rw [potReady_cons]
    have hpush := pushIncomplete_pot g rank res (rbase g ^ (rank i - 1))
      (parentsAt g i) rest
      (fun p hp => Nat.pow_le_pow_right (by rw [rbase]; omega)
        (by have := hrk i hirange p hp; omega))
    have hplen : (parentsAt g i).length ≤ maxParentsLen g := parentsAt_len_le g i
    have hKpos : 0 < rbase g ^ (rank i - 1) := Nat.pos_pow_of_pos _ (rbase_pos g)
    have hgain : (parentsAt g i).length * rbase g ^ (rank i - 1) <
        rbase g ^ rank i := by
      have h9 : (rank i - 1) + 1 = rank i := Nat.succ_pred_eq_of_pos hrank1
      have hpow : rbase g ^ rank i = rbase g ^ (rank i - 1) * rbase g := by
        conv_lhs => rw [← h9]
        rw [pow_succ]
      have hlt : (parentsAt g i).length < rbase g := by
        rw [rbase]
        omega
      calc (parentsAt g i).length * rbase g ^ (rank i - 1) <
            rbase g * rbase g ^ (rank i - 1) := mul_lt_mul_of_pos_right hlt hKpos
        _ = rbase g ^ (rank i - 1) * rbase g := Nat.mul_comm _ _
        _ = rbase g ^ rank i := hpow.symm
    omega

/-- Evaluating an unblocked state preserves the loop invariant and
strictly decreases the measure: one incomplete state becomes complete,
paying for every child promoted from the blocked set. -/
theorem loopInv_step_compute {g : Graph} {R : List Nat} {i : Nat} {rest : List Nat}
    {bl : List (List TaskKey)} {lg : List TaskKey} {res : ResultsTable}
    {c : Option CacheState} {tr : List Event} (rank : Nat → Nat)
    (m : ResultsMap) (lg2 : List TaskKey) (c1 : Option CacheState) (tr2 : List Event)
    (hwf : WFGraph g) (hrk : RankOk g rank) (hRlive : ∀ j ∈ R, liveb g j = true)
    (hinv : LoopInv g R ⟨i :: rest, bl, lg, res, c, tr⟩)
    (hc : isCompleteAt res i = false) :
    LoopInv g R
      ⟨(promote g (res.set i (some m)) (childrenAt g i) rest bl).1,
       (promote g (res.set i (some m)) (childrenAt g i) rest bl).2,
       lg2, res.set i (some m), c1, tr2⟩ ∧
    lsMeasure g rank
      ⟨(promote g (res.set i (some m)) (childrenAt g i) rest bl).1,
       (promote g (res.set i (some m)) (childrenAt g i) rest bl).2,
       lg2, res.set i (some m), c1, tr2⟩ <
      lsMeasure g rank ⟨i :: rest, bl, lg, res, c, tr⟩ := by
  obtain ⟨h1, h2, h3, h4, h5, h6, h7⟩ := hinv
  dsimp only at h1 h2 h3 h4 h5 h6 h7
  have hlive : liveb g i = true := h2 i (List.mem_cons_self i rest)
  have hilt : i < nstates g := liveb_lt hwf.2.2.1 hlive
  have hirange : i ∈ List.range (nstates g) := List.mem_range.mpr hilt
  have hireslen : i < res.length := by rw [h1]; exact hilt
  have hcomp1 : isCompleteAt (res.set i (some m)) i = true :=
    isCompleteAt_set_self hireslen
  constructor
  · refine ⟨?_, ?_, ?_, ?_, ?_, ?_, ?_⟩
    · rw [List.length_set]
      exact h1
    · intro x hx
      rcases promote_ready_mem g (res.set i (some m)) (childrenAt g i) rest bl x hx
        with h8 | h8
      · exact (hwf.2.2.2.2.2 i hirange x h8).1
      · exact h2 x (List.mem_cons_of_mem i h8)
    · intro t ht
      exact h3 t (promote_blocked_sub g (res.set i (some m)) (childrenAt g i) rest bl t ht)
    · exact promote_blocked_nodup g (res.set i (some m)) (childrenAt g i) rest bl h4
    · intro j hj hjl hjb
      have hjbl : keysOf g j ∈ bl :=
        promote_blocked_sub g (res.set i (some m)) (childrenAt g i) rest bl _ hjb
      by_cases hij : i ∈ parentsAt g j
      · have hjchild : j ∈ childrenAt g i := (hwf.2.2.2.2.1 j hj i hij).2
        have hstays := promote_stays g (res.set i (some m)) (childrenAt g i) rest bl
          (keysOf g j) h4 hjb
        have hblocked : isBlockedAt g (res.set i (some m)) j = true :=
          hstays.2 j hjchild rfl
        exact isBlockedAt_true_iff.mp hblocked
      · obtain ⟨p, hp, hpc⟩ := h5 j hj hjl hjbl
        have hpne : p ≠ i := fun hpe => hij (hpe ▸ hp)
        exact ⟨p, hp, by rw [isCompleteAt_set_ne hpne]; exact hpc⟩
    · intro j hj hjl hjb p hp hpc
      have hjbl : keysOf g j ∈ bl :=
        promote_blocked_sub g (res.set i (some m)) (childrenAt g i) rest bl _ hjb
      have hpne : p ≠ i := by
        intro hpe
        rw [hpe, hcomp1] at hpc
        cases hpc
      have hpcres : isCompleteAt res p = false := by
        rw [← isCompleteAt_set_ne hpne (v := some m)]
        exact hpc
      have hplive : liveb g p = true := (hwf.2.2.2.2.1 j hj p hp).1
      have hplt : p < nstates g := liveb_lt hwf.2.2.1 hplive
      rcases h6 j hj hjl hjbl p hp hpcres with h8 | h8
      · rcases List.mem_cons.mp h8 with h9 | h9
        · exact absurd h9 hpne
        · exact Or.inl (promote_ready_sub g (res.set i (some m)) (childrenAt g i)
            rest bl p h9)
      · rcases promote_erased g (res.set i (some m)) (childrenAt g i) rest bl
          (keysOf g p) h8 with h9 | ⟨c2, hc2r, hc2k, hc2c⟩
        · exact Or.inr h9
        · have hc2live : liveb g c2 = true := (hwf.2.2.2.2.2 i hirange c2 hc2c).1
          have hc2lt : c2 < nstates g := liveb_lt hwf.2.2.1 hc2live
          have hc2p : c2 = p := hwf.2.2.2.1 c2 (List.mem_range.mpr hc2lt) p
            (List.mem_range.mpr hplt) hc2live hplive hc2k
          exact Or.inl (hc2p ▸ hc2r)
    · intro j hj
      rcases h7 j hj with h8 | h8 | h8
      · exact Or.inl (isCompleteAt_set_mono h8)
      · rcases List.mem_cons.mp h8 with h9 | h9
        · subst h9
          exact Or.inl hcomp1
        · exact Or.inr (Or.inl (promote_ready_sub g (res.set i (some m))
            (childrenAt g i) rest bl j h9))
      · rcases promote_erased g (res.set i (some m)) (childrenAt g i) rest bl
          (keysOf g j) h8 with h9 | ⟨c2, hc2r, hc2k, hc2c⟩
        · exact Or.inr (Or.inr h9)
        · have hc2live : liveb g c2 = true := (hwf.2.2.2.2.2 i hirange c2 hc2c).1
          have hc2lt : c2 < nstates g := liveb_lt hwf.2.2.1 hc2live
          have hjlive : liveb g j = true := hRlive j hj
          have hjlt : j < nstates g := liveb_lt hwf.2.2.1 hjlive
          have hc2j : c2 = j := hwf.2.2.2.1 c2 (List.mem_range.mpr hc2lt) j
            (List.mem_range.mpr hjlt) hc2live hjlive hc2k
          exact Or.inr (Or.inl (hc2j ▸ hc2r))
  · unfold lsMeasure
    dsimp only
    rw [potReady_cons]
    have hB : ∀ c2 ∈ childrenAt g i,
        rbase g ^ rank c2 ≤ rbase g ^ maxRank g rank := by
      intro c2 hc2
      have hc2live : liveb g c2 = true := (hwf.2.2.2.2.2 i hirange c2 hc2).1
      have hc2lt : c2 < nstates g := liveb_lt hwf.2.2.1 hc2live
      exact Nat.pow_le_pow_right (by rw [rbase]; omega)
        (rank_le_maxRank g rank hc2lt)
    have hpot := promote_pot g rank (res.set i (some m)) (rbase g ^ maxRank g rank)
      (childrenAt g i) rest bl hB
    have hble : bl.length ≤ nstates g := by
      refine blocked_len_le g (nstates g) bl ?_ h4
      intro t ht
      obtain ⟨j, hj, _, hk⟩ := h3 t ht
      exact ⟨j, hj, hk⟩
    have hmul : rbase g ^ maxRank g rank * bl.length ≤
        rbase g ^ maxRank g rank * nstates g :=
      Nat.mul_le_mul_left _ hble
    have hbigC : bigC g rank = rbase g ^ maxRank g rank * nstates g + 1 := by
      rw [bigC, Nat.mul_comm]
    have hnone := noneCount_set m hireslen hc
    have hsplit : bigC g rank * noneCount res =
        bigC g rank * noneCount (res.set i (some m)) + bigC g rank := by
      rw [← hnone, Nat.mul_succ]
    omega

/-- Fuel one more than the measure suffices: the work-list never times
out, and a normal exit preserves the loop invariant with an empty ready
stack. -/
theorem worklist_terminates_master (fs : FlowState) (fr : Bool) (g : Graph)
    (rank : Nat → Nat) (R : List Nat) (hwf : WFGraph g) (hrk : RankOk g rank)
    (hRlive : ∀ j ∈ R, liveb g j = true) :
    ∀ (fm : Nat) (ls : LoopState), LoopInv g R ls → lsMeasure g rank ls ≤ fm →
    worklist fs fr g (fm + 1) ls ≠ .timeout ∧
    (∀ ls2, worklist fs fr g (fm + 1) ls = .ok ls2 →
      LoopInv g R ls2 ∧ ls2.ready = []) := by
  intro fm
  induction fm with
  | zero =>
    intro ls hinv hm
    obtain ⟨ready, bl, lg, res, c, tr⟩ := ls
    cases ready with
    | nil =>
      rw [worklist_ready_nil]
      refine ⟨(by intro h; cases h), fun ls2 h => ?_⟩
      cases h
      exact ⟨hinv, rfl⟩
    | cons i rest =>
      exfalso
      have hpos : 0 < lsMeasure g rank ⟨i :: rest, bl, lg, res, c, tr⟩ := by
        unfold lsMeasure
        dsimp only
        rw [potReady_cons]
        have := pot_elem_pos g rank i
        omega
      omega
  | succ n ih =>
    intro ls hinv hm
    obtain ⟨ready, bl, lg, res, c, tr⟩ := ls
    cases ready with
    | nil =>
      rw [worklist_ready_nil]
      refine ⟨(by intro h; cases h), fun ls2 h => ?_⟩
      cases h
      exact ⟨hinv, rfl⟩
    | cons i rest =>
      cases hc : isCompleteAt res i with
      | true =>
        obtain ⟨hinv2, hdec⟩ := loopInv_step_complete rank
          (accessLogs (keysOf g i) lg).1 (tr ++ (accessLogs (keysOf g i) lg).2)
          hinv hc
        rw [worklist_step_complete fs fr g (n + 1) i rest bl lg res c tr hc]
        exact ih _ hinv2 (by omega)
      | false =>
        cases hbl : isBlockedAt g res i with
        | true =>
          obtain ⟨hinv2, hdec⟩ := loopInv_step_blocked rank hwf hrk hinv hc hbl
          rw [worklist_step_blocked fs fr g (n + 1) i rest bl lg res c tr hc hbl]
          exact ih _ hinv2 (by omega)
        | false =>
          cases hcomp : computeTaskState fs fr g i res c with
          | error ecs =>
            obtain ⟨e, c1, evs⟩ := ecs
            rw [worklist_step_compute_err fs fr g (n + 1) i rest bl lg res c c1
              tr evs e hc hbl hcomp]
            refine ⟨(by intro h; cases h), fun ls2 h => ?_⟩
            cases h
          | ok mcs =>
            obtain ⟨m, c1, evs⟩ := mcs
            obtain ⟨hinv2, hdec⟩ := loopInv_step_compute rank m
              ((keysOf g i).foldl (fun lg2 k => if k ∈ lg2 then lg2 else k :: lg2) lg)
              c1 (tr ++ evs) hwf hrk hRlive hinv hc
            rw [worklist_step_compute_ok fs fr g (n + 1) i rest bl lg res c c1
              tr evs m hc hbl hcomp]
            exact ih _ hinv2 (by omega)

/-- When the ready stack empties, the invariant forces the blocked set
empty (by minimal-rank descent) and every requested state complete. -/
theorem loopInv_exit {g : Graph} {rank : Nat → Nat} {R : List Nat} {ls : LoopState}
    (hwf : WFGraph g) (hrk : RankOk g rank) (hinv : LoopInv g R ls)
    (hready : ls.ready = []) :
    ls.blocked = [] ∧ ∀ i ∈ R, isCompleteAt ls.results i = true := by
  obtain ⟨h1, h2, h3, h4, h5, h6, h7⟩ := hinv
  have hnob : ∀ (n i : Nat), i ∈ List.range (nstates g) → liveb g i = true →
      keysOf g i ∈ ls.blocked → rank i < n → False := by
    intro n
    induction n with
    | zero =>
      intro i _ _ _ h
      exact absurd h (Nat.not_lt_zero _)
    | succ n ih =>
      intro i hi hl hb hr
      obtain ⟨p, hp, hpc⟩ := h5 i hi hl hb
      rcases h6 i hi hl hb p hp hpc with h8 | h8
      · rw [hready] at h8
        cases h8
      · have hplive : liveb g p = true := (hwf.2.2.2.2.1 i hi p hp).1
        have hplt : p < nstates g := liveb_lt hwf.2.2.1 hplive
        have hprk : rank p < rank i := hrk i hi p hp
        exact ih p (List.mem_range.mpr hplt) hplive h8 (by omega)
  have hbl : ls.blocked = [] := by
    cases hblx : ls.blocked with
    | nil => rfl
    | cons t bl2 =>
      exfalso
      obtain ⟨i, hi, hl, hk⟩ := h3 t (by rw [hblx]; exact List.mem_cons_self t bl2)
      exact hnob (rank i + 1) i hi hl
        (by rw [hk, hblx]; exact List.mem_cons_self t bl2) (Nat.lt_succ_self _)
  refine ⟨hbl, ?_⟩
  intro i hi
  rcases h7 i hi with h8 | h8 | h8
  · exact h8
  · rw [hready] at h8
    cases h8
  · rw [hbl] at h8
    cases h8

/-- C3: for an acyclic task graph — acyclicity witnessed by a
topological rank on the dependency edges — the work-list loop of
`_compute_result_group_for_entity_name`, started as the source starts it
on the requested states, terminates within an explicit fuel bound; and
whenever it exits normally, the blocked set is empty and every requested
task state is complete. -/
theorem c3_worklist_terminates (fs : FlowState) (fr : Bool) (g : Graph)
    (rank : Nat → Nat) (req : List Nat) (res : ResultsTable) (cache : Option CacheState)
    (hwf : WFGraph g) (hrk : RankOk g rank)
    (hlen : res.length = nstates g) (hreq : ∀ j ∈ req, liveb g j = true) :
    ∃ fuel, worklist fs fr g fuel ⟨req.reverse, [], [], res, cache, []⟩ ≠ .timeout ∧
    ∀ ls2, worklist fs fr g fuel ⟨req.reverse, [], [], res, cache, []⟩ = .ok ls2 →
      ls2.blocked = [] ∧ ∀ j ∈ req, isCompleteAt ls2.results j = true := by
  have hinv : LoopInv g req ⟨req.reverse, [], [], res, cache, []⟩ := by
    refine ⟨hlen, ?_, ?_, ?_, ?_, ?_, ?_⟩
    · intro x hx
      exact hreq x (List.mem_reverse.mp hx)
    · intro t ht
      cases ht
    · exact List.nodup_nil
    · intro j hj hjl hjb
      cases hjb
    · intro j hj hjl hjb
      cases hjb
    · intro j hj
      exact Or.inr (Or.inl (List.mem_reverse.mpr hj))
  obtain ⟨hnt, hok⟩ := worklist_terminates_master fs fr g rank req hwf hrk hreq
    (lsMeasure g rank ⟨req.reverse, [], [], res, cache, []⟩) _ hinv (Nat.le_refl _)
  refine ⟨lsMeasure g rank ⟨req.reverse, [], [], res, cache, []⟩ + 1, hnt, ?_⟩
  intro ls2 h
  obtain ⟨hinv2, hready2⟩ := hok ls2 h
  exact loopInv_exit hwf hrk hinv2 hready2

/-- Witness for C3 on a concrete two-state acyclic graph, requesting the
dependent state. -/
theorem c3_worklist_terminates_witness :
    WFGraph c3G ∧ RankOk c3G (fun i => i) ∧
    (∃ fuel, worklist demoFlow true c3G fuel
        ⟨[1].reverse, [], [], [none, none], none, []⟩ ≠ .timeout ∧
      ∀ ls2, worklist demoFlow true c3G fuel
          ⟨[1].reverse, [], [], [none, none], none, []⟩ = .ok ls2 →
        ls2.blocked = [] ∧ ∀ j ∈ [1], isCompleteAt ls2.results j = true) :=
  ⟨(by unfold WFGraph; decide), (by unfold RankOk; decide),
   c3_worklist_terminates demoFlow true c3G (fun i => i) [1] [none, none] none
     (by unfold WFGraph; decide) (by unfold RankOk; decide) (by decide) (by decide)⟩

/-- Witness for C2 on the demo flow: a first `resolve("y")` succeeds,
and the theorem yields an idempotent second call with a compute-free
trace. -/
theorem c2_resolve_idempotent_witness :
    resolve demoR "y" 20 = .ok ((resolve demoR "y" 20).groupOf)
      ((resolve demoR "y" 20).resolverOf) ((resolve demoR "y" 20).traceOf) ∧
    ∃ fuel2 tr2, resolve ((resolve demoR "y" 20).resolverOf) "y" fuel2 =
        .ok ((resolve demoR "y" 20).groupOf) ((resolve demoR "y" 20).resolverOf) tr2 ∧
      (∀ e ∈ tr2, e.isComputed = false) :=
  ⟨rfl, @c2_resolve_idempotent demoR "y" 20 ((resolve demoR "y" 20).groupOf)
    ((resolve demoR "y" 20).resolverOf) ((resolve demoR "y" 20).traceOf) rfl⟩

/-- Witness for C5 on the demo flow: the bootstrap entity resolves to
exactly one result, whose value becomes the persistent cache while the
resolver turns full-ready. -/
theorem c5_bootstrap_cardinality_witness :
    demoR.full_ready = false ∧
    getReadyBootstrap demoR 20 = .ok () c5rb ((getReadyBootstrap demoR 20).traceOf) ∧
    c5out = .ok (c5out.groupOf) (c5out.resolverOf) (c5out.traceOf) ∧
    (c5out.groupOf).results = [c5r0] ∧
    getReadyFull demoR 20 = .ok ()
      { c5out.resolverOf with
        cache := some ((c5out.resolverOf).flow.cache_for_value c5r0.value),
        full_ready := true }
      ((getReadyBootstrap demoR 20).traceOf ++ c5out.traceOf) :=
  ⟨rfl, rfl, rfl, rfl,
   (@c5_bootstrap_cardinality demoR c5rb (c5out.resolverOf) 20
     ((getReadyBootstrap demoR 20).traceOf) (c5out.traceOf) (c5out.groupOf)
     rfl rfl rfl).2.2 c5r0 rfl⟩

/-- Witness for C6 on the persistable entity `w` with a pre-populated
cache: every output query hits, `compute` is not invoked, and `load` is
called exactly once per query. -/
theorem c6_persist_cache_usage_witness :
    taskSetup demoFlow c6G [none] 0 = .ok c6su ∧
    ∃ rs, computeTaskState demoFlow true c6G 0 [none] (some preCacheW) =
        .ok (dictOf ((c6su.task.keys.zip rs).map (fun p => (p.1.entity_name, p.2))),
             some preCacheW,
             c6su.tk_queries.map (fun q => Event.loadCall q true)) ∧
      (∀ r ∈ rs, cacheLoad preCacheW r.query = some r) ∧
      countComputedIdx (c6su.tk_queries.map (fun q => Event.loadCall q true)) 0 = 0 ∧
      (∀ q ∈ c6su.tk_queries,
        countLoadCalls (c6su.tk_queries.map (fun q2 => Event.loadCall q2 true)) q = 1) :=
  ⟨rfl, (@c6_persist_cache_usage demoFlow c6G 0 [none] preCacheW c6su
    rfl rfl (by decide)).1 (by decide)⟩

/-- Witness for C7 on `w` with an empty cache: the task computes `7`,
and the installed result carries the canonicalized reload `8 = 7 + 1`,
with the validate/save/reload triple in the trace. -/
theorem c7_save_reload_canonical_witness :
    tryLoadAll c7cache c6su.tk_queries = (c7evs2, none) ∧
    computeTaskState demoFlow true c6G 0 [none] (some c7cache) =
      .ok (dictOf ((c6su.task.keys.zip
            (c7pairs.map (fun p => ⟨p.2, c7cache.canon p.1⟩))).map
              (fun p => (p.1.entity_name, p.2))),
           some (c7pairs.foldl (fun cc p => cacheSave cc ⟨p.2, p.1⟩) c7cache),
           (c7evs2 ++ [.computed 0 c6su.task.keys]) ++
             c7pairs.flatMap (fun p =>
               [.validateCall p.2 p.1, .saveCall p.2 (c7cache.canon p.1),
                .loadCall p.2 true])) :=
  ⟨rfl, (@c7_save_reload_canonical demoFlow c6G 0 [none] c7cache c6su
    rfl rfl).1 c7evs2 rfl rfl rfl (by decide)⟩

/-- Witness for C8 on `badx`, whose protocol rejects its computed value:
the work-list propagates a protocol error and the state stays
incomplete. -/
theorem c8_protocol_rejection_witness :
    taskSetup demoFlow c8G [none] 0 = .ok c8su ∧
    ∃ v q c2 evs,
      worklist demoFlow false c8G (0 + 1) ⟨0 :: [], [], [], [none], none, []⟩ =
        .err (.protocolError q) ⟨[], [], [], [none], c2, [] ++ evs⟩ ∧
      q ∈ c8su.tk_queries ∧ demoFlow.validate q.protocol v = false ∧
      isCompleteAt [none] 0 = false :=
  ⟨rfl, @c8_protocol_rejection demoFlow false c8G 0 0 [] [] [] [none] none [] c8su
    rfl rfl (Or.inl rfl) rfl (by decide)⟩

/-- Witness for C10 on `l`, whose `compute` returns two values for one
declared name: the length assert fires before any install and the state
stays incomplete. -/
theorem c10_len_assert_witness :
    taskSetup c10Flow c10G [none] 0 = .ok c10su ∧
    ∃ evs, worklist c10Flow false c10G (0 + 1) ⟨0 :: [], [], [], [none], none, []⟩ =
        .err .assertLenValues ⟨[], [], [], [none], none, [] ++ evs⟩ ∧
      isCompleteAt [none] 0 = false :=
  ⟨rfl, @c10_len_assert c10Flow false c10G 0 0 [] [] [] [none] none [] c10su
    rfl rfl (Or.inl rfl) (by decide)⟩

end Bionic
